import Mathlib

/-!
# Simple-language interpreter: lexer, parser, AST factory and visitor passes

A shallow embedding of `src/include/Lexer.hpp`, `src/include/Parser.hpp`,
`src/include/ASTNode.hpp`, `src/include/Interpreter.hpp` and the pipeline of
`src/main.cpp`.

Modelling conventions.

* A `std::string` is a `List Char`, one list element per C++ `char`;
  `isalpha` is the test of the "C" locale (the letters `A`-`Z` and `a`-`z`).
* `int` and `size_t` counters are natural numbers; texts and token vectors are
  assumed shorter than `2^31`, so no counter wraps.
* A thrown `std::runtime_error` is an `Except.error` carrying the data the
  message is built from.
-/

namespace SimpleLanguage

/-! ## `std::string` operations used by the sources -/

/-- The scan of `std::string::find`: `rest` is the text from offset `idx` on. -/
def findFrom (needle : List Char) : List Char → Nat → Option Nat
  | [], idx => if needle = [] then some idx else none
  | c :: rest, idx =>
    if needle.isPrefixOf (c :: rest) then some idx
    else findFrom needle rest (idx + 1)

/-- The call `s.find(needle, pos)`: the first offset `≥ pos` at which `needle` occurs,
`none` standing for `std::string::npos`. -/
def find (s needle : List Char) (pos : Nat) : Option Nat :=
  if pos ≤ s.length then findFrom needle (s.drop pos) pos else none

/-- The call `s.replace(pos, n, str)` for `pos ≤ s.length`. -/
def replace (s : List Char) (pos n : Nat) (str : List Char) : List Char :=
  s.take pos ++ str ++ s.drop (pos + n)

/-- The call `s.substr(pos, n)` for `pos ≤ s.length`. -/
def substr (s : List Char) (pos n : Nat) : List Char :=
  (s.drop pos).take n

/-- The context window of the lexer's messages:
`sourceCode.substr(std::max(0, i - 5), 10)`. -/
def contextAt (sourceCode : List Char) (i : Nat) : List Char :=
  substr sourceCode (i - 5) 10

/-! ## Newline normalisation (`Lexer::normalizeNewlines`) -/

theorem findFrom_some (needle : List Char) :
    ∀ (rest : List Char) (idx p : Nat), findFrom needle rest idx = some p →
      idx ≤ p ∧ p ≤ idx + rest.length ∧ needle.isPrefixOf (rest.drop (p - idx)) = true := by
  intro rest
  induction rest with
  | nil =>
    intro idx p h
    simp only [findFrom] at h
    split at h
    · rename_i hn
      cases h
      subst hn
      simp
    · cases h
  | cons c rest ih =>
    intro idx p h
    simp only [findFrom] at h
    split at h
    · rename_i hp
      cases h
      simpa using hp
    · obtain ⟨h1, h2, h3⟩ := ih (idx + 1) p h
      refine ⟨by omega, by simp only [List.length_cons]; omega, ?_⟩
      have : p - idx = (p - (idx + 1)) + 1 := by omega
      rw [this, List.drop_succ_cons]
      exact h3

theorem find_some {s needle : List Char} {pos p : Nat} (h : find s needle pos = some p) :
    pos ≤ p ∧ p ≤ s.length ∧ needle.isPrefixOf (s.drop p) = true := by
  unfold find at h
  split at h
  · rename_i hle
    obtain ⟨h1, h2, h3⟩ := findFrom_some needle _ _ _ h
    refine ⟨h1, ?_, ?_⟩
    · simp only [List.length_drop] at h2
      omega
    · rw [List.drop_drop] at h3
      have : pos + (p - pos) = p := by omega
      rw [this] at h3
      exact h3
  · cases h

theorem find_some_cons {s : List Char} {c : Char} {needle : List Char} {pos p : Nat}
    (h : find s (c :: needle) pos = some p) :
    ∃ tl, s.drop p = c :: tl ∧ needle.isPrefixOf tl = true := by
  obtain ⟨_, _, h3⟩ := find_some h
  cases hd : s.drop p with
  | nil => rw [hd] at h3; simp [List.isPrefixOf] at h3
  | cons d tl =>
    rw [hd] at h3
    simp only [List.isPrefixOf, Bool.and_eq_true, beq_iff_eq] at h3
    exact ⟨tl, by rw [h3.1], h3.2⟩

/-- First loop of `normalizeNewlines`:
`while ((pos = sourceCode.find("\r\n", pos)) != npos) sourceCode.replace(pos, 2, "\n");` -/
def replaceCRLF (sourceCode : List Char) (pos : Nat) : List Char :=
  match h : find sourceCode ['\r', '\n'] pos with
  | none => sourceCode
  | some p => replaceCRLF (replace sourceCode p 2 ['\n']) p
termination_by sourceCode.length
decreasing_by
  obtain ⟨tl, h1, h2⟩ := find_some_cons h
  cases tl with
  | nil => simp [List.isPrefixOf] at h2
  | cons d tl =>
    have hl := congrArg List.length h1
    simp only [List.length_drop, List.length_cons] at hl
    simp only [replace, List.length_append, List.length_take, List.length_drop,
      List.length_cons, List.length_nil]
    omega

/-- Second loop of `normalizeNewlines`:
`while ((pos = sourceCode.find("\r", pos)) != npos) sourceCode.replace(pos, 1, "\n");` -/
def replaceCR (sourceCode : List Char) (pos : Nat) : List Char :=
  match h : find sourceCode ['\r'] pos with
  | none => sourceCode
  | some p => replaceCR (replace sourceCode p 1 ['\n']) p
termination_by sourceCode.count '\r'
decreasing_by
  obtain ⟨tl, h1, _⟩ := find_some_cons h
  have hs : sourceCode = sourceCode.take p ++ '\r' :: tl := by
    rw [← h1, List.take_append_drop]
  have hd : sourceCode.drop (p + 1) = tl := by
    rw [← List.drop_drop, h1]; rfl
  rw [replace, hd]
  conv_rhs => rw [hs]
  simp [List.count_append, List.count_cons]

/-- The method `Lexer::normalizeNewlines`: the first loop, then the second,
each from position 0. -/
def normalizeNewlines (sourceCode : List Char) : List Char :=
  replaceCR (replaceCRLF sourceCode 0) 0

/-! ## Tokens and lexer (`Lexer.hpp`) -/

/-- The enum `Lexer::TokenType`. -/
inductive TokenType
  | PRINT | LPAR | STRING | RPAR | END | UNKNOWN
  deriving DecidableEq, Repr

/-- The struct `Lexer::Token`. -/
structure Token where
  type : TokenType
  value : List Char
  deriving DecidableEq, Repr

/-- The enum `Lexer::LexerState`. -/
inductive LexerState
  | DEFAULT | STRING
  deriving DecidableEq, Repr

/-- The three `std::runtime_error`s thrown by the lexer, with the data their
messages are built from: the position and the context window
`sourceCode.substr(std::max(0, position - 5), 10)`. -/
inductive LexicalError
  /-- Message "unclosed string literal at position ..." (`Lexer::tokenize`). -/
  | UnterminatedString (position : Nat) (context : List Char)
  /-- Message "unexpected character '.' at position ..."
  (`handleSpecialCharacter`). -/
  | UnexpectedCharacter (c : Char) (position : Nat) (context : List Char)
  /-- Message "unexpected token '...' at position ..." (`addKeywordToken`). -/
  | UnknownToken (token : List Char) (position : Nat) (context : List Char)
  deriving DecidableEq, Repr

/-- The `keyWords` map: `{"print" ↦ PRINT}`. -/
def keyWords (currentToken : List Char) : Option TokenType :=
  if currentToken = ['p', 'r', 'i', 'n', 't'] then some TokenType.PRINT else none

/-- The `specialCharacters` map: `{'(' ↦ LPAR, ')' ↦ RPAR, ';' ↦ END}`. -/
def specialCharacters (c : Char) : Option TokenType :=
  if c = '(' then some TokenType.LPAR
  else if c = ')' then some TokenType.RPAR
  else if c = ';' then some TokenType.END
  else none

/-- The test `!tokens.empty() && tokens.back().type != TokenType::END`. -/
def lacksEnd (tokens : List Token) : Bool :=
  match tokens.getLast? with
  | none => false
  | some t => t.type != TokenType.END

/-- The method `Lexer::addKeywordToken`. -/
def addKeywordToken (sourceCode : List Char) (tokens : List Token)
    (currentToken : List Char) (position : Nat) : Except LexicalError (List Token) :=
  if currentToken ≠ [] then
    match keyWords currentToken with
    | some t => .ok (tokens ++ [⟨t, currentToken⟩])
    | none =>
      .error (.UnknownToken currentToken position (contextAt sourceCode position))
  else .ok tokens

/-- The method `Lexer::handleSpecialCharacter`, called in state `DEFAULT`. Returns the
token vector, the (cleared) pending identifier and the lexer state. -/
def handleSpecialCharacter (sourceCode : List Char) (tokens : List Token)
    (currentChar : Char) (currentToken : List Char) (i : Nat) :
    Except LexicalError (List Token × List Char × LexerState) :=
  match addKeywordToken sourceCode tokens currentToken i with
  | .error e => .error e
  | .ok tokens =>
    match specialCharacters currentChar with
    | some t => .ok (tokens ++ [⟨t, [currentChar]⟩], [], LexerState.DEFAULT)
    | none =>
      if currentChar = '\n' then
        if lacksEnd tokens then
          .ok (tokens ++ [⟨TokenType.END, ['\\', 'n']⟩], [], LexerState.DEFAULT)
        else .ok (tokens, [], LexerState.DEFAULT)
      else if currentChar = '"' then .ok (tokens, [], LexerState.STRING)
      else .error (.UnexpectedCharacter currentChar i (contextAt sourceCode i))

/-- The inner loop of the `STRING` case,
`while (i < sourceCode.length() && sourceCode.at(i) != '"') str += sourceCode.at(i++);`
run on the text from offset `i` on: returns `str` and the text left. -/
def readString : List Char → List Char × List Char
  | [] => ([], [])
  | c :: rest =>
    if c = '"' then ([], c :: rest)
    else ((c :: (readString rest).1), (readString rest).2)

theorem readString_append (l : List Char) :
    (readString l).1 ++ (readString l).2 = l := by
  induction l with
  | nil => rfl
  | cons c rest ih =>
    unfold readString
    split
    · rfl
    · simp [ih]

theorem readString_length (l : List Char) :
    (readString l).1.length + (readString l).2.length = l.length := by
  rw [← List.length_append, readString_append]

/-- The `for` loop of `Lexer::tokenize`, on the text `rest` from offset `i` on
(`sourceCode` is the whole text, used only in messages). Returns the loop's
outcome, tokens and pending identifier on normal exit, and the lexer state
left in the object. -/
def scan (sourceCode : List Char) (rest : List Char) (i : Nat) (state : LexerState)
    (tokens : List Token) (currentToken : List Char) :
    Except LexicalError (List Token × List Char) × LexerState :=
  match rest, state with
  | [], _ => (.ok (tokens, currentToken), state)
  | c :: rest, .DEFAULT =>
    if c = ' ' ∨ c = '\t' then
      scan sourceCode rest (i + 1) LexerState.DEFAULT tokens currentToken
    else if c.isAlpha then
      scan sourceCode rest (i + 1) LexerState.DEFAULT tokens (currentToken ++ [c])
    else
      match handleSpecialCharacter sourceCode tokens c currentToken i with
      | .error e => (.error e, LexerState.DEFAULT)
      | .ok (tokens, currentToken, state) =>
        scan sourceCode rest (i + 1) state tokens currentToken
  | c :: rest, .STRING =>
    match h : (readString (c :: rest)).2 with
    | [] =>
      let j := i + (readString (c :: rest)).1.length
      (.error (.UnterminatedString j (contextAt sourceCode j)), LexerState.STRING)
    | _ :: rest' =>
      let str := (readString (c :: rest)).1
      scan sourceCode rest' (i + str.length + 1) LexerState.DEFAULT
        (tokens ++ [⟨TokenType.STRING, str⟩]) currentToken
termination_by rest.length
decreasing_by
  all_goals simp_wf
  have hl := readString_length (c :: rest)
  rw [h] at hl
  simp only [List.length_cons] at hl
  omega

/-- A `Lexer` object: the (normalised) source text and the member `state`. -/
structure Lexer where
  sourceCode : List Char
  state : LexerState
  deriving DecidableEq, Repr

/-- The constructor `Lexer::Lexer(const std::string &)`. -/
def Lexer.new (sourceCode : List Char) : Lexer :=
  { sourceCode := normalizeNewlines sourceCode, state := LexerState.DEFAULT }

/-- The method `Lexer::tokenize`: the returned vector or the thrown error, and the object
after the call (its member `state` is not reset on entry). -/
def Lexer.tokenize (lexer : Lexer) : Except LexicalError (List Token) × Lexer :=
  match scan lexer.sourceCode lexer.sourceCode 0 lexer.state [] [] with
  | (.error e, state) => (.error e, { lexer with state := state })
  | (.ok (tokens, currentToken), state) =>
    match addKeywordToken lexer.sourceCode tokens currentToken lexer.sourceCode.length with
    | .error e => (.error e, { lexer with state := state })
    | .ok tokens =>
      (.ok (if lacksEnd tokens then tokens ++ [⟨TokenType.END, []⟩] else tokens),
        { lexer with state := state })

/-! ## Errors of the later stages -/

/-- The `std::runtime_error`s thrown by `Parser` and `ASTNodeFactory`. -/
inductive SyntaxError
  /-- Message "no tokens to parse" (`Parser::parse`). -/
  | NoTokens
  /-- Message "unrecognized instruction" (`ASTNodeFactory::createNode`). -/
  | UnrecognizedInstruction
  /-- Message "unexpected token '...' at position ..." (`Parser::parse`). -/
  | UnexpectedToken (value : List Char) (position : Nat)
  /-- Message "incomplete print statement" (`Parser::handlePrintStatement`). -/
  | IncompletePrint
  /-- Message "expected '(' after 'print' keyword". -/
  | ExpectedLParen
  /-- Message "expected ')' after string literal". -/
  | ExpectedRParen
  /-- Message "expected newline or semicolon after print". -/
  | ExpectedTerminator
  deriving DecidableEq, Repr

/-- The error of `SemanticAnalysisVisitor`. -/
inductive SemanticError
  /-- Message "PRINT requires a string argument." -/
  | MissingArgument
  deriving DecidableEq, Repr

/-- The error of `OptimizationVisitor`. -/
inductive OptimizationError
  /-- Message "PRINT statement with empty string." -/
  | EmptyStringArgument
  deriving DecidableEq, Repr

/-- Every way a stage can stop abnormally. -/
inductive Failure
  | lexical (e : LexicalError)
  | syntactic (e : SyntaxError)
  | semantic (e : SemanticError)
  | optimization (e : OptimizationError)
  /-- The `std::out_of_range` of `std::vector::at`. -/
  | outOfRange
  /-- A member call through a null `StringNode *` (undefined behaviour). -/
  | nullDereference
  deriving DecidableEq, Repr

/-! ## AST nodes and factory (`ASTNode.hpp`) -/

/-- The class `StringNode`. -/
structure StringNode where
  value : List Char
  deriving DecidableEq, Repr

/-- The class `PrintNode`: the owned `std::unique_ptr<StringNode>`, `none` for
`nullptr`. -/
structure PrintNode where
  stringNode : Option StringNode
  deriving DecidableEq, Repr

/-- An object of a class derived from `ASTNode`. -/
inductive ASTNode
  | ofString (node : StringNode)
  | ofPrint (node : PrintNode)
  deriving DecidableEq, Repr

/-- The method `ASTNodeFactory::createStringNode`. -/
def createStringNode (token : Token) : StringNode :=
  { value := token.value }

/-- The bounds-checked access `std::vector::at`. -/
def vectorAt {α : Type} (v : List α) (n : Nat) : Except Failure α :=
  match v[n]? with
  | some x => .ok x
  | none => .error Failure.outOfRange

/-- The method `ASTNodeFactory::createNode`. -/
def createNode (tokens : List Token) : Except Failure ASTNode :=
  match vectorAt tokens 0 with
  | .error e => .error e
  | .ok token =>
    match token.type with
    | .PRINT =>
      match vectorAt tokens 1 with
      | .error e => .error e
      | .ok argument =>
        .ok (ASTNode.ofPrint
          { stringNode :=
              if argument.type = TokenType.UNKNOWN then none
              else some (createStringNode argument) })
    | _ => .error (Failure.syntactic SyntaxError.UnrecognizedInstruction)

/-! ## Parser (`Parser.hpp`) -/

/-- The enum `Parser::ParserState`. -/
inductive ParserState
  | DEFAULT | PRINT
  deriving DecidableEq, Repr

/-- The members of a `Parser` object. -/
structure Parser where
  tokens : List Token
  nodes : List ASTNode
  tokenIndex : Nat
  state : ParserState
  deriving DecidableEq, Repr

/-- The constructor `Parser::Parser(const std::vector<Lexer::Token> &)`. -/
def Parser.new (tokens : List Token) : Parser :=
  { tokens := tokens, nodes := [], tokenIndex := 0, state := ParserState.DEFAULT }

/-- The `stateMap`: `{PRINT ↦ PRINT}`. -/
def stateMap (t : TokenType) : Option ParserState :=
  if t = TokenType.PRINT then some ParserState.PRINT else none

/-- The method `Parser::expectToken`, the message being one of the three fixed ones. -/
def Parser.expectToken (p : Parser) (expectedType : TokenType) (position : Nat)
    (errorMessage : SyntaxError) : Except Failure Unit :=
  match vectorAt p.tokens position with
  | .error e => .error e
  | .ok t =>
    if t.type ≠ expectedType then .error (Failure.syntactic errorMessage) else .ok ()

/-- The token `{Lexer::TokenType::UNKNOWN, ""}` that `handlePrintStatement`
inserts. -/
def unknownToken : Token := ⟨TokenType.UNKNOWN, []⟩

/-- The call `tokens.insert(tokens.begin() + pos, t)`. -/
def vectorInsert (tokens : List Token) (pos : Nat) (t : Token) : List Token :=
  tokens.take pos ++ t :: tokens.drop pos

/-- The step of `handlePrintStatement` that inserts the `UNKNOWN` token when
the token at `tokenIndex + 2` is not a `STRING`. -/
def Parser.insertUnknown (p : Parser) : Except Failure Parser :=
  match vectorAt p.tokens (p.tokenIndex + 2) with
  | .error e => .error e
  | .ok t =>
    if t.type ≠ TokenType.STRING then
      .ok { p with tokens := vectorInsert p.tokens (p.tokenIndex + 2) unknownToken }
    else .ok p

/-- The last step of `handlePrintStatement`: build the node from
`{tokens.at(tokenIndex), tokens.at(tokenIndex + 2)}`, append it, advance. -/
def Parser.pushNode (p : Parser) : Except Failure Parser :=
  match vectorAt p.tokens p.tokenIndex with
  | .error e => .error e
  | .ok t0 =>
    match vectorAt p.tokens (p.tokenIndex + 2) with
    | .error e => .error e
    | .ok t1 =>
      match createNode [t0, t1] with
      | .error e => .error e
      | .ok node =>
        .ok { p with nodes := p.nodes ++ [node], tokenIndex := p.tokenIndex + 5,
                     state := ParserState.DEFAULT }

/-- The method `Parser::handlePrintStatement`. -/
def Parser.handlePrintStatement (p : Parser) : Except Failure Parser :=
  if p.tokens.length < p.tokenIndex + 5 then
    .error (Failure.syntactic SyntaxError.IncompletePrint)
  else
    match p.expectToken TokenType.LPAR (p.tokenIndex + 1) SyntaxError.ExpectedLParen with
    | .error e => .error e
    | .ok _ =>
      match p.insertUnknown with
      | .error e => .error e
      | .ok p =>
        match p.expectToken TokenType.RPAR (p.tokenIndex + 3) SyntaxError.ExpectedRParen with
        | .error e => .error e
        | .ok _ =>
          match p.expectToken TokenType.END (p.tokenIndex + 4)
              SyntaxError.ExpectedTerminator with
          | .error e => .error e
          | .ok _ => p.pushNode

theorem insertUnknown_ok {p q : Parser} (h : p.insertUnknown = .ok q) :
    q.tokenIndex = p.tokenIndex ∧ q.nodes = p.nodes ∧ q.state = p.state ∧
      (q.tokens = p.tokens ∨
        q.tokens = vectorInsert p.tokens (p.tokenIndex + 2) unknownToken) := by
  unfold Parser.insertUnknown at h
  split at h
  · cases h
  · split at h
    · cases h; simp
    · cases h; simp

theorem pushNode_ok {p q : Parser} (h : p.pushNode = .ok q) :
    q.tokenIndex = p.tokenIndex + 5 ∧ q.tokens = p.tokens ∧
      q.state = ParserState.DEFAULT ∧ ∃ node, q.nodes = p.nodes ++ [node] := by
  unfold Parser.pushNode at h
  split at h
  · cases h
  · split at h
    · cases h
    · split at h
      · cases h
      · cases h; simp

theorem vectorInsert_length (tokens : List Token) (pos : Nat) (t : Token) :
    (vectorInsert tokens pos t).length = tokens.length + 1 := by
  simp only [vectorInsert, List.length_append, List.length_take, List.length_cons,
    List.length_drop]
  omega

theorem handlePrintStatement_ok {p q : Parser} (h : p.handlePrintStatement = .ok q) :
    q.tokenIndex = p.tokenIndex + 5 ∧ q.tokens.length ≤ p.tokens.length + 1 ∧
      p.tokenIndex + 5 ≤ p.tokens.length ∧ q.state = ParserState.DEFAULT := by
  unfold Parser.handlePrintStatement at h
  split at h
  · cases h
  · rename_i hlen
    split at h
    · cases h
    · split at h
      · cases h
      · rename_i p1 h1
        split at h
        · cases h
        · split at h
          · cases h
          · obtain ⟨a1, _, _, a4⟩ := insertUnknown_ok h1
            obtain ⟨b1, b2, b3, _⟩ := pushNode_ok h
            refine ⟨by omega, ?_, by omega, b3⟩
            rw [b2]
            rcases a4 with a4 | a4
            · rw [a4]; omega
            · rw [a4, vectorInsert_length]

/-- The `while (tokenIndex < tokens.size())` loop of `Parser::parse`. -/
def Parser.run (p : Parser) : Except Failure Parser :=
  if h : p.tokenIndex < p.tokens.length then
    match hs : p.state with
    | .DEFAULT =>
      match hm : stateMap p.tokens[p.tokenIndex].type with
      | some state => Parser.run { p with state := state }
      | none =>
        .error (Failure.syntactic
          (SyntaxError.UnexpectedToken p.tokens[p.tokenIndex].value p.tokenIndex))
    | .PRINT =>
      match hp : p.handlePrintStatement with
      | .error e => .error e
      | .ok q => Parser.run q
  else .ok p
termination_by
  2 * (p.tokens.length - p.tokenIndex) + (if p.state = ParserState.PRINT then 0 else 1)
decreasing_by
  · have : state = ParserState.PRINT := by
      unfold stateMap at hm
      split at hm
      · cases hm; rfl
      · cases hm
    simp only [this, hs]
    simp
  · obtain ⟨h1, h2, h3, h4⟩ := handlePrintStatement_ok hp
    simp only [h4, hs]
    simp
    omega

/-- The method `Parser::parse`, on a freshly constructed parser. -/
def Parser.parse (p : Parser) : Except Failure (List ASTNode) :=
  if p.tokens = [] then .error (Failure.syntactic SyntaxError.NoTokens)
  else
    match p.run with
    | .error e => .error e
    | .ok q => .ok q.nodes

/-! ## Visitor passes (`Interpreter.hpp`) -/

/-- The call `node->accept(semanticAnalysisVisitor)`. -/
def SemanticAnalysisVisitor.visit : ASTNode → Except Failure Unit
  | .ofString _ => .ok ()
  | .ofPrint node =>
    if node.stringNode = none then
      .error (Failure.semantic SemanticError.MissingArgument)
    else .ok ()

/-- The call `node->accept(optimizationVisitor)`. -/
def OptimizationVisitor.visit : ASTNode → Except Failure Unit
  | .ofString _ => .ok ()
  | .ofPrint node =>
    match node.stringNode with
    | none => .error Failure.nullDereference
    | some stringNode =>
      if stringNode.value = [] then
        .error (Failure.optimization OptimizationError.EmptyStringArgument)
      else .ok ()

/-- The call `node->accept(interpreter)`: the outcome and the contents of `std::cout`
after the call, `out` being its contents before. -/
def ExecuteVisitor.visit : ASTNode → List Char → Except Failure Unit × List Char
  | .ofString _, out => (.ok (), out)
  | .ofPrint node, out =>
    match node.stringNode with
    | none => (.error Failure.nullDereference, out)
    | some stringNode => (.ok (), out ++ stringNode.value ++ ['\n'])

/-- The loop `for (const auto &node : nodes) node->accept(visitor);` for a visitor
without output. -/
def forEachNode (visit : ASTNode → Except Failure Unit) :
    List ASTNode → Except Failure Unit
  | [] => .ok ()
  | node :: nodes =>
    match visit node with
    | .error e => .error e
    | .ok _ => forEachNode visit nodes

/-- The loop `for (const auto &node : nodes) node->accept(interpreter);`. -/
def executeNodes : List ASTNode → List Char → Except Failure Unit × List Char
  | [], out => (.ok (), out)
  | node :: nodes, out =>
    match ExecuteVisitor.visit node out with
    | (.error e, out) => (.error e, out)
    | (.ok _, out) => executeNodes nodes out

/-- The three passes of `main` over the node list: the outcome and what the
`ExecuteVisitor` wrote to `std::cout`. -/
def runPasses (nodes : List ASTNode) : Except Failure Unit × List Char :=
  match forEachNode SemanticAnalysisVisitor.visit nodes with
  | .error e => (.error e, [])
  | .ok _ =>
    match forEachNode OptimizationVisitor.visit nodes with
    | .error e => (.error e, [])
    | .ok _ => executeNodes nodes []

/-! ## The pipeline (`main.cpp`) -/

/-- The `try` block of `main`, `sourceCode` being the contents of `input.txt`:
the outcome (an error is the one caught and reported) and what the
`ExecuteVisitor` wrote to `std::cout`. `tokenize` is called twice on the same
`Lexer` object; the token dump of `showTokens` is display only and is not
part of the result. -/
def main (sourceCode : List Char) : Except Failure Unit × List Char :=
  let lexer := Lexer.new sourceCode
  match lexer.tokenize with
  | (.error e, _) => (.error (Failure.lexical e), [])
  | (.ok _, lexer) =>
    match lexer.tokenize with
    | (.error e, _) => (.error (Failure.lexical e), [])
    | (.ok tokens, _) =>
      match (Parser.new tokens).parse with
      | .error e => (.error e, [])
      | .ok nodes => runPasses nodes

/-! ## Reference definitions used in the statements -/

/-- Reference for the first loop of `normalizeNewlines`: each "\r\n" pair
becomes "\n", left to right. -/
def crlfRef : List Char → List Char
  | [] => []
  | [c] => [c]
  | c :: d :: rest =>
    if c = '\r' ∧ d = '\n' then '\n' :: crlfRef rest else c :: crlfRef (d :: rest)

/-- Reference for the second loop of `normalizeNewlines`: each '\r' becomes
'\n'. -/
def crRef : List Char → List Char
  | [] => []
  | c :: rest => (if c = '\r' then '\n' else c) :: crRef rest

/-- Reference normalisation, following the specification: a single
left-to-right pass that replaces each "\r\n" pair by one "\n" and each
remaining lone "\r" by one "\n". -/
def normalizeRef : List Char → List Char
  | [] => []
  | [c] => if c = '\r' then ['\n'] else [c]
  | c :: d :: rest =>
    if c = '\r' then
      if d = '\n' then '\n' :: normalizeRef rest else '\n' :: normalizeRef (d :: rest)
    else c :: normalizeRef (d :: rest)

/-- A statement of the source language as written in a program text:
`print("s")` for `argument = some s`, `print()` for `argument = none`,
followed by the terminator character. -/
structure Statement where
  argument : Option (List Char)
  terminator : Char
  deriving DecidableEq, Repr

/-- The characters of a statement. -/
def Statement.text (st : Statement) : List Char :=
  match st.argument with
  | some s => "print(\"".toList ++ s ++ "\")".toList ++ [st.terminator]
  | none => "print()".toList ++ [st.terminator]

/-- The program text made of the given statements, in order. -/
def programText : List Statement → List Char
  | [] => []
  | st :: rest => st.text ++ programText rest

/-- The `END` token the lexer emits for a terminator character: text ";" for
a semicolon, the two characters backslash and n for a line break. -/
def endToken (terminator : Char) : Token :=
  if terminator = ';' then ⟨TokenType.END, [';']⟩ else ⟨TokenType.END, ['\\', 'n']⟩

/-- The tokens expected for a statement. -/
def Statement.tokens (st : Statement) : List Token :=
  match st.argument with
  | some s =>
    [⟨TokenType.PRINT, "print".toList⟩, ⟨TokenType.LPAR, ['(']⟩,
      ⟨TokenType.STRING, normalizeNewlines s⟩, ⟨TokenType.RPAR, [')']⟩,
      endToken st.terminator]
  | none =>
    [⟨TokenType.PRINT, "print".toList⟩, ⟨TokenType.LPAR, ['(']⟩,
      ⟨TokenType.RPAR, [')']⟩, endToken st.terminator]

/-- The statement with its argument normalised as the `Lexer` constructor
does. -/
def Statement.normalized (st : Statement) : Statement :=
  { st with argument := st.argument.map normalizeNewlines }

/-- A statement as the claims take it: the argument has no double quote and
the terminator is a semicolon or a line feed. -/
def Statement.WellFormed (st : Statement) : Prop :=
  (∀ s, st.argument = some s → '"' ∉ s) ∧ (st.terminator = ';' ∨ st.terminator = '\n')

/-- The tokens expected for a program. -/
def programTokens : List Statement → List Token
  | [] => []
  | st :: rest => st.tokens ++ programTokens rest

/-- The node expected for a statement. -/
def Statement.node (st : Statement) : ASTNode :=
  ASTNode.ofPrint { stringNode := st.argument.map fun s => { value := normalizeNewlines s } }

/-- Splitting an output stream into its lines: `current` is the line being
read; a line ends at each line feed. -/
def linesFrom (current : List Char) : List Char → List (List Char)
  | [] => if current = [] then [] else [current]
  | c :: rest =>
    if c = '\n' then current :: linesFrom [] rest else linesFrom (current ++ [c]) rest

/-- The lines of an output stream. -/
def outputLines (out : List Char) : List (List Char) :=
  linesFrom [] out

/-- What `std::cout` holds after writing each value followed by
`std::endl`. -/
def writtenLines : List (List Char) → List Char
  | [] => []
  | s :: rest => s ++ '\n' :: writtenLines rest

/-- Reference for the parser: the nodes `Parser::parse` appends when its
cursor is at `position` in its token vector and `tokens` are the tokens from
the cursor on, or the error it throws. An argument-less statement takes four
of the remaining tokens and needs a fifth one to follow. -/
def parseRef (position : Nat) : List Token → Except Failure (List ASTNode)
  | [] => .ok []
  | t0 :: t1 :: t2 :: t3 :: t4 :: rest =>
    if t0.type ≠ TokenType.PRINT then
      .error (Failure.syntactic (SyntaxError.UnexpectedToken t0.value position))
    else if t1.type ≠ TokenType.LPAR then
      .error (Failure.syntactic SyntaxError.ExpectedLParen)
    else if t2.type = TokenType.STRING then
      if t3.type ≠ TokenType.RPAR then
        .error (Failure.syntactic SyntaxError.ExpectedRParen)
      else if t4.type ≠ TokenType.END then
        .error (Failure.syntactic SyntaxError.ExpectedTerminator)
      else
        match parseRef (position + 5) rest with
        | .error e => .error e
        | .ok nodes => .ok (ASTNode.ofPrint { stringNode := some { value := t2.value } } :: nodes)
    else
      if t2.type ≠ TokenType.RPAR then
        .error (Failure.syntactic SyntaxError.ExpectedRParen)
      else if t3.type ≠ TokenType.END then
        .error (Failure.syntactic SyntaxError.ExpectedTerminator)
      else
        match parseRef (position + 5) (t4 :: rest) with
        | .error e => .error e
        | .ok nodes => .ok (ASTNode.ofPrint { stringNode := none } :: nodes)
  | t0 :: _ =>
    if t0.type ≠ TokenType.PRINT then
      .error (Failure.syntactic (SyntaxError.UnexpectedToken t0.value position))
    else .error (Failure.syntactic SyntaxError.IncompletePrint)

/-- Reading `tokens` as a sequence of complete print statements, each
`PRINT LPAR STRING RPAR END` or, without argument, `PRINT LPAR RPAR END`:
the number of argument-less statements among them, which is the number of
`UNKNOWN` tokens the parser inserts while it parses them; `none` when
`tokens` is not such a sequence. -/
def placeholders : List Token → Option Nat
  | [] => some 0
  | t0 :: t1 :: t2 :: t3 :: rest =>
    if t0.type = TokenType.PRINT ∧ t1.type = TokenType.LPAR then
      if t2.type = TokenType.STRING then
        match rest with
        | t4 :: rest' =>
          if t3.type = TokenType.RPAR ∧ t4.type = TokenType.END then placeholders rest'
          else none
        | [] => none
      else if t2.type = TokenType.RPAR ∧ t3.type = TokenType.END then
        (placeholders rest).map (· + 1)
      else none
    else none
  | _ => none

/-- The texts of the five tokens of one well-formed print statement. -/
structure PrintGroup where
  printText : List Char
  lparText : List Char
  argument : List Char
  rparText : List Char
  endText : List Char
  deriving DecidableEq, Repr

/-- The group `[Print, LeftParen, String s, RightParen, End]`. -/
def PrintGroup.tokens (g : PrintGroup) : List Token :=
  [⟨TokenType.PRINT, g.printText⟩, ⟨TokenType.LPAR, g.lparText⟩,
    ⟨TokenType.STRING, g.argument⟩, ⟨TokenType.RPAR, g.rparText⟩,
    ⟨TokenType.END, g.endText⟩]

/-- The token sequence made of consecutive groups. -/
def groupTokens : List PrintGroup → List Token
  | [] => []
  | g :: rest => g.tokens ++ groupTokens rest

/-- The `PrintNode` wrapping `StringNode(s)`. -/
def printNode (s : List Char) : ASTNode :=
  ASTNode.ofPrint { stringNode := some { value := s } }

/-- The `PrintNode` with an absent argument. -/
def emptyPrintNode : ASTNode :=
  ASTNode.ofPrint { stringNode := none }

/-- The argument values of the `PrintNode`s of a node list, in list order. -/
def argumentValues : List ASTNode → List (List Char)
  | [] => []
  | ASTNode.ofPrint { stringNode := some stringNode } :: rest =>
    stringNode.value :: argumentValues rest
  | _ :: rest => argumentValues rest

/-- The statements `print("s_i")t_i` for the pairs `(s_i, t_i)`. -/
def printStatements (pairs : List (List Char × Char)) : List Statement :=
  pairs.map fun p => { argument := some p.1, terminator := p.2 }

/-- The tokens of the program text `print()`, a line feed, then `(`: an
argument-less statement followed by a stray parenthesis and the `END` token
appended at the end of the text. -/
def strayParenTokens : List Token :=
  [⟨TokenType.PRINT, "print".toList⟩, ⟨TokenType.LPAR, ['(']⟩, ⟨TokenType.RPAR, [')']⟩,
    ⟨TokenType.END, ['\\', 'n']⟩, ⟨TokenType.LPAR, ['(']⟩, ⟨TokenType.END, []⟩]

/-- The tokens the lexer can append to its vector `tokens`: the keyword
token, the three special-character tokens, a string literal, and, only when
the vector is non-empty and does not end with an `END` token, the `END`
token of a line break or the one appended at the end of the text. -/
def Emits (tokens : List Token) (t : Token) : Prop :=
  t = ⟨TokenType.PRINT, ['p', 'r', 'i', 'n', 't']⟩ ∨
  t = ⟨TokenType.LPAR, ['(']⟩ ∨
  t = ⟨TokenType.RPAR, [')']⟩ ∨
  t = ⟨TokenType.END, [';']⟩ ∨
  (∃ s, t = ⟨TokenType.STRING, s⟩) ∨
  (lacksEnd tokens = true ∧ (t = ⟨TokenType.END, ['\\', 'n']⟩ ∨ t = ⟨TokenType.END, []⟩))

/-- No spurious `END`: every `END` token whose text is not ";" comes right
after a token that is not an `END` token. -/
def NoSpuriousEnd (tokens : List Token) : Prop :=
  ∀ pre t post, tokens = pre ++ t :: post → t.type = TokenType.END → t.value ≠ [';'] →
    ∃ pre' u, pre = pre' ++ [u] ∧ u.type ≠ TokenType.END

/-- The kind of a lexical error, without the position and context it
carries. -/
inductive LexicalErrorKind
  | UnterminatedString | UnexpectedCharacter | UnknownToken
  deriving DecidableEq, Repr

/-- The kind of a lexical error. -/
def LexicalError.kind : LexicalError → LexicalErrorKind
  | .UnterminatedString _ _ => LexicalErrorKind.UnterminatedString
  | .UnexpectedCharacter _ _ _ => LexicalErrorKind.UnexpectedCharacter
  | .UnknownToken _ _ _ => LexicalErrorKind.UnknownToken

/-- An outcome of the lexer with its error reduced to its kind: two outcomes
have the same image when they return the same value or both fail with the
same kind of error. -/
def eraseError {α : Type} : Except LexicalError α → Except LexicalErrorKind α
  | .ok a => .ok a
  | .error e => .error e.kind

/-- The outcome of the scanning loop with its error reduced to its kind. -/
def scanKind (r : Except LexicalError (List Token × List Char) × LexerState) :
    Except LexicalErrorKind (List Token × List Char) × LexerState :=
  (eraseError r.1, r.2)

/-! ## Newline normalisation computes the reference pass -/

theorem replaceCRLF_none {s : List Char} {pos : Nat} (h : find s ['\r', '\n'] pos = none) :
    replaceCRLF s pos = s := by
  rw [replaceCRLF]
  split
  · rfl
  · rename_i p hp
    rw [h] at hp
    cases hp

theorem replaceCRLF_some {s : List Char} {pos p : Nat} (h : find s ['\r', '\n'] pos = some p) :
    replaceCRLF s pos = replaceCRLF (replace s p 2 ['\n']) p := by
  rw [replaceCRLF]
  split
  · rename_i hp
    rw [h] at hp
    cases hp
  · rename_i q hq
    rw [h] at hq
    cases hq
    rfl

theorem replaceCR_none {s : List Char} {pos : Nat} (h : find s ['\r'] pos = none) :
    replaceCR s pos = s := by
  rw [replaceCR]
  split
  · rfl
  · rename_i p hp
    rw [h] at hp
    cases hp

theorem replaceCR_some {s : List Char} {pos p : Nat} (h : find s ['\r'] pos = some p) :
    replaceCR s pos = replaceCR (replace s p 1 ['\n']) p := by
  rw [replaceCR]
  split
  · rename_i hp
    rw [h] at hp
    cases hp
  · rename_i q hq
    rw [h] at hq
    cases hq
    rfl

theorem find_append_length (pre rest needle : List Char) :
    find (pre ++ rest) needle pre.length = findFrom needle rest pre.length := by
  simp [find]

/-- What the search for "\r\n" returns, against the reference. -/
theorem findFrom_crlf (rest : List Char) : ∀ idx : Nat,
    (findFrom ['\r', '\n'] rest idx = none ∧ crlfRef rest = rest) ∨
    (∃ a b, rest = a ++ '\r' :: '\n' :: b ∧ findFrom ['\r', '\n'] rest idx = some (idx + a.length) ∧
      crlfRef rest = a ++ '\n' :: crlfRef b) := by
  induction rest with
  | nil => intro idx; left; simp [findFrom, crlfRef]
  | cons c rest ih =>
    intro idx
    by_cases hp : List.isPrefixOf ['\r', '\n'] (c :: rest) = true
    · right
      cases rest with
      | nil => simp [List.isPrefixOf] at hp
      | cons d rest =>
        simp only [List.isPrefixOf, Bool.and_true, Bool.and_eq_true, beq_iff_eq] at hp
        refine ⟨[], rest, ?_, ?_, ?_⟩
        · simp [← hp.1, ← hp.2]
        · simp [findFrom, ← hp.1, ← hp.2]
        · simp [crlfRef, ← hp.1, ← hp.2]
    · have hstep : crlfRef (c :: rest) = c :: crlfRef rest := by
        cases rest with
        | nil => simp [crlfRef]
        | cons d rest =>
          simp only [List.isPrefixOf, Bool.and_true, Bool.and_eq_true, beq_iff_eq] at hp
          have : ¬ (c = '\r' ∧ d = '\n') := fun h => hp ⟨h.1.symm, h.2.symm⟩
          simp [crlfRef, this]
      rcases ih (idx + 1) with ⟨h1, h2⟩ | ⟨a, b, h1, h2, h3⟩
      · left
        refine ⟨?_, ?_⟩
        · simp only [findFrom, hp]; simpa using h1
        · rw [hstep, h2]
      · right
        refine ⟨c :: a, b, ?_, ?_, ?_⟩
        · simp [h1]
        · simp only [findFrom, hp]
          simp only [Bool.false_eq_true, ↓reduceIte, h2, List.length_cons]
          congr 1; omega
        · rw [hstep, h3]; simp

theorem replaceCRLF_append : ∀ (n : Nat) (pre rest : List Char), rest.length ≤ n →
    replaceCRLF (pre ++ rest) pre.length = pre ++ crlfRef rest := by
  intro n
  induction n with
  | zero =>
    intro pre rest h
    have : rest = [] := List.eq_nil_of_length_eq_zero (by omega)
    subst this
    rw [replaceCRLF_none]
    · simp [crlfRef]
    · rw [find_append_length]; simp [findFrom]
  | succ n ih =>
    intro pre rest h
    rcases findFrom_crlf rest pre.length with ⟨h1, h2⟩ | ⟨a, b, h1, h2, h3⟩
    · rw [replaceCRLF_none (by rw [find_append_length]; exact h1), h2]
    · rw [replaceCRLF_some (by rw [find_append_length]; exact h2)]
      have hr : replace (pre ++ rest) (pre.length + a.length) 2 ['\n']
          = (pre ++ a) ++ '\n' :: b := by
        subst h1
        have e1 : pre ++ (a ++ '\r' :: '\n' :: b) = (pre ++ a) ++ ('\r' :: '\n' :: b) := by simp
        have e2 : pre.length + a.length = (pre ++ a).length := by simp
        rw [replace, e1, e2, List.take_left, ← List.drop_drop, List.drop_left]
        simp
      have hl : pre.length + a.length = (pre ++ a).length := by simp
      rw [hr, hl, ih (pre ++ a) ('\n' :: b), h3]
      · have : crlfRef ('\n' :: b) = '\n' :: crlfRef b := by
          cases b with
          | nil => simp [crlfRef]
          | cons d b => simp [crlfRef]
        rw [this]; simp
      · subst h1
        simp at h ⊢
        omega

/-- What the search for "\r" returns, against the reference. -/
theorem findFrom_cr (rest : List Char) : ∀ idx : Nat,
    (findFrom ['\r'] rest idx = none ∧ crRef rest = rest) ∨
    (∃ a b, rest = a ++ '\r' :: b ∧ findFrom ['\r'] rest idx = some (idx + a.length) ∧
      crRef rest = a ++ '\n' :: crRef b) := by
  induction rest with
  | nil => intro idx; left; simp [findFrom, crRef]
  | cons c rest ih =>
    intro idx
    by_cases hc : c = '\r'
    · right
      exact ⟨[], rest, by simp [hc], by simp [findFrom, hc, List.isPrefixOf],
        by simp [crRef, hc]⟩
    · have hp : List.isPrefixOf ['\r'] (c :: rest) = false := by
        simp only [List.isPrefixOf, Bool.and_true, beq_eq_false_iff_ne, ne_eq]
        exact fun h => hc h.symm
      rcases ih (idx + 1) with ⟨h1, h2⟩ | ⟨a, b, h1, h2, h3⟩
      · left
        refine ⟨?_, ?_⟩
        · simp only [findFrom, hp]; simpa using h1
        · simp [crRef, hc, h2]
      · right
        refine ⟨c :: a, b, by simp [h1], ?_, by simp [crRef, hc, h3]⟩
        simp only [findFrom, hp]
        simp only [Bool.false_eq_true, ↓reduceIte, h2, List.length_cons]
        congr 1; omega

theorem replaceCR_append : ∀ (n : Nat) (pre rest : List Char), rest.count '\r' ≤ n →
    replaceCR (pre ++ rest) pre.length = pre ++ crRef rest := by
  intro n
  induction n with
  | zero =>
    intro pre rest h
    rcases findFrom_cr rest pre.length with ⟨h1, h2⟩ | ⟨a, b, h1, h2, h3⟩
    · rw [replaceCR_none (by rw [find_append_length]; exact h1), h2]
    · subst h1
      simp [List.count_append, List.count_cons] at h
  | succ n ih =>
    intro pre rest h
    rcases findFrom_cr rest pre.length with ⟨h1, h2⟩ | ⟨a, b, h1, h2, h3⟩
    · rw [replaceCR_none (by rw [find_append_length]; exact h1), h2]
    · rw [replaceCR_some (by rw [find_append_length]; exact h2)]
      have hr : replace (pre ++ rest) (pre.length + a.length) 1 ['\n']
          = (pre ++ a) ++ '\n' :: b := by
        subst h1
        have e1 : pre ++ (a ++ '\r' :: b) = (pre ++ a) ++ ('\r' :: b) := by simp
        have e2 : pre.length + a.length = (pre ++ a).length := by simp
        rw [replace, e1, e2, List.take_left, ← List.drop_drop, List.drop_left]
        simp
      have hl : pre.length + a.length = (pre ++ a).length := by simp
      rw [hr, hl, ih (pre ++ a) ('\n' :: b), h3]
      · simp [crRef]
      · subst h1
        simp [List.count_append, List.count_cons] at h ⊢
        omega

theorem crRef_crlfRef : ∀ (n : Nat) (s : List Char), s.length ≤ n →
    crRef (crlfRef s) = normalizeRef s := by
  intro n
  induction n with
  | zero =>
    intro s h
    have : s = [] := List.eq_nil_of_length_eq_zero (by omega)
    subst this
    rfl
  | succ n ih =>
    intro s h
    match s, h with
    | [], _ => rfl
    | [c], _ => by_cases hc : c = '\r' <;> simp [crlfRef, crRef, normalizeRef, hc]
    | c :: d :: rest, h =>
      simp only [List.length_cons] at h
      have h1 := ih rest (by omega)
      have h2 := ih (d :: rest) (by simp only [List.length_cons]; omega)
      by_cases hc : c = '\r' <;> by_cases hd : d = '\n' <;>
        simp [crlfRef, normalizeRef, hc, hd, crRef, h1] <;>
        first
          | (rw [← hd]; exact h2)
          | exact h2

/-- The two loops of `normalizeNewlines` compute the single left-to-right pass. -/
theorem normalizeNewlines_eq_normalizeRef (s : List Char) :
    normalizeNewlines s = normalizeRef s := by
  unfold normalizeNewlines
  have h1 := replaceCRLF_append s.length [] s (Nat.le_refl _)
  simp only [List.length_nil, List.nil_append] at h1
  have h2 := replaceCR_append _ [] (crlfRef s) (Nat.le_refl _)
  simp only [List.length_nil, List.nil_append] at h2
  rw [h1, h2]
  exact crRef_crlfRef s.length s (Nat.le_refl _)

/-! ## Properties of the reference pass -/

theorem normalizeRef_cons_of_ne {c : Char} (hc : c ≠ '\r') (rest : List Char) :
    normalizeRef (c :: rest) = c :: normalizeRef rest := by
  cases rest with
  | nil => simp [normalizeRef, hc]
  | cons d rest => simp [normalizeRef, hc]

theorem normalizeRef_of_not_mem : ∀ (s : List Char), '\r' ∉ s → normalizeRef s = s := by
  intro s
  induction s with
  | nil => intro _; rfl
  | cons c rest ih =>
    intro h
    simp only [List.mem_cons, not_or] at h
    rw [normalizeRef_cons_of_ne (fun e => h.1 e.symm), ih h.2]

theorem normalizeRef_append_cons : ∀ (n : Nat) (a : List Char), a.length ≤ n →
    ∀ (d : Char) (b : List Char), d ≠ '\n' →
    normalizeRef (a ++ d :: b) = normalizeRef a ++ normalizeRef (d :: b) := by
  intro n
  induction n with
  | zero =>
    intro a h d b _
    have : a = [] := List.eq_nil_of_length_eq_zero (by omega)
    subst this
    simp [normalizeRef]
  | succ n ih =>
    intro a h d b hd
    match a, h with
    | [], _ => simp [normalizeRef]
    | [c], _ =>
      by_cases hc : c = '\r'
      · simp [normalizeRef, hc, hd]
      · simp [normalizeRef, hc]
    | c :: e :: rest, h =>
      simp only [List.length_cons] at h
      have h1 := ih rest (by omega) d b hd
      have h2 := ih (e :: rest) (by simp only [List.length_cons]; omega) d b hd
      simp only [List.cons_append] at h2 ⊢
      by_cases hc : c = '\r' <;> by_cases he : e = '\n' <;>
        simp [normalizeRef, hc, he, h1] <;>
        first
          | (rw [← he]; exact h2)
          | exact h2

theorem mem_normalizeRef : ∀ (n : Nat) (s : List Char), s.length ≤ n →
    ∀ x, x ∈ normalizeRef s → x ∈ s ∨ x = '\n' := by
  intro n
  induction n with
  | zero =>
    intro s h x hx
    have : s = [] := List.eq_nil_of_length_eq_zero (by omega)
    subst this
    simp [normalizeRef] at hx
  | succ n ih =>
    intro s h x hx
    match s, h with
    | [], _ => simp [normalizeRef] at hx
    | [c], _ =>
      by_cases hc : c = '\r'
      · simp [normalizeRef, hc] at hx; exact Or.inr hx
      · simp [normalizeRef, hc] at hx; exact Or.inl (by simp [hx])
    | c :: e :: rest, h =>
      simp only [List.length_cons] at h
      have h1 := ih rest (by omega) x
      have h2 := ih (e :: rest) (by simp only [List.length_cons]; omega) x
      simp only [normalizeRef] at hx
      split at hx
      · split at hx
        · rcases List.mem_cons.1 hx with hx | hx
          · exact Or.inr hx
          · rcases h1 hx with h | h
            · exact Or.inl (by simp [h])
            · exact Or.inr h
        · rcases List.mem_cons.1 hx with hx | hx
          · exact Or.inr hx
          · rcases h2 hx with h | h
            · exact Or.inl (List.mem_cons_of_mem _ h)
            · exact Or.inr h
      · rcases List.mem_cons.1 hx with hx | hx
        · exact Or.inl (by simp [hx])
        · rcases h2 hx with h | h
          · exact Or.inl (List.mem_cons_of_mem _ h)
          · exact Or.inr h

theorem quote_not_mem_normalizeNewlines {s : List Char} (h : '"' ∉ s) :
    '"' ∉ normalizeNewlines s := by
  rw [normalizeNewlines_eq_normalizeRef]
  intro hx
  rcases mem_normalizeRef s.length s (Nat.le_refl _) _ hx with h1 | h1
  · exact h h1
  · exact absurd h1 (by decide)

theorem normalizeNewlines_eq_nil_iff (s : List Char) : normalizeNewlines s = [] ↔ s = [] := by
  rw [normalizeNewlines_eq_normalizeRef]
  match s with
  | [] => simp [normalizeRef]
  | [c] => by_cases hc : c = '\r' <;> simp [normalizeRef, hc]
  | c :: d :: rest =>
    by_cases hc : c = '\r' <;> by_cases hd : d = '\n' <;> simp [normalizeRef, hc, hd]

theorem normalizeNewlines_of_not_mem {s : List Char} (h : '\r' ∉ s) :
    normalizeNewlines s = s := by
  rw [normalizeNewlines_eq_normalizeRef, normalizeRef_of_not_mem s h]

/-! ## The scanning loop, step by step -/

theorem scan_nil (src : List Char) (i : Nat) (state : LexerState) (tokens : List Token)
    (cur : List Char) : scan src [] i state tokens cur = (.ok (tokens, cur), state) := by
  rw [scan]

theorem scan_default_cons (src : List Char) (c : Char) (rest : List Char) (i : Nat)
    (tokens : List Token) (cur : List Char) :
    scan src (c :: rest) i LexerState.DEFAULT tokens cur =
      if c = ' ' ∨ c = '\t' then scan src rest (i + 1) LexerState.DEFAULT tokens cur
      else if c.isAlpha then scan src rest (i + 1) LexerState.DEFAULT tokens (cur ++ [c])
      else
        match handleSpecialCharacter src tokens c cur i with
        | .error e => (.error e, LexerState.DEFAULT)
        | .ok (tokens, cur, state) => scan src rest (i + 1) state tokens cur := by
  rw [scan]

theorem readString_of_not_mem : ∀ (s : List Char), '"' ∉ s → readString s = (s, []) := by
  intro s
  induction s with
  | nil => intro _; rfl
  | cons c rest ih =>
    intro h
    simp only [List.mem_cons, not_or] at h
    have hc : c ≠ '"' := fun e => h.1 e.symm
    simp [readString, hc, ih h.2]

theorem readString_closed : ∀ (s rest : List Char), '"' ∉ s →
    readString (s ++ '"' :: rest) = (s, '"' :: rest) := by
  intro s
  induction s with
  | nil => intro rest _; simp [readString]
  | cons c s ih =>
    intro rest h
    simp only [List.mem_cons, not_or] at h
    have hc : c ≠ '"' := fun e => h.1 e.symm
    simp [readString, hc, ih rest h.2]

theorem scan_string_cons (src : List Char) (c : Char) (l : List Char) (i : Nat)
    (tokens : List Token) (cur : List Char) :
    scan src (c :: l) i LexerState.STRING tokens cur =
      match (readString (c :: l)).2 with
      | [] =>
        (.error (.UnterminatedString (i + (readString (c :: l)).1.length)
          (contextAt src (i + (readString (c :: l)).1.length))), LexerState.STRING)
      | _ :: rest' =>
        scan src rest' (i + (readString (c :: l)).1.length + 1) LexerState.DEFAULT
          (tokens ++ [⟨TokenType.STRING, (readString (c :: l)).1⟩]) cur := by
  rw [scan]
  split <;> rename_i h <;> simp only [h]

theorem scan_string_closed (src s rest : List Char) (i : Nat) (tokens : List Token)
    (cur : List Char) (h : '"' ∉ s) :
    scan src (s ++ '"' :: rest) i LexerState.STRING tokens cur =
      scan src rest (i + s.length + 1) LexerState.DEFAULT
        (tokens ++ [⟨TokenType.STRING, s⟩]) cur := by
  have hr := readString_closed s rest h
  cases hs : s ++ '"' :: rest with
  | nil => cases s <;> simp at hs
  | cons c l =>
    rw [hs] at hr
    rw [scan_string_cons, hr]

theorem scan_string_open (src l : List Char) (i : Nat) (tokens : List Token)
    (cur : List Char) (h : '"' ∉ l) (hne : l ≠ []) :
    scan src l i LexerState.STRING tokens cur =
      (.error (.UnterminatedString (i + l.length) (contextAt src (i + l.length))),
        LexerState.STRING) := by
  have hr := readString_of_not_mem l h
  cases l with
  | nil => exact absurd rfl hne
  | cons c l =>
    rw [scan_string_cons, hr]

theorem lacksEnd_append_singleton (tokens : List Token) (t : Token) :
    lacksEnd (tokens ++ [t]) = (t.type != TokenType.END) := by
  simp [lacksEnd]

/-- Scanning the opening `print(` of a statement. -/
theorem scan_print_lpar (src rest : List Char) (i : Nat) (tokens : List Token) :
    scan src ('p' :: 'r' :: 'i' :: 'n' :: 't' :: '(' :: rest) i LexerState.DEFAULT tokens [] =
      scan src rest (i + 6) LexerState.DEFAULT
        (tokens ++ [⟨TokenType.PRINT, ['p', 'r', 'i', 'n', 't']⟩, ⟨TokenType.LPAR, ['(']⟩]) [] := by
  simp [scan_default_cons, handleSpecialCharacter, addKeywordToken, keyWords,
    specialCharacters, Char.isAlpha, Char.isUpper, Char.isLower]

/-! ## Tokenizing a program made of statements -/

theorem cr_not_mem_normalizeRef : ∀ (n : Nat) (s : List Char), s.length ≤ n →
    '\r' ∉ normalizeRef s := by
  intro n
  induction n with
  | zero =>
    intro s h
    have : s = [] := List.eq_nil_of_length_eq_zero (by omega)
    subst this
    simp [normalizeRef]
  | succ n ih =>
    intro s h
    match s, h with
    | [], _ => simp [normalizeRef]
    | [c], _ =>
      by_cases hc : c = '\r'
      · simp [normalizeRef, hc]
      · simp [normalizeRef, hc]; exact fun e => hc e.symm
    | c :: e :: rest, h =>
      simp only [List.length_cons] at h
      have h1 := ih rest (by omega)
      have h2 := ih (e :: rest) (by simp only [List.length_cons]; omega)
      simp only [normalizeRef]
      split
      · split
        · simp [h1]
        · simp [h2]
      · rename_i hc
        simp only [List.mem_cons, not_or]
        exact ⟨fun e => hc e.symm, h2⟩

theorem cr_not_mem_normalizeNewlines (s : List Char) : '\r' ∉ normalizeNewlines s := by
  rw [normalizeNewlines_eq_normalizeRef]
  exact cr_not_mem_normalizeRef s.length s (Nat.le_refl _)

theorem normalizeNewlines_idem (s : List Char) :
    normalizeNewlines (normalizeNewlines s) = normalizeNewlines s :=
  normalizeNewlines_of_not_mem (cr_not_mem_normalizeNewlines s)

theorem scan_statement_some (src s rest : List Char) (t : Char) (i : Nat)
    (tokens : List Token) (hs : '"' ∉ s) (ht : t = ';' ∨ t = '\n') :
    scan src ("print(\"".toList ++ s ++ "\")".toList ++ [t] ++ rest) i
        LexerState.DEFAULT tokens [] =
      scan src rest (i + (s.length + 10)) LexerState.DEFAULT
        (tokens ++ [⟨TokenType.PRINT, "print".toList⟩, ⟨TokenType.LPAR, ['(']⟩,
          ⟨TokenType.STRING, s⟩, ⟨TokenType.RPAR, [')']⟩, endToken t]) [] := by
  have e : "print(\"".toList ++ s ++ "\")".toList ++ [t] ++ rest =
      'p' :: 'r' :: 'i' :: 'n' :: 't' :: '(' :: '"' :: (s ++ '"' :: ')' :: t :: rest) := by
    simp
  rw [e, scan_print_lpar, scan_default_cons]
  simp only [handleSpecialCharacter, addKeywordToken, specialCharacters]
  simp only [Char.isAlpha, Char.isUpper, Char.isLower]
  simp only [show ('"' = ' ' ∨ '"' = '\t') = False from by decide]
  simp +decide only [ne_eq, not_true_eq_false, ↓reduceIte]
  rw [scan_string_closed _ _ _ _ _ _ hs, scan_default_cons]
  simp +decide [handleSpecialCharacter, addKeywordToken,
    specialCharacters, Char.isAlpha, Char.isUpper, Char.isLower]
  rw [scan_default_cons]
  rcases ht with ht | ht <;> subst ht
  · simp +decide [handleSpecialCharacter, addKeywordToken,
      specialCharacters, Char.isAlpha, Char.isUpper, Char.isLower, endToken]
    congr 1; omega
  · simp +decide [handleSpecialCharacter, addKeywordToken,
      specialCharacters, Char.isAlpha, Char.isUpper, Char.isLower, endToken, lacksEnd]
    congr 1; omega

theorem scan_statement_none (src rest : List Char) (t : Char) (i : Nat)
    (tokens : List Token) (ht : t = ';' ∨ t = '\n') :
    scan src ("print()".toList ++ [t] ++ rest) i LexerState.DEFAULT tokens [] =
      scan src rest (i + 8) LexerState.DEFAULT
        (tokens ++ [⟨TokenType.PRINT, "print".toList⟩, ⟨TokenType.LPAR, ['(']⟩,
          ⟨TokenType.RPAR, [')']⟩, endToken t]) [] := by
  have e : "print()".toList ++ [t] ++ rest =
      'p' :: 'r' :: 'i' :: 'n' :: 't' :: '(' :: ')' :: t :: rest := by
    simp
  rw [e, scan_print_lpar, scan_default_cons]
  simp +decide [handleSpecialCharacter, addKeywordToken,
    specialCharacters, Char.isAlpha, Char.isUpper, Char.isLower]
  rw [scan_default_cons]
  rcases ht with ht | ht <;> subst ht
  · simp +decide [handleSpecialCharacter, addKeywordToken,
      specialCharacters, Char.isAlpha, Char.isUpper, Char.isLower, endToken]
  · simp +decide [handleSpecialCharacter, addKeywordToken,
      specialCharacters, Char.isAlpha, Char.isUpper, Char.isLower, endToken, lacksEnd]

theorem Statement.text_length (st : Statement) :
    st.text.length = (match st.argument with | some s => s.length + 10 | none => 8) := by
  unfold Statement.text
  cases st.argument <;> simp

/-- Scanning one well-formed statement whose argument has no carriage return
appends its expected tokens. -/
theorem scan_statement (src rest : List Char) (st : Statement) (i : Nat)
    (tokens : List Token) (hw : st.WellFormed)
    (hcr : ∀ s, st.argument = some s → '\r' ∉ s) :
    scan src (st.text ++ rest) i LexerState.DEFAULT tokens [] =
      scan src rest (i + st.text.length) LexerState.DEFAULT (tokens ++ st.tokens) [] := by
  rw [Statement.text_length]
  obtain ⟨arg, t⟩ := st
  cases arg with
  | none =>
    simp only [Statement.text, Statement.tokens]
    exact scan_statement_none src rest t i tokens hw.2
  | some s =>
    simp only [Statement.text, Statement.tokens]
    rw [normalizeNewlines_of_not_mem (hcr s rfl)]
    exact scan_statement_some src s rest t i tokens (hw.1 s rfl) hw.2

theorem scan_program (src : List Char) : ∀ (stmts : List Statement) (rest : List Char)
    (i : Nat) (tokens : List Token),
    (∀ st ∈ stmts, st.WellFormed ∧ ∀ s, st.argument = some s → '\r' ∉ s) →
    scan src (programText stmts ++ rest) i LexerState.DEFAULT tokens [] =
      scan src rest (i + (programText stmts).length) LexerState.DEFAULT
        (tokens ++ programTokens stmts) [] := by
  intro stmts
  induction stmts with
  | nil => intro rest i tokens _; simp [programText, programTokens]
  | cons st stmts ih =>
    intro rest i tokens h
    have h1 := h st (List.mem_cons_self _ _)
    simp only [programText, programTokens, List.append_assoc]
    rw [scan_statement src _ st i tokens h1.1 h1.2,
      ih rest _ _ (fun st hst => h st (List.mem_cons_of_mem _ hst))]
    simp only [List.length_append, List.append_assoc, Nat.add_assoc]

theorem lacksEnd_append_of_ne_nil (a b : List Token) (h : b ≠ []) :
    lacksEnd (a ++ b) = lacksEnd b := by
  unfold lacksEnd
  rw [List.getLast?_append_of_ne_nil a h]

theorem Statement.tokens_ne_nil (st : Statement) : st.tokens ≠ [] := by
  obtain ⟨arg, t⟩ := st
  cases arg <;> simp [Statement.tokens]

theorem Statement.lacksEnd_tokens (st : Statement) : lacksEnd st.tokens = false := by
  obtain ⟨arg, t⟩ := st
  have he : (endToken t).type = TokenType.END := by unfold endToken; split <;> rfl
  cases arg <;> simp [Statement.tokens, lacksEnd, he]

theorem lacksEnd_programTokens : ∀ (stmts : List Statement),
    lacksEnd (programTokens stmts) = false := by
  intro stmts
  induction stmts with
  | nil => rfl
  | cons st stmts ih =>
    rw [programTokens]
    by_cases h : programTokens stmts = []
    · rw [h, List.append_nil, Statement.lacksEnd_tokens]
    · rw [lacksEnd_append_of_ne_nil _ _ h, ih]

theorem normalizeRef_statement (st : Statement) (rest : List Char)
    (ht : st.terminator = ';' ∨ st.terminator = '\n') :
    normalizeRef (st.text ++ rest) = st.normalized.text ++ normalizeRef rest := by
  obtain ⟨arg, t⟩ := st
  have htr : t ≠ '\r' := by
    rcases ht with h | h <;> simp only at h <;> subst h <;> decide
  cases arg with
  | none =>
    have e : "print()".toList ++ [t] ++ rest =
        'p' :: 'r' :: 'i' :: 'n' :: 't' :: '(' :: ')' :: t :: rest := by simp
    simp only [Statement.text, Statement.normalized, Option.map_none', e]
    repeat rw [normalizeRef_cons_of_ne (by decide)]
    rw [normalizeRef_cons_of_ne htr]
    simp
  | some s =>
    have e : "print(\"".toList ++ s ++ "\")".toList ++ [t] ++ rest =
        'p' :: 'r' :: 'i' :: 'n' :: 't' :: '(' :: '"' :: (s ++ '"' :: ')' :: t :: rest) := by
      simp
    simp only [Statement.text, Statement.normalized, Option.map_some', e]
    repeat rw [normalizeRef_cons_of_ne (by decide)]
    rw [normalizeRef_append_cons s.length s (Nat.le_refl _) '"' _ (by decide)]
    repeat rw [normalizeRef_cons_of_ne (by decide)]
    rw [normalizeRef_cons_of_ne htr, normalizeNewlines_eq_normalizeRef]
    simp

theorem normalizeNewlines_programText : ∀ (stmts : List Statement),
    (∀ st ∈ stmts, st.terminator = ';' ∨ st.terminator = '\n') →
    normalizeNewlines (programText stmts) = programText (stmts.map Statement.normalized) := by
  intro stmts h
  rw [normalizeNewlines_eq_normalizeRef]
  induction stmts with
  | nil => rfl
  | cons st stmts ih =>
    simp only [programText, List.map_cons]
    rw [normalizeRef_statement st _ (h st (List.mem_cons_self _ _)),
      ih (fun st hst => h st (List.mem_cons_of_mem _ hst))]

theorem Statement.normalized_tokens (st : Statement) : st.normalized.tokens = st.tokens := by
  obtain ⟨arg, t⟩ := st
  cases arg with
  | none => rfl
  | some s => simp [Statement.normalized, Statement.tokens, normalizeNewlines_idem]

theorem programTokens_normalized : ∀ (stmts : List Statement),
    programTokens (stmts.map Statement.normalized) = programTokens stmts := by
  intro stmts
  induction stmts with
  | nil => rfl
  | cons st stmts ih => simp only [List.map_cons, programTokens, ih, Statement.normalized_tokens]

theorem Statement.normalized_ok (st : Statement) (hw : st.WellFormed) :
    st.normalized.WellFormed ∧ ∀ s, st.normalized.argument = some s → '\r' ∉ s := by
  obtain ⟨arg, t⟩ := st
  cases arg with
  | none => exact ⟨⟨by simp [Statement.normalized], hw.2⟩, by simp [Statement.normalized]⟩
  | some s =>
    refine ⟨⟨?_, hw.2⟩, ?_⟩
    · intro s' hs'
      simp only [Statement.normalized, Option.map_some', Option.some.injEq] at hs'
      subst hs'
      exact quote_not_mem_normalizeNewlines (hw.1 s rfl)
    · intro s' hs'
      simp only [Statement.normalized, Option.map_some', Option.some.injEq] at hs'
      subst hs'
      exact cr_not_mem_normalizeNewlines s

/-- Tokenizing a program of well-formed statements: the expected tokens, and
the `Lexer` object is left as it was constructed. -/
theorem tokenize_programText (stmts : List Statement) (h : ∀ st ∈ stmts, st.WellFormed) :
    (Lexer.new (programText stmts)).tokenize =
      (.ok (programTokens stmts), Lexer.new (programText stmts)) := by
  have hn := normalizeNewlines_programText stmts (fun st hst => (h st hst).2)
  have hs := scan_program (programText (stmts.map Statement.normalized))
    (stmts.map Statement.normalized) [] 0 []
    (by
      intro st hst
      obtain ⟨st0, h0, rfl⟩ := List.mem_map.1 hst
      exact st0.normalized_ok (h st0 h0))
  rw [List.append_nil, scan_nil, programTokens_normalized, List.nil_append] at hs
  simp only [Lexer.tokenize, Lexer.new, hn, hs, addKeywordToken]
  simp [lacksEnd_programTokens]

/-! ## The parser loop, step by step -/

theorem vectorAt_of_drop {α : Type} {v l : List α} {i : Nat} (h : v.drop i = l) (k : Nat) :
    vectorAt v (i + k) = match l[k]? with
      | some x => .ok x
      | none => .error Failure.outOfRange := by
  unfold vectorAt
  rw [← h, List.getElem?_drop]

theorem Parser.run_of_drop_nil (p : Parser) (h : p.tokens.drop p.tokenIndex = []) :
    p.run = .ok p := by
  rw [Parser.run]
  have : ¬ p.tokenIndex < p.tokens.length := by
    intro hlt
    have := congrArg List.length h
    simp at this
    omega
  simp [this]

theorem Parser.run_default (p : Parser) (t0 : Token) (rest : List Token)
    (h : p.tokens.drop p.tokenIndex = t0 :: rest) (hs : p.state = ParserState.DEFAULT) :
    p.run =
      if t0.type = TokenType.PRINT then Parser.run { p with state := ParserState.PRINT }
      else .error (Failure.syntactic (SyntaxError.UnexpectedToken t0.value p.tokenIndex)) := by
  have hlt : p.tokenIndex < p.tokens.length := by
    have := congrArg List.length h
    simp at this
    omega
  have ht : p.tokens[p.tokenIndex] = t0 := by
    have h1 : (p.tokens.drop p.tokenIndex)[0]? = some t0 := by rw [h]; simp
    rw [List.getElem?_drop, Nat.add_zero, List.getElem?_eq_getElem hlt] at h1
    exact Option.some.inj h1
  rw [Parser.run]
  simp only [hlt, ↓reduceDIte]
  split
  · split
    · rename_i st hm
      rw [ht] at hm
      unfold stateMap at hm
      split at hm
      · rename_i hp
        cases hm
        simp [hp]
      · cases hm
    · rename_i hm
      rw [ht] at hm
      unfold stateMap at hm
      split at hm
      · cases hm
      · rename_i hp
        simp [hp, ht]
  · rename_i hs'
    rw [hs] at hs'
    cases hs'

theorem Parser.run_print (p : Parser) (t0 : Token) (rest : List Token)
    (h : p.tokens.drop p.tokenIndex = t0 :: rest) (hs : p.state = ParserState.PRINT) :
    p.run =
      match p.handlePrintStatement with
      | .error e => .error e
      | .ok q => q.run := by
  have hlt : p.tokenIndex < p.tokens.length := by
    have := congrArg List.length h
    simp at this
    omega
  rw [Parser.run]
  simp only [hlt, ↓reduceDIte]
  split
  · rename_i hs'
    rw [hs] at hs'
    cases hs'
  · split <;> rename_i hp <;> simp only [hp]

theorem Parser.tokens_eq_of_drop {p : Parser} {view : List Token}
    (h : p.tokens.drop p.tokenIndex = view) (hne : view ≠ []) :
    ∃ pre, p.tokens = pre ++ view ∧ pre.length = p.tokenIndex := by
  refine ⟨p.tokens.take p.tokenIndex, ?_, ?_⟩
  · rw [← h, List.take_append_drop]
  · rw [List.length_take]
    have : p.tokenIndex < p.tokens.length := by
      cases view with
      | nil => exact absurd rfl hne
      | cons t rest =>
        have := congrArg List.length h
        simp at this
        omega
    omega

theorem Parser.handlePrintStatement_short (p : Parser) (view : List Token)
    (h : p.tokens.drop p.tokenIndex = view) (hlen : view.length < 5) :
    p.handlePrintStatement = .error (Failure.syntactic SyntaxError.IncompletePrint) := by
  unfold Parser.handlePrintStatement
  have : p.tokens.length < p.tokenIndex + 5 := by
    have := congrArg List.length h
    simp at this
    omega
  simp [this]

/-- The outcome of `handlePrintStatement` when at least five tokens remain from the cursor. -/
theorem Parser.handlePrintStatement_five (p : Parser) (t0 t1 t2 t3 t4 : Token)
    (rest : List Token) (h : p.tokens.drop p.tokenIndex = t0 :: t1 :: t2 :: t3 :: t4 :: rest) :
    p.handlePrintStatement =
      if t1.type ≠ TokenType.LPAR then .error (Failure.syntactic SyntaxError.ExpectedLParen)
      else if t2.type = TokenType.STRING then
        if t3.type ≠ TokenType.RPAR then .error (Failure.syntactic SyntaxError.ExpectedRParen)
        else if t4.type ≠ TokenType.END then
          .error (Failure.syntactic SyntaxError.ExpectedTerminator)
        else
          match createNode [t0, t2] with
          | .error e => .error e
          | .ok node =>
            .ok { p with nodes := p.nodes ++ [node], tokenIndex := p.tokenIndex + 5,
                         state := ParserState.DEFAULT }
      else
        if t2.type ≠ TokenType.RPAR then .error (Failure.syntactic SyntaxError.ExpectedRParen)
        else if t3.type ≠ TokenType.END then
          .error (Failure.syntactic SyntaxError.ExpectedTerminator)
        else
          match createNode [t0, unknownToken] with
          | .error e => .error e
          | .ok node =>
            .ok { tokens := vectorInsert p.tokens (p.tokenIndex + 2) unknownToken,
                  nodes := p.nodes ++ [node], tokenIndex := p.tokenIndex + 5,
                  state := ParserState.DEFAULT } := by
  obtain ⟨pre, hpre, hlen⟩ := Parser.tokens_eq_of_drop h (by simp)
  have hsz : ¬ p.tokens.length < p.tokenIndex + 5 := by
    rw [hpre]; simp; omega
  have a0 : vectorAt p.tokens p.tokenIndex = .ok t0 := by
    have := vectorAt_of_drop h 0; simpa using this
  have a1 : vectorAt p.tokens (p.tokenIndex + 1) = .ok t1 := by
    have := vectorAt_of_drop h 1; simpa using this
  have a2 : vectorAt p.tokens (p.tokenIndex + 2) = .ok t2 := by
    have := vectorAt_of_drop h 2; simpa using this
  have a3 : vectorAt p.tokens (p.tokenIndex + 3) = .ok t3 := by
    have := vectorAt_of_drop h 3; simpa using this
  have a4 : vectorAt p.tokens (p.tokenIndex + 4) = .ok t4 := by
    have := vectorAt_of_drop h 4; simpa using this
  have hins : (vectorInsert p.tokens (p.tokenIndex + 2) unknownToken).drop p.tokenIndex =
      t0 :: t1 :: unknownToken :: t2 :: t3 :: t4 :: rest := by
    rw [hpre, ← hlen]
    simp [vectorInsert, List.take_append, List.drop_append]
  have b0 : vectorAt (vectorInsert p.tokens (p.tokenIndex + 2) unknownToken) p.tokenIndex
      = .ok t0 := by
    have := vectorAt_of_drop hins 0; simpa using this
  have b2 : vectorAt (vectorInsert p.tokens (p.tokenIndex + 2) unknownToken)
      (p.tokenIndex + 2) = .ok unknownToken := by
    have := vectorAt_of_drop hins 2; simpa using this
  have b3 : vectorAt (vectorInsert p.tokens (p.tokenIndex + 2) unknownToken)
      (p.tokenIndex + 3) = .ok t2 := by
    have := vectorAt_of_drop hins 3; simpa using this
  have b4 : vectorAt (vectorInsert p.tokens (p.tokenIndex + 2) unknownToken)
      (p.tokenIndex + 4) = .ok t3 := by
    have := vectorAt_of_drop hins 4; simpa using this
  unfold Parser.handlePrintStatement
  simp only [hsz, ↓reduceIte, Parser.expectToken, a1]
  by_cases h1 : t1.type = TokenType.LPAR
  · simp only [h1, ne_eq, not_true_eq_false, ↓reduceIte, Parser.insertUnknown, a2]
    by_cases h2 : t2.type = TokenType.STRING
    · simp only [h2, ne_eq, not_true_eq_false, ↓reduceIte, a3, a4, Parser.pushNode, a0, a2]
      by_cases h3 : t3.type = TokenType.RPAR
      · by_cases h4 : t4.type = TokenType.END
        · simp only [h3, h4, ne_eq, not_true_eq_false, ↓reduceIte]
        · simp [h3, h4]
      · simp [h3]
    · simp only [h2, ne_eq, not_false_eq_true, ↓reduceIte, b3, b4,
        Parser.pushNode, b0, b2]
      by_cases h3 : t2.type = TokenType.RPAR
      · by_cases h4 : t3.type = TokenType.END
        · simp only [h3, h4, ne_eq, not_true_eq_false, ↓reduceIte]
        · simp [h3, h4]
      · simp [h3]
  · simp [h1]

theorem vectorInsert_drop (p : Parser) (t0 t1 t2 t3 t4 : Token) (rest : List Token)
    (h : p.tokens.drop p.tokenIndex = t0 :: t1 :: t2 :: t3 :: t4 :: rest) :
    (vectorInsert p.tokens (p.tokenIndex + 2) unknownToken).drop (p.tokenIndex + 5) =
      t4 :: rest := by
  obtain ⟨pre, hpre, hlen⟩ := Parser.tokens_eq_of_drop h (by simp)
  rw [hpre, ← hlen]
  simp [vectorInsert, List.take_append, List.drop_append]

/-! ## The parser computes its reference -/

theorem createNode_print (t0 t1 : Token) (h : t0.type = TokenType.PRINT) :
    createNode [t0, t1] =
      .ok (ASTNode.ofPrint
        { stringNode := if t1.type = TokenType.UNKNOWN then none
                        else some { value := t1.value } }) := by
  simp [createNode, vectorAt, h, createStringNode]

theorem parseRef_not_print (position : Nat) (t0 : Token) (rest : List Token)
    (h : t0.type ≠ TokenType.PRINT) :
    parseRef position (t0 :: rest) =
      .error (Failure.syntactic (SyntaxError.UnexpectedToken t0.value position)) := by
  rcases rest with _ | ⟨t1, _ | ⟨t2, _ | ⟨t3, _ | ⟨t4, rest⟩⟩⟩⟩ <;> simp [parseRef, h]

theorem parseRef_short (position : Nat) (t0 : Token) (rest : List Token)
    (h : t0.type = TokenType.PRINT) (hlen : rest.length < 4) :
    parseRef position (t0 :: rest) =
      .error (Failure.syntactic SyntaxError.IncompletePrint) := by
  rcases rest with _ | ⟨t1, _ | ⟨t2, _ | ⟨t3, _ | ⟨t4, rest⟩⟩⟩⟩ <;> simp [parseRef, h]
  simp at hlen
  omega

theorem Parser.run_eq_parseRef : ∀ (n : Nat) (p : Parser),
    (p.tokens.drop p.tokenIndex).length ≤ n → p.state = ParserState.DEFAULT →
    (match p.run with
      | .error e => Except.error e
      | .ok q => Except.ok q.nodes) =
    (match parseRef p.tokenIndex (p.tokens.drop p.tokenIndex) with
      | .error e => Except.error e
      | .ok nodes => Except.ok (p.nodes ++ nodes)) := by
  intro n
  induction n with
  | zero =>
    intro p hn _
    have hv : p.tokens.drop p.tokenIndex = [] := List.eq_nil_of_length_eq_zero (by omega)
    rw [Parser.run_of_drop_nil p hv, hv]
    simp [parseRef]
  | succ n ih =>
    intro p hn hs
    cases hv : p.tokens.drop p.tokenIndex with
    | nil =>
      rw [Parser.run_of_drop_nil p hv]
      simp [parseRef]
    | cons t0 rest =>
      rw [Parser.run_default p t0 rest hv hs]
      by_cases hP : t0.type = TokenType.PRINT
      · simp only [hP, ↓reduceIte]
        rw [Parser.run_print { p with state := ParserState.PRINT } t0 rest hv rfl]
        by_cases hlen : rest.length < 4
        · rw [Parser.handlePrintStatement_short { p with state := ParserState.PRINT }
              (t0 :: rest) hv (by simp; omega),
            parseRef_short _ t0 rest hP hlen]
        · obtain ⟨t1, t2, t3, t4, rest', rfl⟩ :
              ∃ t1 t2 t3 t4 rest', rest = t1 :: t2 :: t3 :: t4 :: rest' := by
            rcases rest with _ | ⟨t1, _ | ⟨t2, _ | ⟨t3, _ | ⟨t4, rest⟩⟩⟩⟩ <;> simp at hlen
            exact ⟨_, _, _, _, _, rfl⟩
          rw [Parser.handlePrintStatement_five { p with state := ParserState.PRINT }
            t0 t1 t2 t3 t4 rest' hv]
          rw [hv] at hn
          simp only [List.length_cons] at hn
          simp only [parseRef, hP, ne_eq, not_true_eq_false, ↓reduceIte]
          by_cases h1 : t1.type = TokenType.LPAR
          · simp only [h1, not_true_eq_false, ↓reduceIte]
            by_cases h2 : t2.type = TokenType.STRING
            · simp only [h2, ↓reduceIte]
              by_cases h3 : t3.type = TokenType.RPAR
              · by_cases h4 : t4.type = TokenType.END
                · simp only [h3, h4, not_true_eq_false, ↓reduceIte, createNode_print _ _ hP, h2]
                  have hq : List.drop (p.tokenIndex + 5) p.tokens = rest' := by
                    rw [← List.drop_drop, hv]; rfl
                  have := ih { tokens := p.tokens,
                               nodes := p.nodes ++ [ASTNode.ofPrint
                                 { stringNode := some { value := t2.value } }],
                               tokenIndex := p.tokenIndex + 5,
                               state := ParserState.DEFAULT }
                    (by simp only [hq]; omega) rfl
                  simp only [hq] at this
                  simp only [reduceCtorEq, ↓reduceIte]
                  rw [this]
                  cases parseRef (p.tokenIndex + 5) rest' <;> simp
                · simp [h3, h4]
              · simp [h3]
            · simp only [h2, ↓reduceIte]
              by_cases h3 : t2.type = TokenType.RPAR
              · by_cases h4 : t3.type = TokenType.END
                · simp only [h3, h4, not_true_eq_false, ↓reduceIte, createNode_print _ _ hP]
                  have hq := vectorInsert_drop _ t0 t1 t2 t3 t4 rest' hv
                  have := ih { tokens := vectorInsert p.tokens (p.tokenIndex + 2) unknownToken,
                               nodes := p.nodes ++ [ASTNode.ofPrint { stringNode := none }],
                               tokenIndex := p.tokenIndex + 5,
                               state := ParserState.DEFAULT }
                    (by simp only [hq, List.length_cons]; omega) rfl
                  simp only [hq] at this
                  simp only [unknownToken, ↓reduceIte] at this ⊢
                  rw [this]
                  cases parseRef (p.tokenIndex + 5) (t4 :: rest') <;> simp
                · simp [h3, h4]
              · simp [h3]
          · simp [h1]
      · simp only [hP, ↓reduceIte]
        rw [parseRef_not_print _ t0 rest hP]

/-- The method `Parser::parse` on a freshly constructed parser, through the
reference. -/
theorem Parser.parse_eq_parseRef (tokens : List Token) :
    (Parser.new tokens).parse =
      if tokens = [] then .error (Failure.syntactic SyntaxError.NoTokens)
      else parseRef 0 tokens := by
  unfold Parser.parse
  by_cases h : tokens = []
  · simp [Parser.new, h]
  · have := Parser.run_eq_parseRef tokens.length (Parser.new tokens) (by simp [Parser.new]) rfl
    simp only [Parser.new, List.drop_zero, List.nil_append] at this
    simp only [Parser.new, h, ↓reduceIte]
    rw [this]
    cases parseRef 0 tokens <;> rfl

/-! ## Consequences of the reference parser -/

theorem parseRef_group (position : Nat) (g : PrintGroup) (rest : List Token) :
    parseRef position (g.tokens ++ rest) =
      match parseRef (position + 5) rest with
      | .error e => .error e
      | .ok nodes => .ok (printNode g.argument :: nodes) := by
  simp [PrintGroup.tokens, parseRef, printNode]

theorem parseRef_groupTokens : ∀ (groups : List PrintGroup) (position : Nat),
    parseRef position (groupTokens groups) =
      .ok (groups.map fun g => printNode g.argument) := by
  intro groups
  induction groups with
  | nil => intro position; simp [groupTokens, parseRef]
  | cons g groups ih =>
    intro position
    rw [groupTokens, parseRef_group, ih]
    simp

theorem parseRef_ne_noTokens : ∀ (n : Nat) (tokens : List Token) (position : Nat),
    tokens.length ≤ n →
    parseRef position tokens ≠ .error (Failure.syntactic SyntaxError.NoTokens) := by
  intro n
  induction n with
  | zero =>
    intro tokens position h
    have : tokens = [] := List.eq_nil_of_length_eq_zero (by omega)
    subst this
    simp [parseRef]
  | succ n ih =>
    intro tokens position h
    rcases tokens with _ | ⟨t0, _ | ⟨t1, _ | ⟨t2, _ | ⟨t3, _ | ⟨t4, rest⟩⟩⟩⟩⟩
    · simp [parseRef]
    · simp only [parseRef]; split <;> simp
    · simp only [parseRef]; split <;> simp
    · simp only [parseRef]; split <;> simp
    · simp only [parseRef]; split <;> simp
    · simp only [List.length_cons] at h
      have h1 := ih rest (position + 5) (by omega)
      have h2 := ih (t4 :: rest) (position + 5) (by simp only [List.length_cons]; omega)
      simp only [parseRef]
      repeat' split
      all_goals intro hc
      all_goals first
        | (cases hc; done)
        | (cases hc; first
            | exact h1 (by assumption)
            | exact h2 (by assumption))

/-- Parsing goes through a sequence of complete statements that is followed
by at least one more token: an error met after it is the error of the whole
parse, the cursor having advanced by the tokens read plus the `UNKNOWN`
tokens inserted. -/
theorem parseRef_error_after : ∀ (n : Nat) (pre more : List Token) (position k : Nat)
    (e : Failure), pre.length ≤ n → placeholders pre = some k → more ≠ [] →
    parseRef (position + pre.length + k) more = .error e →
    parseRef position (pre ++ more) = .error e := by
  intro n
  induction n with
  | zero =>
    intro pre more position k e h hp _ he
    have : pre = [] := List.eq_nil_of_length_eq_zero (by omega)
    subst this
    simp only [placeholders, Option.some.injEq] at hp
    subst hp
    simpa using he
  | succ n ih =>
    intro pre more position k e h hp hne he
    rcases pre with _ | ⟨t0, _ | ⟨t1, _ | ⟨t2, _ | ⟨t3, _ | ⟨t4, rest⟩⟩⟩⟩⟩
    · simp only [placeholders, Option.some.injEq] at hp
      subst hp
      simpa using he
    · have : placeholders [t0] = none := rfl
      rw [this] at hp; cases hp
    · have : placeholders [t0, t1] = none := rfl
      rw [this] at hp; cases hp
    · have : placeholders [t0, t1, t2] = none := rfl
      rw [this] at hp; cases hp
    · rw [placeholders] at hp
      by_cases h01 : t0.type = TokenType.PRINT ∧ t1.type = TokenType.LPAR
      · by_cases h2 : t2.type = TokenType.STRING
        · simp [h01, h2] at hp
        · by_cases h34 : t2.type = TokenType.RPAR ∧ t3.type = TokenType.END
          · rw [if_pos h01, if_neg h2, if_pos h34] at hp
            simp only [placeholders, Option.map_some', Option.some.injEq] at hp
            subst hp
            obtain ⟨t4, rest'', rfl⟩ : ∃ t4 rest'', more = t4 :: rest'' := by
              cases more with
              | nil => exact absurd rfl hne
              | cons a b => exact ⟨a, b, rfl⟩
            simp only [List.length_cons, List.length_nil] at he
            have e1 : position + (0 + 1 + 1 + 1 + 1) + (0 + 1) = position + 5 := by omega
            rw [e1] at he
            simp [parseRef, h01.1, h01.2, h2, h34.1, h34.2, he]
          · simp [h01, h2, h34] at hp
      · simp [h01] at hp
    · rw [placeholders] at hp
      simp only [List.length_cons] at h he
      by_cases h01 : t0.type = TokenType.PRINT ∧ t1.type = TokenType.LPAR
      · by_cases h2 : t2.type = TokenType.STRING
        · by_cases h34 : t3.type = TokenType.RPAR ∧ t4.type = TokenType.END
          · rw [if_pos h01, if_pos h2, if_pos h34] at hp
            have := ih rest more (position + 5) k e (by omega) hp hne
              (by
                have e1 : position + 5 + rest.length + k
                    = position + (rest.length + 1 + 1 + 1 + 1 + 1) + k := by omega
                rw [e1]; exact he)
            simp [parseRef, h01.1, h01.2, h2, h34.1, h34.2, this]
          · simp [h01, h2, h34] at hp
        · by_cases h34 : t2.type = TokenType.RPAR ∧ t3.type = TokenType.END
          · rw [if_pos h01, if_neg h2, if_pos h34] at hp
            cases hk : placeholders (t4 :: rest) with
            | none => simp [hk] at hp
            | some k' =>
              simp only [hk, Option.map_some', Option.some.injEq] at hp
              subst hp
              have := ih (t4 :: rest) more (position + 5) k' e
                (by simp only [List.length_cons]; omega) hk hne
                (by
                  have e1 : position + 5 + (t4 :: rest).length + k'
                      = position + (rest.length + 1 + 1 + 1 + 1 + 1) + (k' + 1) := by
                    simp only [List.length_cons]; omega
                  rw [e1]; exact he)
              simp only [List.cons_append] at this ⊢
              simp [parseRef, h01.1, h01.2, h2, h34.1, h34.2, this]
          · simp [h01, h2, h34] at hp
      · simp [h01] at hp

theorem placeholders_cons_missing (t0 t1 t2 t3 : Token) (pre : List Token) (k : Nat)
    (h0 : t0.type = TokenType.PRINT) (h1 : t1.type = TokenType.LPAR)
    (h3 : t2.type = TokenType.RPAR) (h4 : t3.type = TokenType.END)
    (hp : placeholders pre = some k) :
    placeholders (t0 :: t1 :: t2 :: t3 :: pre) = some (k + 1) := by
  cases pre with
  | nil =>
    simp only [placeholders, Option.some.injEq] at hp
    subst hp
    simp [placeholders, h0, h1, h3, h4]
  | cons t4 rest => simp [placeholders, h0, h1, h3, h4, hp]

/-- An "unexpected token" error of the reference parser is raised at a
statement start: after a sequence of complete statements, at a token that is
not `PRINT`; the position reported counts the `UNKNOWN` tokens inserted. -/
theorem parseRef_unexpected : ∀ (n : Nat) (tokens : List Token) (position : Nat)
    (v : List Char) (i : Nat), tokens.length ≤ n →
    parseRef position tokens = .error (Failure.syntactic (SyntaxError.UnexpectedToken v i)) →
    ∃ pre t rest k, tokens = pre ++ t :: rest ∧ placeholders pre = some k ∧
      t.type ≠ TokenType.PRINT ∧ t.value = v ∧ i = position + pre.length + k := by
  intro n
  induction n with
  | zero =>
    intro tokens position v i h he
    have : tokens = [] := List.eq_nil_of_length_eq_zero (by omega)
    subst this
    simp [parseRef] at he
  | succ n ih =>
    intro tokens position v i h he
    rcases tokens with _ | ⟨t0, rest⟩
    · simp [parseRef] at he
    · by_cases hP : t0.type = TokenType.PRINT
      · by_cases hlen : rest.length < 4
        · rw [parseRef_short _ t0 rest hP hlen] at he
          cases he
        · obtain ⟨t1, t2, t3, t4, rest', rfl⟩ :
              ∃ t1 t2 t3 t4 rest', rest = t1 :: t2 :: t3 :: t4 :: rest' := by
            rcases rest with _ | ⟨t1, _ | ⟨t2, _ | ⟨t3, _ | ⟨t4, rest⟩⟩⟩⟩ <;> simp at hlen
            exact ⟨_, _, _, _, _, rfl⟩
          simp only [List.length_cons] at h
          simp only [parseRef, hP, ne_eq, not_true_eq_false, ↓reduceIte] at he
          by_cases h1 : t1.type = TokenType.LPAR
          · simp only [h1, not_true_eq_false, ↓reduceIte] at he
            by_cases h2 : t2.type = TokenType.STRING
            · simp only [h2, ↓reduceIte] at he
              by_cases h3 : t3.type = TokenType.RPAR
              · simp only [h3, not_true_eq_false, ↓reduceIte] at he
                by_cases h4 : t4.type = TokenType.END
                · simp only [h4, not_true_eq_false, ↓reduceIte] at he
                  cases hrec : parseRef (position + 5) rest' with
                  | ok nodes => rw [hrec] at he; cases he
                  | error e' =>
                    rw [hrec] at he
                    cases he
                    obtain ⟨pre, t, rest2, k, a1, a2, a3, a4, a5⟩ :=
                      ih rest' (position + 5) v i (by omega) hrec
                    refine ⟨t0 :: t1 :: t2 :: t3 :: t4 :: pre, t, rest2, k, ?_, ?_, a3, a4, ?_⟩
                    · simp [a1]
                    · simp [placeholders, hP, h1, h2, h3, h4, a2]
                    · simp only [List.length_cons]; omega
                · simp [h4] at he
              · simp [h3] at he
            · simp only [h2, ↓reduceIte] at he
              by_cases h3 : t2.type = TokenType.RPAR
              · simp only [h3, not_true_eq_false, ↓reduceIte] at he
                by_cases h4 : t3.type = TokenType.END
                · simp only [h4, not_true_eq_false, ↓reduceIte] at he
                  cases hrec : parseRef (position + 5) (t4 :: rest') with
                  | ok nodes => rw [hrec] at he; cases he
                  | error e' =>
                    rw [hrec] at he
                    cases he
                    obtain ⟨pre, t, rest2, k, a1, a2, a3, a4, a5⟩ :=
                      ih (t4 :: rest') (position + 5) v i
                        (by simp only [List.length_cons]; omega) hrec
                    refine ⟨t0 :: t1 :: t2 :: t3 :: pre, t, rest2, k + 1, ?_, ?_, a3, a4, ?_⟩
                    · simp only [List.cons_append, a1]
                    · exact placeholders_cons_missing t0 t1 t2 t3 pre k hP h1 h3 h4 a2
                    · simp only [List.length_cons]; omega
                · simp [h4] at he
              · simp [h3] at he
          · simp [h1] at he
      · rw [parseRef_not_print _ t0 rest hP] at he
        injection he with he
        injection he with he
        injection he with hv hi
        exact ⟨[], t0, rest, 0, rfl, rfl, hP, hv, by simp [hi]⟩

/-! ## The visitor passes over a node list -/

theorem semantic_visit_ok (node : ASTNode) (h : node ≠ emptyPrintNode) :
    SemanticAnalysisVisitor.visit node = .ok () := by
  rcases node with n | ⟨_ | sn⟩
  · rfl
  · exact absurd rfl h
  · simp [SemanticAnalysisVisitor.visit]

theorem forEachNode_semantic (nodes : List ASTNode) :
    forEachNode SemanticAnalysisVisitor.visit nodes =
      if emptyPrintNode ∈ nodes then
        .error (Failure.semantic SemanticError.MissingArgument)
      else .ok () := by
  induction nodes with
  | nil => simp [forEachNode]
  | cons node nodes ih =>
    by_cases h : node = emptyPrintNode
    · subst h
      simp [forEachNode, SemanticAnalysisVisitor.visit, emptyPrintNode]
    · have hm : (emptyPrintNode ∈ node :: nodes) ↔ emptyPrintNode ∈ nodes := by
        rw [List.mem_cons]
        exact ⟨fun hh => hh.resolve_left (fun e => h e.symm), Or.inr⟩
      rw [forEachNode, semantic_visit_ok node h]
      simp only [ih, hm]

theorem optimization_visit_ok (node : ASTNode) (h1 : node ≠ emptyPrintNode)
    (h2 : node ≠ printNode []) : OptimizationVisitor.visit node = .ok () := by
  rcases node with n | ⟨_ | ⟨⟨v⟩⟩⟩
  · rfl
  · exact absurd rfl h1
  · have : v ≠ [] := by
      intro e; subst e; exact h2 rfl
    simp [OptimizationVisitor.visit, this]

theorem forEachNode_optimization (nodes : List ASTNode) (h : emptyPrintNode ∉ nodes) :
    forEachNode OptimizationVisitor.visit nodes =
      if printNode [] ∈ nodes then
        .error (Failure.optimization OptimizationError.EmptyStringArgument)
      else .ok () := by
  induction nodes with
  | nil => simp [forEachNode]
  | cons node nodes ih =>
    simp only [List.mem_cons, not_or] at h
    have h1 : node ≠ emptyPrintNode := fun e => h.1 e.symm
    by_cases h2 : node = printNode []
    · subst h2
      simp [forEachNode, OptimizationVisitor.visit, printNode]
    · have hm : (printNode [] ∈ node :: nodes) ↔ printNode [] ∈ nodes := by
        rw [List.mem_cons]
        exact ⟨fun hh => hh.resolve_left (fun e => h2 e.symm), Or.inr⟩
      rw [forEachNode, optimization_visit_ok node h1 h2]
      simp only [ih h.2, hm]

theorem executeNodes_ok : ∀ (nodes : List ASTNode) (out : List Char),
    emptyPrintNode ∉ nodes →
    executeNodes nodes out = (.ok (), out ++ writtenLines (argumentValues nodes)) := by
  intro nodes
  induction nodes with
  | nil => intro out _; simp [executeNodes, argumentValues, writtenLines]
  | cons node nodes ih =>
    intro out h
    simp only [List.mem_cons, not_or] at h
    rcases node with n | ⟨_ | ⟨⟨v⟩⟩⟩
    · simp [executeNodes, ExecuteVisitor.visit, argumentValues, ih out h.2]
    · exact absurd rfl h.1
    · simp [executeNodes, ExecuteVisitor.visit, argumentValues, writtenLines,
        ih _ h.2]

/-- The three passes of `main`, by cases on the node list. -/
theorem runPasses_eq (nodes : List ASTNode) :
    runPasses nodes =
      if emptyPrintNode ∈ nodes then
        (.error (Failure.semantic SemanticError.MissingArgument), [])
      else if printNode [] ∈ nodes then
        (.error (Failure.optimization OptimizationError.EmptyStringArgument), [])
      else (.ok (), writtenLines (argumentValues nodes)) := by
  unfold runPasses
  rw [forEachNode_semantic]
  by_cases h1 : emptyPrintNode ∈ nodes
  · simp [h1]
  · simp only [h1, ↓reduceIte]
    rw [forEachNode_optimization nodes h1]
    by_cases h2 : printNode [] ∈ nodes
    · simp [h2]
    · simp only [h2, ↓reduceIte]
      rw [executeNodes_ok nodes [] h1]
      simp

/-! ## The pipeline on programs made of statements -/

theorem endToken_type (t : Char) : (endToken t).type = TokenType.END := by
  unfold endToken; split <;> rfl

theorem parseRef_statement (position : Nat) (st : Statement) (more : List Token)
    (h : st.argument ≠ none ∨ more ≠ []) :
    parseRef position (st.tokens ++ more) =
      match parseRef (position + 5) more with
      | .error e => .error e
      | .ok nodes => .ok (st.node :: nodes) := by
  obtain ⟨arg, t⟩ := st
  cases arg with
  | some s =>
    simp [Statement.tokens, Statement.node, parseRef, endToken_type]
  | none =>
    obtain ⟨t4, rest, rfl⟩ : ∃ t4 rest, more = t4 :: rest := by
      cases more with
      | nil => simp at h
      | cons a b => exact ⟨a, b, rfl⟩
    simp [Statement.tokens, Statement.node, parseRef, endToken_type]

theorem parseRef_programTokens : ∀ (stmts : List Statement) (position : Nat)
    (more : List Token), ((∀ st ∈ stmts, st.argument ≠ none) ∨ more ≠ []) →
    parseRef position (programTokens stmts ++ more) =
      match parseRef (position + 5 * stmts.length) more with
      | .error e => .error e
      | .ok nodes => .ok (stmts.map Statement.node ++ nodes) := by
  intro stmts
  induction stmts with
  | nil => intro position more _; cases h : parseRef position more <;> simp [programTokens, h]
  | cons st stmts ih =>
    intro position more h
    have h1 : st.argument ≠ none ∨ programTokens stmts ++ more ≠ [] := by
      rcases h with h | h
      · exact Or.inl (h st (List.mem_cons_self _ _))
      · exact Or.inr (by simp [h])
    have h2 : (∀ st ∈ stmts, st.argument ≠ none) ∨ more ≠ [] := by
      rcases h with h | h
      · exact Or.inl (fun st hst => h st (List.mem_cons_of_mem _ hst))
      · exact Or.inr h
    rw [programTokens, List.append_assoc, parseRef_statement _ st _ h1, ih _ more h2]
    have e : position + 5 + 5 * stmts.length = position + 5 * (st :: stmts).length := by
      simp only [List.length_cons]; omega
    rw [e]
    cases parseRef (position + 5 * (st :: stmts).length) more <;> simp

theorem programTokens_ne_nil {stmts : List Statement} (h : stmts ≠ []) :
    programTokens stmts ≠ [] := by
  cases stmts with
  | nil => exact absurd rfl h
  | cons st stmts =>
    rw [programTokens]
    intro e
    exact st.tokens_ne_nil (List.append_eq_nil.1 e).1

/-- Parsing the tokens of a non-empty program whose statements all have an
argument. -/
theorem parse_programTokens (stmts : List Statement) (hne : stmts ≠ [])
    (h : ∀ st ∈ stmts, st.argument ≠ none) :
    (Parser.new (programTokens stmts)).parse = .ok (stmts.map Statement.node) := by
  rw [Parser.parse_eq_parseRef]
  simp only [programTokens_ne_nil hne, ↓reduceIte]
  have := parseRef_programTokens stmts 0 [] (Or.inl h)
  simp only [List.append_nil, parseRef] at this
  exact this

/-- The outcome of `main` on a program of well-formed statements: both calls of `tokenize`
return the expected tokens, and the outcome is that of parsing them and
running the passes. -/
theorem main_programText (stmts : List Statement) (h : ∀ st ∈ stmts, st.WellFormed) :
    main (programText stmts) =
      match (Parser.new (programTokens stmts)).parse with
      | .error e => (.error e, [])
      | .ok nodes => runPasses nodes := by
  unfold main
  simp only [tokenize_programText stmts h]

theorem printStatements_wellFormed (pairs : List (List Char × Char))
    (h : ∀ p ∈ pairs, '"' ∉ p.1 ∧ (p.2 = ';' ∨ p.2 = '\n')) :
    ∀ st ∈ printStatements pairs, st.WellFormed := by
  intro st hst
  obtain ⟨p, hp, rfl⟩ := List.mem_map.1 hst
  refine ⟨?_, (h p hp).2⟩
  intro s hs
  simp only [Option.some.injEq] at hs
  subst hs
  exact (h p hp).1

theorem printStatements_argument (pairs : List (List Char × Char)) :
    ∀ st ∈ printStatements pairs, st.argument ≠ none := by
  intro st hst
  obtain ⟨p, _, rfl⟩ := List.mem_map.1 hst
  simp

theorem printStatements_nodes (pairs : List (List Char × Char)) :
    (printStatements pairs).map Statement.node =
      pairs.map fun p => printNode (normalizeNewlines p.1) := by
  simp [printStatements, Statement.node, printNode]

theorem argumentValues_printNodes (values : List (List Char)) :
    argumentValues (values.map printNode) = values := by
  induction values with
  | nil => rfl
  | cons v values ih => simp [argumentValues, printNode, ih]

theorem linesFrom_written (s : List Char) (h : '\n' ∉ s) :
    ∀ (current rest : List Char),
      linesFrom current (s ++ '\n' :: rest) = (current ++ s) :: linesFrom [] rest := by
  induction s with
  | nil => intro current rest; simp [linesFrom]
  | cons c s ih =>
    intro current rest
    simp only [List.mem_cons, not_or] at h
    have hc : c ≠ '\n' := fun e => h.1 e.symm
    simp [linesFrom, hc, ih h.2]

/-- Lines written without an inner line feed are read back as written. -/
theorem outputLines_writtenLines (values : List (List Char))
    (h : ∀ v ∈ values, '\n' ∉ v) : outputLines (writtenLines values) = values := by
  unfold outputLines
  induction values with
  | nil => simp [writtenLines, linesFrom]
  | cons v values ih =>
    rw [writtenLines, linesFrom_written v (h v (List.mem_cons_self _ _)),
      ih (fun w hw => h w (List.mem_cons_of_mem _ hw))]
    simp

theorem emptyPrintNode_not_mem (values : List (List Char)) :
    emptyPrintNode ∉ values.map printNode := by
  intro h
  obtain ⟨v, _, hv⟩ := List.mem_map.1 h
  simp [printNode, emptyPrintNode] at hv

theorem printNode_nil_mem (values : List (List Char)) :
    printNode [] ∈ values.map printNode ↔ [] ∈ values := by
  constructor
  · intro h
    obtain ⟨v, hv, e⟩ := List.mem_map.1 h
    simp only [printNode, ASTNode.ofPrint.injEq, PrintNode.mk.injEq, Option.some.injEq,
      StringNode.mk.injEq] at e
    rw [← e]; exact hv
  · intro h
    exact List.mem_map.2 ⟨[], h, rfl⟩

/-- Tokenizing `print("s");` for a text `s` without double quote. -/
theorem tokenize_print_literal (s : List Char) (h : '"' ∉ s) :
    (Lexer.new ("print(\"".toList ++ s ++ "\");".toList)).tokenize =
      (.ok [⟨TokenType.PRINT, "print".toList⟩, ⟨TokenType.LPAR, ['(']⟩,
          ⟨TokenType.STRING, normalizeNewlines s⟩, ⟨TokenType.RPAR, [')']⟩,
          ⟨TokenType.END, [';']⟩],
        Lexer.new ("print(\"".toList ++ s ++ "\");".toList)) := by
  have e : "print(\"".toList ++ s ++ "\");".toList =
      programText [{ argument := some s, terminator := ';' }] := by
    simp [programText, Statement.text]
  rw [e, tokenize_programText _ (by
    intro st hst
    simp only [List.mem_singleton] at hst
    subst hst
    exact ⟨fun s' hs' => by simp only [Option.some.injEq] at hs'; subst hs'; exact h,
      Or.inl rfl⟩)]
  simp [programTokens, Statement.tokens, endToken]

theorem normalizeNewlines_open_literal (s : List Char) :
    normalizeNewlines ("print(\"".toList ++ s) = "print(\"".toList ++ normalizeNewlines s := by
  have e : "print(\"".toList ++ s = 'p' :: 'r' :: 'i' :: 'n' :: 't' :: '(' :: '"' :: s := by
    simp
  rw [e, normalizeNewlines_eq_normalizeRef, normalizeNewlines_eq_normalizeRef]
  repeat rw [normalizeRef_cons_of_ne (by decide)]
  simp

/-- Scanning `print("` followed by a text without double quote: the loop
ends in state `STRING` without an error when the text is empty, and throws
"unclosed string literal" otherwise. -/
theorem scan_open_literal (src s : List Char) (h : '"' ∉ s) :
    scan src ("print(\"".toList ++ s) 0 LexerState.DEFAULT [] [] =
      if s = [] then
        (.ok ([⟨TokenType.PRINT, "print".toList⟩, ⟨TokenType.LPAR, ['(']⟩], []),
          LexerState.STRING)
      else
        (.error (.UnterminatedString (7 + s.length) (contextAt src (7 + s.length))),
          LexerState.STRING) := by
  have e : "print(\"".toList ++ s = 'p' :: 'r' :: 'i' :: 'n' :: 't' :: '(' :: '"' :: s := by
    simp
  rw [e, scan_print_lpar, scan_default_cons]
  simp +decide only [handleSpecialCharacter, addKeywordToken, specialCharacters,
    Char.isAlpha, Char.isUpper, Char.isLower, ne_eq, not_true_eq_false, ↓reduceIte,
    Bool.false_eq_true, Bool.or_self, List.nil_append, Nat.zero_add]
  by_cases hs : s = []
  · subst hs
    simp [scan_nil]
  · rw [scan_string_open src s _ _ _ h hs]
    simp [hs]

/-- Tokenizing the program text `print()`: four tokens, the `END` one being
appended after the loop. -/
theorem tokenize_print_no_argument :
    (Lexer.new "print()".toList).tokenize =
      (.ok [⟨TokenType.PRINT, "print".toList⟩, ⟨TokenType.LPAR, ['(']⟩,
          ⟨TokenType.RPAR, [')']⟩, ⟨TokenType.END, []⟩],
        Lexer.new "print()".toList) := by
  have hn : normalizeNewlines "print()".toList = "print()".toList :=
    normalizeNewlines_of_not_mem (by decide)
  have hs : scan "print()".toList "print()".toList 0 LexerState.DEFAULT [] [] =
      (.ok ([⟨TokenType.PRINT, "print".toList⟩, ⟨TokenType.LPAR, ['(']⟩,
        ⟨TokenType.RPAR, [')']⟩], []), LexerState.DEFAULT) := by
    have e : "print()".toList = 'p' :: 'r' :: 'i' :: 'n' :: 't' :: '(' :: [')'] := by decide
    rw [e, scan_print_lpar, scan_default_cons]
    simp +decide [handleSpecialCharacter, addKeywordToken, specialCharacters,
      Char.isAlpha, Char.isUpper, Char.isLower, scan_nil]
  simp only [Lexer.tokenize, Lexer.new, hn, hs, addKeywordToken]
  simp [lacksEnd]

theorem programTokens_append : ∀ (a b : List Statement),
    programTokens (a ++ b) = programTokens a ++ programTokens b := by
  intro a
  induction a with
  | nil => intro b; rfl
  | cons st a ih => intro b; simp [programTokens, ih]

/-- Parsing the tokens of a program whose last statement has an argument:
one node per statement, the argument-less statements included. -/
theorem parse_programTokens_last (init : List Statement) (last : Statement)
    (h : last.argument ≠ none) :
    (Parser.new (programTokens (init ++ [last]))).parse =
      .ok ((init ++ [last]).map Statement.node) := by
  rw [Parser.parse_eq_parseRef]
  have hne : programTokens (init ++ [last]) ≠ [] := programTokens_ne_nil (by simp)
  simp only [hne, ↓reduceIte]
  rw [programTokens_append,
    parseRef_programTokens init 0 _ (Or.inr (programTokens_ne_nil (by simp)))]
  have := parseRef_statement (0 + 5 * init.length) last [] (Or.inl h)
  simp only [List.append_nil, parseRef] at this
  simp only [programTokens, List.append_nil, this]
  simp

/-- The tokens of `strayParenTokens` are what `tokenize` returns for the
program text `print()`, a line feed, then `(`, and `main` on that text reports
the unexpected token `(` at position 5. -/
theorem main_stray_paren :
    ((Lexer.new ("print()".toList ++ ['\n', '('])).tokenize).1 = .ok strayParenTokens ∧
    main ("print()".toList ++ ['\n', '(']) =
      (.error (Failure.syntactic (SyntaxError.UnexpectedToken ['('] 5)), []) := by
  have hn : normalizeNewlines ("print()".toList ++ ['\n', '(']) =
      "print()".toList ++ ['\n', '('] := normalizeNewlines_of_not_mem (by decide)
  have hs : scan ("print()".toList ++ ['\n', '(']) ("print()".toList ++ ['\n', '(']) 0
      LexerState.DEFAULT [] [] =
      (.ok ([⟨TokenType.PRINT, "print".toList⟩, ⟨TokenType.LPAR, ['(']⟩,
        ⟨TokenType.RPAR, [')']⟩, ⟨TokenType.END, ['\\', 'n']⟩, ⟨TokenType.LPAR, ['(']⟩], []),
        LexerState.DEFAULT) := by
    have h := scan_statement_none ("print()".toList ++ ['\n', '(']) ['('] '\n' 0 []
      (Or.inr rfl)
    have e : "print()".toList ++ ['\n'] ++ ['('] = "print()".toList ++ ['\n', '('] := by
      decide
    rw [e] at h
    rw [h, scan_default_cons]
    simp +decide [handleSpecialCharacter, addKeywordToken, specialCharacters,
      Char.isAlpha, Char.isUpper, Char.isLower, scan_nil, endToken]
  have ht : (Lexer.new ("print()".toList ++ ['\n', '('])).tokenize =
      (.ok strayParenTokens, Lexer.new ("print()".toList ++ ['\n', '('])) := by
    simp only [Lexer.tokenize, Lexer.new, hn, hs, addKeywordToken]
    simp [lacksEnd, strayParenTokens]
  refine ⟨by rw [ht], ?_⟩
  unfold main
  simp only [ht]
  rw [Parser.parse_eq_parseRef]
  rfl

/-- For every non-empty text `s` without double quote,
tokenizing `print("` followed by `s` throws "unclosed string literal", at the
end of the normalised text. -/
theorem tokenize_unterminated (s : List Char) (h : '"' ∉ s) (hne : s ≠ []) :
    ((Lexer.new ("print(\"".toList ++ s)).tokenize).1 =
      .error (.UnterminatedString (7 + (normalizeNewlines s).length)
        (contextAt ("print(\"".toList ++ normalizeNewlines s)
          (7 + (normalizeNewlines s).length))) := by
  have hs := scan_open_literal ("print(\"".toList ++ normalizeNewlines s)
    (normalizeNewlines s) (quote_not_mem_normalizeNewlines h)
  have hne' : normalizeNewlines s ≠ [] := fun e => hne ((normalizeNewlines_eq_nil_iff s).1 e)
  simp only [hne', ↓reduceIte] at hs
  simp only [Lexer.tokenize, Lexer.new, normalizeNewlines_open_literal, hs]

/-- In a program of well-formed statements whose last
statement has an argument and in which some statement is `print()`, both
stages of the front end succeed, the parser yields one node per statement,
with an absent argument exactly for the `print()` statements, and
SemanticAnalysis fails with `MissingArgument`; nothing is written. -/
theorem main_missing_argument (init : List Statement) (last : Statement)
    (hw : ∀ st ∈ init ++ [last], st.WellFormed) (hlast : last.argument ≠ none)
    (hmissing : ∃ st ∈ init, st.argument = none) :
    (Parser.new (programTokens (init ++ [last]))).parse =
      .ok ((init ++ [last]).map Statement.node) ∧
    main (programText (init ++ [last])) =
      (.error (Failure.semantic SemanticError.MissingArgument), []) := by
  have hp := parse_programTokens_last init last hlast
  refine ⟨hp, ?_⟩
  rw [main_programText _ hw, hp]
  simp only []
  rw [runPasses_eq]
  obtain ⟨st, hst, harg⟩ := hmissing
  have : emptyPrintNode ∈ (init ++ [last]).map Statement.node := by
    refine List.mem_map.2 ⟨st, by simp [hst], ?_⟩
    simp [Statement.node, harg, emptyPrintNode]
  rw [if_pos this]

/-! ## The end of the token sequence -/

theorem lacksEnd_eq_false_iff (tokens : List Token) :
    lacksEnd tokens = false ↔
      tokens = [] ∨ ∃ t, tokens.getLast? = some t ∧ t.type = TokenType.END := by
  unfold lacksEnd
  cases h : tokens.getLast? with
  | none =>
    have : tokens = [] := List.getLast?_eq_none_iff.1 h
    simp [this]
  | some t =>
    have hne : tokens ≠ [] := by
      intro e; rw [e] at h; simp at h
    simp [hne]

/-- Whatever the state of the `Lexer` object, a sequence returned by
`tokenize` is empty or ends with an `END` token. -/
theorem tokenize_ends_with_end (lexer : Lexer) (tokens : List Token)
    (h : lexer.tokenize.1 = .ok tokens) :
    tokens = [] ∨ ∃ t, tokens.getLast? = some t ∧ t.type = TokenType.END := by
  unfold Lexer.tokenize at h
  split at h
  · cases h
  · split at h
    · cases h
    · rename_i toks _
      simp only [Except.ok.injEq] at h
      by_cases hl : lacksEnd toks = true
      · simp only [hl, ↓reduceIte] at h
        subst h
        exact Or.inr ⟨⟨TokenType.END, []⟩, by simp, rfl⟩
      · simp only [hl, Bool.false_eq_true, ↓reduceIte] at h
        subst h
        exact (lacksEnd_eq_false_iff _).1 (by simpa using hl)

/-! ## What a successful or a failed parse tells about its input -/

theorem printNode_ne_emptyPrintNode (s : List Char) : printNode s ≠ emptyPrintNode := by
  simp [printNode, emptyPrintNode]

/-- A successful run of the reference parser: no token is `UNKNOWN`, the
tokens read as complete statements, one per node, the argument-less ones
being as many as the nodes with an absent argument, and each statement takes
five tokens less the placeholder inserted for an absent argument. -/
theorem parseRef_ok : ∀ (n : Nat) (tokens : List Token) (position : Nat)
    (nodes : List ASTNode), tokens.length ≤ n → parseRef position tokens = .ok nodes →
    (∀ t ∈ tokens, t.type ≠ TokenType.UNKNOWN) ∧
    tokens.length + nodes.count emptyPrintNode = 5 * nodes.length ∧
    placeholders tokens = some (nodes.count emptyPrintNode) ∧
    (∀ node ∈ nodes, node = emptyPrintNode ∨ ∃ s, node = printNode s) := by
  intro n
  induction n with
  | zero =>
    intro tokens position nodes h he
    have : tokens = [] := List.eq_nil_of_length_eq_zero (by omega)
    subst this
    simp only [parseRef, Except.ok.injEq] at he
    subst he
    simp [placeholders]
  | succ n ih =>
    intro tokens position nodes h he
    rcases tokens with _ | ⟨t0, rest⟩
    · simp only [parseRef, Except.ok.injEq] at he
      subst he
      simp [placeholders]
    · by_cases hP : t0.type = TokenType.PRINT
      · by_cases hlen : rest.length < 4
        · rw [parseRef_short _ t0 rest hP hlen] at he
          cases he
        · obtain ⟨t1, t2, t3, t4, rest', rfl⟩ :
              ∃ t1 t2 t3 t4 rest', rest = t1 :: t2 :: t3 :: t4 :: rest' := by
            rcases rest with _ | ⟨t1, _ | ⟨t2, _ | ⟨t3, _ | ⟨t4, rest⟩⟩⟩⟩ <;> simp at hlen
            exact ⟨_, _, _, _, _, rfl⟩
          simp only [List.length_cons] at h
          simp only [parseRef, hP, ne_eq, not_true_eq_false, ↓reduceIte] at he
          by_cases h1 : t1.type = TokenType.LPAR
          · simp only [h1, not_true_eq_false, ↓reduceIte] at he
            by_cases h2 : t2.type = TokenType.STRING
            · simp only [h2, ↓reduceIte] at he
              by_cases h3 : t3.type = TokenType.RPAR
              · simp only [h3, not_true_eq_false, ↓reduceIte] at he
                by_cases h4 : t4.type = TokenType.END
                · simp only [h4, not_true_eq_false, ↓reduceIte] at he
                  cases hrec : parseRef (position + 5) rest' with
                  | error e => rw [hrec] at he; cases he
                  | ok ns =>
                    rw [hrec] at he
                    simp only [Except.ok.injEq] at he
                    subst he
                    obtain ⟨a1, a2, a3, a4⟩ := ih rest' (position + 5) ns (by omega) hrec
                    have hc : List.count emptyPrintNode
                        (ASTNode.ofPrint { stringNode := some { value := t2.value } } :: ns)
                        = List.count emptyPrintNode ns := by
                      rw [List.count_cons_of_ne]
                      exact fun e => printNode_ne_emptyPrintNode t2.value e.symm
                    refine ⟨?_, ?_, ?_, ?_⟩
                    · intro t ht
                      simp only [List.mem_cons] at ht
                      rcases ht with rfl | rfl | rfl | rfl | rfl | ht
                      · rw [hP]; decide
                      · rw [h1]; decide
                      · rw [h2]; decide
                      · rw [h3]; decide
                      · rw [h4]; decide
                      · exact a1 t ht
                    · rw [hc]
                      simp only [List.length_cons]
                      omega
                    · rw [hc]
                      simp [placeholders, hP, h1, h2, h3, h4, a3]
                    · intro node hn
                      rcases List.mem_cons.1 hn with rfl | hn
                      · exact Or.inr ⟨t2.value, rfl⟩
                      · exact a4 node hn
                · simp [h4] at he
              · simp [h3] at he
            · simp only [h2, ↓reduceIte] at he
              by_cases h3 : t2.type = TokenType.RPAR
              · simp only [h3, not_true_eq_false, ↓reduceIte] at he
                by_cases h4 : t3.type = TokenType.END
                · simp only [h4, not_true_eq_false, ↓reduceIte] at he
                  cases hrec : parseRef (position + 5) (t4 :: rest') with
                  | error e => rw [hrec] at he; cases he
                  | ok ns =>
                    rw [hrec] at he
                    simp only [Except.ok.injEq] at he
                    subst he
                    obtain ⟨a1, a2, a3, a4⟩ := ih (t4 :: rest') (position + 5) ns
                      (by simp only [List.length_cons]; omega) hrec
                    have hc : List.count emptyPrintNode
                        (ASTNode.ofPrint { stringNode := none } :: ns)
                        = List.count emptyPrintNode ns + 1 := by
                      rw [show ASTNode.ofPrint { stringNode := none } = emptyPrintNode from rfl,
                        List.count_cons_self]
                    refine ⟨?_, ?_, ?_, ?_⟩
                    · intro t ht
                      simp only [List.mem_cons] at ht
                      rcases ht with rfl | rfl | rfl | rfl | ht
                      · rw [hP]; decide
                      · rw [h1]; decide
                      · rw [h3]; decide
                      · rw [h4]; decide
                      · exact a1 t (by simpa using ht)
                    · rw [hc]
                      simp only [List.length_cons] at a2 ⊢
                      omega
                    · rw [hc]
                      exact placeholders_cons_missing t0 t1 t2 t3 (t4 :: rest') _ hP h1 h3 h4 a3
                    · intro node hn
                      rcases List.mem_cons.1 hn with rfl | hn
                      · exact Or.inl rfl
                      · exact a4 node hn
                · simp [h4] at he
              · simp [h3] at he
          · simp [h1] at he
      · rw [parseRef_not_print _ t0 rest hP] at he
        cases he

/-- The errors of the reference parser: one of the five syntax errors thrown
by `Parser::parse` and `Parser::handlePrintStatement` on a non-empty
sequence. -/
theorem parseRef_error : ∀ (n : Nat) (tokens : List Token) (position : Nat) (e : Failure),
    tokens.length ≤ n → parseRef position tokens = .error e →
    (∃ v i, e = Failure.syntactic (SyntaxError.UnexpectedToken v i)) ∨
    e = Failure.syntactic SyntaxError.IncompletePrint ∨
    e = Failure.syntactic SyntaxError.ExpectedLParen ∨
    e = Failure.syntactic SyntaxError.ExpectedRParen ∨
    e = Failure.syntactic SyntaxError.ExpectedTerminator := by
  intro n
  induction n with
  | zero =>
    intro tokens position e h he
    have : tokens = [] := List.eq_nil_of_length_eq_zero (by omega)
    subst this
    simp [parseRef] at he
  | succ n ih =>
    intro tokens position e h he
    rcases tokens with _ | ⟨t0, rest⟩
    · simp [parseRef] at he
    · by_cases hP : t0.type = TokenType.PRINT
      · by_cases hlen : rest.length < 4
        · rw [parseRef_short _ t0 rest hP hlen] at he
          cases he
          exact Or.inr (Or.inl rfl)
        · obtain ⟨t1, t2, t3, t4, rest', rfl⟩ :
              ∃ t1 t2 t3 t4 rest', rest = t1 :: t2 :: t3 :: t4 :: rest' := by
            rcases rest with _ | ⟨t1, _ | ⟨t2, _ | ⟨t3, _ | ⟨t4, rest⟩⟩⟩⟩ <;> simp at hlen
            exact ⟨_, _, _, _, _, rfl⟩
          simp only [List.length_cons] at h
          simp only [parseRef, hP, ne_eq, not_true_eq_false, ↓reduceIte] at he
          by_cases h1 : t1.type = TokenType.LPAR
          · simp only [h1, not_true_eq_false, ↓reduceIte] at he
            by_cases h2 : t2.type = TokenType.STRING
            · simp only [h2, ↓reduceIte] at he
              by_cases h3 : t3.type = TokenType.RPAR
              · simp only [h3, not_true_eq_false, ↓reduceIte] at he
                by_cases h4 : t4.type = TokenType.END
                · simp only [h4, not_true_eq_false, ↓reduceIte] at he
                  cases hrec : parseRef (position + 5) rest' with
                  | ok ns => rw [hrec] at he; cases he
                  | error e' =>
                    rw [hrec] at he
                    cases he
                    exact ih rest' (position + 5) e (by omega) hrec
                · simp only [h4, not_false_eq_true, ↓reduceIte] at he
                  cases he
                  exact Or.inr (Or.inr (Or.inr (Or.inr rfl)))
              · simp only [h3, not_false_eq_true, ↓reduceIte] at he
                cases he
                exact Or.inr (Or.inr (Or.inr (Or.inl rfl)))
            · simp only [h2, ↓reduceIte] at he
              by_cases h3 : t2.type = TokenType.RPAR
              · simp only [h3, not_true_eq_false, ↓reduceIte] at he
                by_cases h4 : t3.type = TokenType.END
                · simp only [h4, not_true_eq_false, ↓reduceIte] at he
                  cases hrec : parseRef (position + 5) (t4 :: rest') with
                  | ok ns => rw [hrec] at he; cases he
                  | error e' =>
                    rw [hrec] at he
                    cases he
                    exact ih (t4 :: rest') (position + 5) e
                      (by simp only [List.length_cons]; omega) hrec
                · simp only [h4, not_false_eq_true, ↓reduceIte] at he
                  cases he
                  exact Or.inr (Or.inr (Or.inr (Or.inr rfl)))
              · simp only [h3, not_false_eq_true, ↓reduceIte] at he
                cases he
                exact Or.inr (Or.inr (Or.inr (Or.inl rfl)))
          · simp only [h1, not_false_eq_true, ↓reduceIte] at he
            cases he
            exact Or.inr (Or.inr (Or.inl rfl))
      · rw [parseRef_not_print _ t0 rest hP] at he
        cases he
        exact Or.inl ⟨_, _, rfl⟩

/-! ## Outcomes of the parser -/

/-- Every outcome of `Parser::parse`: a node list, or one of six syntax
errors. -/
theorem parse_outcome (tokens : List Token) :
    (∃ nodes, (Parser.new tokens).parse = .ok nodes) ∨
    (Parser.new tokens).parse = .error (Failure.syntactic SyntaxError.NoTokens) ∨
    (∃ v i, (Parser.new tokens).parse =
      .error (Failure.syntactic (SyntaxError.UnexpectedToken v i))) ∨
    (Parser.new tokens).parse = .error (Failure.syntactic SyntaxError.IncompletePrint) ∨
    (Parser.new tokens).parse = .error (Failure.syntactic SyntaxError.ExpectedLParen) ∨
    (Parser.new tokens).parse = .error (Failure.syntactic SyntaxError.ExpectedRParen) ∨
    (Parser.new tokens).parse = .error (Failure.syntactic SyntaxError.ExpectedTerminator) := by
  rw [Parser.parse_eq_parseRef]
  by_cases h : tokens = []
  · simp [h]
  · simp only [h, ↓reduceIte]
    cases hp : parseRef 0 tokens with
    | ok nodes => exact Or.inl ⟨nodes, rfl⟩
    | error e =>
      rcases parseRef_error tokens.length tokens 0 e (Nat.le_refl _) hp with
        ⟨v, i, rfl⟩ | rfl | rfl | rfl | rfl
      · exact Or.inr (Or.inr (Or.inl ⟨v, i, rfl⟩))
      · exact Or.inr (Or.inr (Or.inr (Or.inl rfl)))
      · exact Or.inr (Or.inr (Or.inr (Or.inr (Or.inl rfl))))
      · exact Or.inr (Or.inr (Or.inr (Or.inr (Or.inr (Or.inl rfl)))))
      · exact Or.inr (Or.inr (Or.inr (Or.inr (Or.inr (Or.inr rfl)))))

/-- A successful `Parser::parse`, through the reference. -/
theorem parse_ok {tokens : List Token} {nodes : List ASTNode}
    (h : (Parser.new tokens).parse = .ok nodes) :
    tokens ≠ [] ∧ parseRef 0 tokens = .ok nodes := by
  rw [Parser.parse_eq_parseRef] at h
  by_cases hne : tokens = []
  · simp [hne] at h
  · simp only [hne, ↓reduceIte] at h
    exact ⟨hne, h⟩

/-! ## Invariants of the token vector while scanning -/

theorem addKeywordToken_invariant (P : List Token → Prop)
    (hP : ∀ tokens t, P tokens → Emits tokens t → P (tokens ++ [t]))
    (src : List Char) (tokens : List Token) (cur : List Char) (position : Nat)
    (tokens' : List Token) (h0 : P tokens)
    (h : addKeywordToken src tokens cur position = .ok tokens') : P tokens' := by
  unfold addKeywordToken at h
  split at h
  · split at h
    · rename_i t hk
      simp only [Except.ok.injEq] at h
      subst h
      unfold keyWords at hk
      split at hk
      · rename_i hc
        cases hk
        subst hc
        exact hP _ _ h0 (Or.inl rfl)
      · cases hk
    · cases h
  · simp only [Except.ok.injEq] at h
    subst h
    exact h0

theorem handleSpecialCharacter_invariant (P : List Token → Prop)
    (hP : ∀ tokens t, P tokens → Emits tokens t → P (tokens ++ [t]))
    (src : List Char) (tokens : List Token) (c : Char) (cur : List Char) (i : Nat)
    (tokens' : List Token) (cur' : List Char) (state' : LexerState) (h0 : P tokens)
    (h : handleSpecialCharacter src tokens c cur i = .ok (tokens', cur', state')) :
    P tokens' := by
  unfold handleSpecialCharacter at h
  split at h
  · cases h
  · rename_i toks hk
    have h1 := addKeywordToken_invariant P hP src tokens cur i toks h0 hk
    split at h
    · rename_i t hs
      simp only [Except.ok.injEq, Prod.mk.injEq] at h
      obtain ⟨h, _, _⟩ := h
      subst h
      unfold specialCharacters at hs
      split at hs
      · rename_i hc; cases hs; subst hc
        exact hP _ _ h1 (Or.inr (Or.inl rfl))
      · split at hs
        · rename_i hc; cases hs; subst hc
          exact hP _ _ h1 (Or.inr (Or.inr (Or.inl rfl)))
        · split at hs
          · rename_i hc; cases hs; subst hc
            exact hP _ _ h1 (Or.inr (Or.inr (Or.inr (Or.inl rfl))))
          · cases hs
    · split at h
      · split at h
        · rename_i hl
          simp only [Except.ok.injEq, Prod.mk.injEq] at h
          obtain ⟨h, _, _⟩ := h
          subst h
          exact hP _ _ h1 (Or.inr (Or.inr (Or.inr (Or.inr (Or.inr ⟨hl, Or.inl rfl⟩)))))
        · simp only [Except.ok.injEq, Prod.mk.injEq] at h
          obtain ⟨h, _, _⟩ := h
          subst h
          exact h1
      · split at h
        · simp only [Except.ok.injEq, Prod.mk.injEq] at h
          obtain ⟨h, _, _⟩ := h
          subst h
          exact h1
        · cases h

/-- A property of the token vector that every append of the lexer preserves
holds of the vector the scanning loop ends with. -/
theorem scan_invariant (P : List Token → Prop)
    (hP : ∀ tokens t, P tokens → Emits tokens t → P (tokens ++ [t])) (src : List Char) :
    ∀ (n : Nat) (rest : List Char) (i : Nat) (state : LexerState) (tokens : List Token)
      (cur : List Char) (tokens' : List Token) (cur' : List Char) (state' : LexerState),
      rest.length ≤ n → P tokens →
      scan src rest i state tokens cur = (.ok (tokens', cur'), state') → P tokens' := by
  intro n
  induction n with
  | zero =>
    intro rest i state tokens cur tokens' cur' state' hn h0 h
    have : rest = [] := List.eq_nil_of_length_eq_zero (by omega)
    subst this
    rw [scan_nil] at h
    simp only [Prod.mk.injEq, Except.ok.injEq] at h
    rw [← h.1.1]; exact h0
  | succ n ih =>
    intro rest i state tokens cur tokens' cur' state' hn h0 h
    rcases rest with _ | ⟨c, rest⟩
    · rw [scan_nil] at h
      simp only [Prod.mk.injEq, Except.ok.injEq] at h
      rw [← h.1.1]; exact h0
    · simp only [List.length_cons] at hn
      cases state with
      | DEFAULT =>
        rw [scan_default_cons] at h
        split at h
        · exact ih rest _ _ _ _ _ _ _ (by omega) h0 h
        · split at h
          · exact ih rest _ _ _ _ _ _ _ (by omega) h0 h
          · split at h
            · simp at h
            · rename_i toks cur1 st1 hh
              have h1 := handleSpecialCharacter_invariant P hP src tokens c cur i toks cur1 st1
                h0 hh
              exact ih rest _ _ _ _ _ _ _ (by omega) h1 h
      | STRING =>
        rw [scan_string_cons] at h
        split at h
        · simp at h
        · rename_i q rest' hr
          have hl := readString_length (c :: rest)
          rw [hr] at hl
          simp only [List.length_cons] at hl
          exact ih rest' _ _ _ _ _ _ _ (by omega) (hP _ _ h0
            (Or.inr (Or.inr (Or.inr (Or.inr (Or.inl ⟨_, rfl⟩)))))) h

/-- A property of the token vector that holds of the empty vector and that
every append of the lexer preserves holds of every sequence `tokenize`
returns. -/
theorem tokenize_invariant (P : List Token → Prop) (hnil : P [])
    (hP : ∀ tokens t, P tokens → Emits tokens t → P (tokens ++ [t]))
    (lexer : Lexer) (tokens : List Token) (h : lexer.tokenize.1 = .ok tokens) :
    P tokens := by
  unfold Lexer.tokenize at h
  split at h
  · cases h
  · rename_i toks cur st hs
    have h1 := scan_invariant P hP lexer.sourceCode lexer.sourceCode.length lexer.sourceCode
      0 lexer.state [] [] toks cur st (Nat.le_refl _) hnil hs
    split at h
    · cases h
    · rename_i toks2 hk
      have h2 := addKeywordToken_invariant P hP _ _ _ _ _ h1 hk
      simp only [Except.ok.injEq] at h
      by_cases hl : lacksEnd toks2 = true
      · simp only [hl, ↓reduceIte] at h
        subst h
        exact hP _ _ h2 (Or.inr (Or.inr (Or.inr (Or.inr (Or.inr ⟨hl, Or.inr rfl⟩)))))
      · simp only [hl, Bool.false_eq_true, ↓reduceIte] at h
        subst h
        exact h2

theorem emits_not_unknown {tokens : List Token} {t : Token} (h : Emits tokens t) :
    t.type ≠ TokenType.UNKNOWN := by
  rcases h with rfl | rfl | rfl | rfl | ⟨s, rfl⟩ | ⟨_, rfl | rfl⟩ <;> simp

theorem lacksEnd_eq_true {tokens : List Token} (h : lacksEnd tokens = true) :
    ∃ pre u, tokens = pre ++ [u] ∧ u.type ≠ TokenType.END := by
  rcases List.eq_nil_or_concat tokens with rfl | ⟨pre, u, hpu⟩
  · simp [lacksEnd] at h
  · rw [List.concat_eq_append] at hpu
    subst hpu
    refine ⟨pre, u, rfl, ?_⟩
    rw [lacksEnd_append_singleton] at h
    simpa using h

theorem noSpuriousEnd_append (tokens : List Token) (t : Token) (h0 : NoSpuriousEnd tokens)
    (he : Emits tokens t) : NoSpuriousEnd (tokens ++ [t]) := by
  intro pre x post hx hty hval
  rcases List.eq_nil_or_concat post with rfl | ⟨post', y, hpy⟩
  · have h1 : tokens ++ [t] = pre ++ [x] := hx
    obtain ⟨h2, h3⟩ := List.append_inj' h1 rfl
    simp only [List.cons.injEq, and_true] at h3
    subst h2 h3
    rcases he with rfl | rfl | rfl | rfl | ⟨s, rfl⟩ | ⟨hl, _⟩
    · simp at hty
    · simp at hty
    · simp at hty
    · simp at hval
    · simp at hty
    · exact lacksEnd_eq_true hl
  · rw [List.concat_eq_append] at hpy
    subst hpy
    have h1 : tokens ++ [t] = (pre ++ x :: post') ++ [y] := by
      rw [hx]; simp
    obtain ⟨h2, _⟩ := List.append_inj' h1 rfl
    exact h0 pre x post' h2 hty hval

/-- Scanning a text of spaces, tabs and line feeds from the initial state
appends nothing. -/
theorem scan_blank (src : List Char) : ∀ (rest : List Char) (i : Nat),
    (∀ c ∈ rest, c = ' ' ∨ c = '\t' ∨ c = '\n') →
    scan src rest i LexerState.DEFAULT [] [] = (.ok ([], []), LexerState.DEFAULT) := by
  intro rest
  induction rest with
  | nil => intro i _; rw [scan_nil]
  | cons c rest ih =>
    intro i h
    have hr := ih (i + 1) (fun d hd => h d (List.mem_cons_of_mem _ hd))
    rw [scan_default_cons]
    rcases h c (List.mem_cons_self _ _) with rfl | rfl | rfl
    · simp [hr]
    · simp [hr]
    · simp +decide [handleSpecialCharacter, addKeywordToken, specialCharacters,
        Char.isAlpha, Char.isUpper, Char.isLower, lacksEnd, hr]

/-- A source text of spaces, tabs and line breaks tokenizes to the empty
sequence. -/
theorem tokenize_blank (s : List Char)
    (h : ∀ c ∈ s, c = ' ' ∨ c = '\t' ∨ c = '\n' ∨ c = '\r') :
    (Lexer.new s).tokenize = (.ok [], Lexer.new s) := by
  have hb : ∀ c ∈ normalizeNewlines s, c = ' ' ∨ c = '\t' ∨ c = '\n' := by
    intro c hc
    have hcr : c ≠ '\r' := fun e => cr_not_mem_normalizeNewlines s (e ▸ hc)
    rw [normalizeNewlines_eq_normalizeRef] at hc
    rcases mem_normalizeRef s.length s (Nat.le_refl _) c hc with h1 | h1
    · rcases h c h1 with h2 | h2 | h2 | h2
      · exact Or.inl h2
      · exact Or.inr (Or.inl h2)
      · exact Or.inr (Or.inr h2)
      · exact absurd h2 hcr
    · exact Or.inr (Or.inr h1)
  simp only [Lexer.tokenize, Lexer.new, scan_blank _ _ 0 hb, addKeywordToken]
  simp [lacksEnd]

/-! ## The lexer state after a call of `tokenize` -/

theorem handleSpecialCharacter_state {src : List Char} {tokens : List Token} {c : Char}
    {cur : List Char} {i : Nat} {tokens' : List Token} {cur' : List Char}
    (h : handleSpecialCharacter src tokens c cur i = .ok (tokens', cur', LexerState.STRING)) :
    c = '"' := by
  unfold handleSpecialCharacter at h
  split at h
  · cases h
  · split at h
    · simp at h
    · split at h
      · split at h <;> simp at h
      · split at h
        · assumption
        · cases h

/-- When the scanning loop ends normally in state `STRING`, either it read
nothing and started in that state, or the last character it read is a double
quote. -/
theorem scan_ends_in_string (src : List Char) :
    ∀ (n : Nat) (rest : List Char) (i : Nat) (state : LexerState) (tokens : List Token)
      (cur : List Char) (r : List Token × List Char),
      rest.length ≤ n →
      scan src rest i state tokens cur = (.ok r, LexerState.STRING) →
      (rest = [] ∧ state = LexerState.STRING) ∨ rest.getLast? = some '"' := by
  intro n
  induction n with
  | zero =>
    intro rest i state tokens cur r hn h
    have : rest = [] := List.eq_nil_of_length_eq_zero (by omega)
    subst this
    rw [scan_nil] at h
    simp only [Prod.mk.injEq] at h
    exact Or.inl ⟨rfl, h.2⟩
  | succ n ih =>
    intro rest i state tokens cur r hn h
    rcases rest with _ | ⟨c, rest⟩
    · rw [scan_nil] at h
      simp only [Prod.mk.injEq] at h
      exact Or.inl ⟨rfl, h.2⟩
    · simp only [List.length_cons] at hn
      right
      have hcons : ∀ l : List Char, l.getLast? = some '"' → (c :: l).getLast? = some '"' := by
        intro l hl
        cases l with
        | nil => simp at hl
        | cons d l => simpa [List.getLast?_cons_cons] using hl
      cases state with
      | DEFAULT =>
        rw [scan_default_cons] at h
        split at h
        · rcases ih rest _ _ _ _ _ (by omega) h with ⟨_, h2⟩ | h2
          · cases h2
          · exact hcons rest h2
        · split at h
          · rcases ih rest _ _ _ _ _ (by omega) h with ⟨_, h2⟩ | h2
            · cases h2
            · exact hcons rest h2
          · split at h
            · simp at h
            · rename_i toks cur1 st1 hh
              rcases ih rest _ _ _ _ _ (by omega) h with ⟨h1, h2⟩ | h2
              · subst h1 h2
                rw [handleSpecialCharacter_state hh]
                rfl
              · exact hcons rest h2
      | STRING =>
        rw [scan_string_cons] at h
        split at h
        · simp at h
        · rename_i q rest' hr
          have hl := readString_length (c :: rest)
          have ha := readString_append (c :: rest)
          rw [hr] at hl ha
          simp only [List.length_cons] at hl
          rcases ih rest' _ _ _ _ _ (by omega) h with ⟨_, h2⟩ | h2
          · cases h2
          · rw [← ha]
            have hne : rest' ≠ [] := by
              intro e; rw [e] at h2; simp at h2
            rw [List.getLast?_append_of_ne_nil _ (by simp)]
            cases rest' with
            | nil => exact absurd rfl hne
            | cons d l => simpa [List.getLast?_cons_cons] using h2

/-- A successful `tokenize` on a freshly built `Lexer` whose (normalised) text
does not end with a double quote leaves the object unchanged, so a second
call returns the same tokens. -/
theorem tokenize_repeatable (s : List Char) (tokens : List Token)
    (h : ((Lexer.new s).tokenize).1 = .ok tokens)
    (hq : (normalizeNewlines s).getLast? ≠ some '"') :
    ((Lexer.new s).tokenize).2 = Lexer.new s ∧
    (((Lexer.new s).tokenize).2.tokenize).1 = .ok tokens := by
  have h2 : ((Lexer.new s).tokenize).2 = Lexer.new s := by
    unfold Lexer.tokenize at h ⊢
    split at h
    · cases h
    · rename_i toks cur st hs
      have hst : st = LexerState.DEFAULT := by
        cases st with
        | DEFAULT => rfl
        | STRING =>
          rcases scan_ends_in_string _ _ _ _ _ _ _ _ (Nat.le_refl _) hs with ⟨_, h3⟩ | h3
          · cases h3
          · exact absurd h3 hq
      subst hst
      split at h
      · cases h
      · rfl
  exact ⟨h2, by rw [h2]; exact h⟩

/-- The first call of `tokenize` on the text `print("`: three tokens, and the
object is left in state `STRING`. -/
theorem tokenize_open_quote :
    (Lexer.new "print(\"".toList).tokenize =
      (.ok [⟨TokenType.PRINT, "print".toList⟩, ⟨TokenType.LPAR, ['(']⟩,
          ⟨TokenType.END, []⟩],
        { sourceCode := "print(\"".toList, state := LexerState.STRING }) := by
  have hn : normalizeNewlines "print(\"".toList = "print(\"".toList :=
    normalizeNewlines_of_not_mem (by decide)
  have hs := scan_open_literal "print(\"".toList [] (by simp)
  simp only [List.append_nil, ↓reduceIte] at hs
  simp only [Lexer.tokenize, Lexer.new, hn, hs, addKeywordToken]
  simp [lacksEnd]

/-- The second call of `tokenize` on the same object: the whole text up to the
quote is read as a string literal. -/
theorem tokenize_open_quote_again :
    (Lexer.tokenize { sourceCode := "print(\"".toList, state := LexerState.STRING }) =
      (.ok [⟨TokenType.STRING, "print(".toList⟩, ⟨TokenType.END, []⟩],
        { sourceCode := "print(\"".toList, state := LexerState.DEFAULT }) := by
  have hs := scan_string_closed "print(\"".toList "print(".toList [] 0 [] [] (by decide)
  have e : "print(".toList ++ ['"'] = "print(\"".toList := by decide
  rw [e, scan_nil] at hs
  simp only [Lexer.tokenize, hs, addKeywordToken]
  simp [lacksEnd]

/-! ## The scanning loop up to the data carried by its errors -/

theorem addKeywordToken_kind (src1 src2 : List Char) (tokens : List Token) (cur : List Char)
    (i1 i2 : Nat) :
    eraseError (addKeywordToken src1 tokens cur i1) =
      eraseError (addKeywordToken src2 tokens cur i2) := by
  unfold addKeywordToken
  split
  · split <;> rfl
  · rfl

theorem handleSpecialCharacter_kind (src1 src2 : List Char) (tokens : List Token) (c : Char)
    (cur : List Char) (i1 i2 : Nat) :
    eraseError (handleSpecialCharacter src1 tokens c cur i1) =
      eraseError (handleSpecialCharacter src2 tokens c cur i2) := by
  unfold handleSpecialCharacter
  have h := addKeywordToken_kind src1 src2 tokens cur i1 i2
  cases h1 : addKeywordToken src1 tokens cur i1 with
  | error e1 =>
    cases h2 : addKeywordToken src2 tokens cur i2 with
    | error e2 =>
      rw [h1, h2] at h
      simpa [eraseError] using h
    | ok t2 => rw [h1, h2] at h; simp [eraseError] at h
  | ok t1 =>
    cases h2 : addKeywordToken src2 tokens cur i2 with
    | error e2 => rw [h1, h2] at h; simp [eraseError] at h
    | ok t2 =>
      rw [h1, h2] at h
      simp only [eraseError, Except.ok.injEq] at h
      subst h
      simp only
      split
      · rfl
      · split
        · rfl
        · split <;> rfl

/-- The outcome of the scanning loop depends on the whole text `src` and on
the offset `i` only through the data its errors carry. -/
theorem scan_kind : ∀ (n : Nat) (rest : List Char), rest.length ≤ n →
    ∀ (src1 src2 : List Char) (i1 i2 : Nat) (state : LexerState) (tokens : List Token)
      (cur : List Char),
      scanKind (scan src1 rest i1 state tokens cur) =
        scanKind (scan src2 rest i2 state tokens cur) := by
  intro n
  induction n with
  | zero =>
    intro rest hn src1 src2 i1 i2 state tokens cur
    have : rest = [] := List.eq_nil_of_length_eq_zero (by omega)
    subst this
    simp only [scan_nil]
  | succ n ih =>
    intro rest hn src1 src2 i1 i2 state tokens cur
    rcases rest with _ | ⟨c, rest⟩
    · simp only [scan_nil]
    · simp only [List.length_cons] at hn
      cases state with
      | DEFAULT =>
        rw [scan_default_cons, scan_default_cons]
        split
        · exact ih rest (by omega) _ _ _ _ _ _ _
        · split
          · exact ih rest (by omega) _ _ _ _ _ _ _
          · have h := handleSpecialCharacter_kind src1 src2 tokens c cur i1 i2
            cases h1 : handleSpecialCharacter src1 tokens c cur i1 with
            | error e1 =>
              cases h2 : handleSpecialCharacter src2 tokens c cur i2 with
              | error e2 =>
                rw [h1, h2] at h
                simp only [eraseError, Except.error.injEq] at h
                simp [scanKind, eraseError, h]
              | ok t2 => rw [h1, h2] at h; simp [eraseError] at h
            | ok t1 =>
              cases h2 : handleSpecialCharacter src2 tokens c cur i2 with
              | error e2 => rw [h1, h2] at h; simp [eraseError] at h
              | ok t2 =>
                rw [h1, h2] at h
                simp only [eraseError, Except.ok.injEq] at h
                subst h
                obtain ⟨toks, cur1, st1⟩ := t1
                exact ih rest (by omega) _ _ _ _ _ _ _
      | STRING =>
        rw [scan_string_cons, scan_string_cons]
        cases hr : (readString (c :: rest)).2 with
        | nil => simp [scanKind, eraseError, LexicalError.kind]
        | cons q rest' =>
          have hl := readString_length (c :: rest)
          rw [hr] at hl
          simp only [List.length_cons] at hl
          exact ih rest' (by omega) _ _ _ _ _ _ _

theorem scan_skip_blanks (src : List Char) : ∀ (w rest : List Char) (i : Nat)
    (tokens : List Token) (cur : List Char), (∀ c ∈ w, c = ' ' ∨ c = '\t') →
    scan src (w ++ rest) i LexerState.DEFAULT tokens cur =
      scan src rest (i + w.length) LexerState.DEFAULT tokens cur := by
  intro w
  induction w with
  | nil => intro rest i tokens cur _; simp
  | cons c w ih =>
    intro rest i tokens cur h
    have hc := h c (List.mem_cons_self _ _)
    rw [List.cons_append, scan_default_cons, if_pos hc,
      ih rest (i + 1) tokens cur (fun d hd => h d (List.mem_cons_of_mem _ hd))]
    simp only [List.length_cons]
    congr 1
    omega

/-! ## Scanning a prefix with balanced double quotes -/

theorem handleSpecialCharacter_state_eq {src : List Char} {tokens : List Token} {c : Char}
    {cur : List Char} {i : Nat} {tokens' : List Token} {cur' : List Char}
    {state' : LexerState}
    (h : handleSpecialCharacter src tokens c cur i = .ok (tokens', cur', state')) :
    state' = if c = '"' then LexerState.STRING else LexerState.DEFAULT := by
  unfold handleSpecialCharacter at h
  split at h
  · cases h
  · split at h
    · rename_i t hs
      have hc : c ≠ '"' := by
        intro e; subst e
        simp +decide [specialCharacters] at hs
      simp only [Except.ok.injEq, Prod.mk.injEq] at h
      simp [hc, ← h.2.2]
    · split at h
      · rename_i hn
        have hc : c ≠ '"' := by
          intro e; subst e; exact absurd hn (by decide)
        split at h <;> simp only [Except.ok.injEq, Prod.mk.injEq] at h <;>
          simp [hc, ← h.2.2]
      · split at h
        · rename_i hq
          simp only [Except.ok.injEq, Prod.mk.injEq] at h
          simp [hq, ← h.2.2]
        · cases h

theorem exists_first_quote : ∀ (p : List Char), p.count '"' ≠ 0 →
    ∃ a b, p = a ++ '"' :: b ∧ '"' ∉ a ∧ p.count '"' = b.count '"' + 1 := by
  intro p
  induction p with
  | nil => intro h; simp at h
  | cons c p ih =>
    intro h
    by_cases hc : c = '"'
    · subst hc
      exact ⟨[], p, rfl, by simp, by simp⟩
    · have hcount : (c :: p).count '"' = p.count '"' := by
        rw [List.count_cons_of_ne]
        exact fun e => hc e.symm
      rw [hcount] at h
      obtain ⟨a, b, h1, h2, h3⟩ := ih h
      refine ⟨c :: a, b, by simp [h1], ?_, by rw [hcount, h3]⟩
      simp only [List.mem_cons, not_or]
      exact ⟨fun e => hc e.symm, h2⟩

/-- Scanning a common prefix with an even number of double quotes, from the
initial state, keeps two continuations equivalent. -/
theorem scan_prefix_congr : ∀ (n : Nat) (p : List Char), p.length ≤ n →
    p.count '"' % 2 = 0 → ∀ (r1 r2 : List Char),
    (∀ (src1 src2 : List Char) (i1 i2 : Nat) (tokens : List Token) (cur : List Char),
      scanKind (scan src1 r1 i1 LexerState.DEFAULT tokens cur) =
        scanKind (scan src2 r2 i2 LexerState.DEFAULT tokens cur)) →
    ∀ (src1 src2 : List Char) (i1 i2 : Nat) (tokens : List Token) (cur : List Char),
      scanKind (scan src1 (p ++ r1) i1 LexerState.DEFAULT tokens cur) =
        scanKind (scan src2 (p ++ r2) i2 LexerState.DEFAULT tokens cur) := by
  intro n
  induction n with
  | zero =>
    intro p hn _ r1 r2 hr src1 src2 i1 i2 tokens cur
    have : p = [] := List.eq_nil_of_length_eq_zero (by omega)
    subst this
    exact hr _ _ _ _ _ _
  | succ n ih =>
    intro p hn hev r1 r2 hr src1 src2 i1 i2 tokens cur
    rcases p with _ | ⟨c, p⟩
    · exact hr _ _ _ _ _ _
    · simp only [List.length_cons] at hn
      simp only [List.cons_append]
      rw [scan_default_cons, scan_default_cons]
      have hcount : c ≠ '"' → p.count '"' % 2 = 0 := by
        intro hc
        rw [List.count_cons_of_ne (fun e => hc e.symm)] at hev
        exact hev
      split
      · rename_i hb
        have hc : c ≠ '"' := by
          rcases hb with rfl | rfl <;> decide
        exact ih p (by omega) (hcount hc) r1 r2 hr _ _ _ _ _ _
      · split
        · rename_i ha
          have hc : c ≠ '"' := by
            intro e; subst e; exact absurd ha (by decide)
          exact ih p (by omega) (hcount hc) r1 r2 hr _ _ _ _ _ _
        · have h := handleSpecialCharacter_kind src1 src2 tokens c cur i1 i2
          cases h1 : handleSpecialCharacter src1 tokens c cur i1 with
          | error e1 =>
            cases h2 : handleSpecialCharacter src2 tokens c cur i2 with
            | error e2 =>
              rw [h1, h2] at h
              simp only [eraseError, Except.error.injEq] at h
              simp [scanKind, eraseError, h]
            | ok t2 => rw [h1, h2] at h; simp [eraseError] at h
          | ok t1 =>
            cases h2 : handleSpecialCharacter src2 tokens c cur i2 with
            | error e2 => rw [h1, h2] at h; simp [eraseError] at h
            | ok t2 =>
              rw [h1, h2] at h
              simp only [eraseError, Except.ok.injEq] at h
              subst h
              obtain ⟨toks, cur1, st1⟩ := t1
              have hst := handleSpecialCharacter_state_eq h1
              by_cases hc : c = '"'
              · subst hc
                simp only [↓reduceIte] at hst
                subst hst
                have hodd : p.count '"' ≠ 0 := by
                  intro e
                  rw [List.count_cons_self, e] at hev
                  simp at hev
                obtain ⟨a, b, e1, e2, e3⟩ := exists_first_quote p hodd
                have hb : b.count '"' % 2 = 0 := by
                  rw [List.count_cons_self, e3] at hev
                  omega
                have hlen : b.length ≤ n := by
                  have := congrArg List.length e1
                  simp at this
                  omega
                subst e1
                simp only [List.append_assoc, List.cons_append]
                rw [scan_string_closed _ _ _ _ _ _ e2, scan_string_closed _ _ _ _ _ _ e2]
                exact ih b hlen hb r1 r2 hr _ _ _ _ _ _
              · simp only [hc, ↓reduceIte] at hst
                subst hst
                exact ih p (by omega) (hcount hc) r1 r2 hr _ _ _ _ _ _

theorem handleSpecialCharacter_newline {src : List Char} {tokens : List Token}
    {cur : List Char} {i : Nat} {tokens' : List Token} {cur' : List Char}
    {state' : LexerState}
    (h : handleSpecialCharacter src tokens '\n' cur i = .ok (tokens', cur', state')) :
    cur' = [] ∧ state' = LexerState.DEFAULT ∧ lacksEnd tokens' = false := by
  unfold handleSpecialCharacter at h
  split at h
  · cases h
  · rename_i toks _
    simp +decide only [specialCharacters, ↓reduceIte] at h
    by_cases hl : lacksEnd toks = true
    · simp only [hl, ↓reduceIte, Except.ok.injEq, Prod.mk.injEq] at h
      obtain ⟨h1, h2, h3⟩ := h
      subst h1 h2 h3
      exact ⟨rfl, rfl, by rw [lacksEnd_append_singleton]; rfl⟩
    · simp only [hl, Bool.false_eq_true, ↓reduceIte, Except.ok.injEq, Prod.mk.injEq] at h
      obtain ⟨h1, h2, h3⟩ := h
      subst h1 h2 h3
      exact ⟨rfl, rfl, by simpa using hl⟩

theorem handleSpecialCharacter_newline_again (src : List Char) (tokens : List Token)
    (i : Nat) (h : lacksEnd tokens = false) :
    handleSpecialCharacter src tokens '\n' [] i = .ok (tokens, [], LexerState.DEFAULT) := by
  simp +decide [handleSpecialCharacter, addKeywordToken, specialCharacters, h]

/-- A line feed, blanks and a second line feed scan like a single line
feed. -/
theorem scan_newline_blanks_newline (w rest : List Char)
    (hw : ∀ c ∈ w, c = ' ' ∨ c = '\t')
    (src1 src2 : List Char) (i1 i2 : Nat) (tokens : List Token) (cur : List Char) :
    scanKind (scan src1 ('\n' :: (w ++ '\n' :: rest)) i1 LexerState.DEFAULT tokens cur) =
      scanKind (scan src2 ('\n' :: rest) i2 LexerState.DEFAULT tokens cur) := by
  rw [scan_default_cons, scan_default_cons]
  simp +decide only [Char.isAlpha, Char.isUpper, Char.isLower, ↓reduceIte,
    Bool.false_eq_true, Bool.or_self]
  have h := handleSpecialCharacter_kind src1 src2 tokens '\n' cur i1 i2
  cases h1 : handleSpecialCharacter src1 tokens '\n' cur i1 with
  | error e1 =>
    cases h2 : handleSpecialCharacter src2 tokens '\n' cur i2 with
    | error e2 =>
      rw [h1, h2] at h
      simp only [eraseError, Except.error.injEq] at h
      simp [scanKind, eraseError, h]
    | ok t2 => rw [h1, h2] at h; simp [eraseError] at h
  | ok t1 =>
    cases h2 : handleSpecialCharacter src2 tokens '\n' cur i2 with
    | error e2 => rw [h1, h2] at h; simp [eraseError] at h
    | ok t2 =>
      rw [h1, h2] at h
      simp only [eraseError, Except.ok.injEq] at h
      subst h
      obtain ⟨toks, cur1, st1⟩ := t1
      obtain ⟨e1, e2, e3⟩ := handleSpecialCharacter_newline h1
      subst e1 e2
      simp only
      rw [scan_skip_blanks src1 w _ _ _ _ hw, scan_default_cons]
      simp +decide only [Char.isAlpha, Char.isUpper, Char.isLower, ↓reduceIte,
        Bool.false_eq_true, Bool.or_self]
      rw [handleSpecialCharacter_newline_again src1 toks _ e3]
      exact scan_kind rest.length rest (Nat.le_refl _) _ _ _ _ _ _ _

/-- Blanks in front of a text do not change how it scans. -/
theorem scan_blanks_kind (w rest : List Char) (hw : ∀ c ∈ w, c = ' ' ∨ c = '\t')
    (src1 src2 : List Char) (i1 i2 : Nat) (tokens : List Token) (cur : List Char) :
    scanKind (scan src1 (w ++ rest) i1 LexerState.DEFAULT tokens cur) =
      scanKind (scan src2 rest i2 LexerState.DEFAULT tokens cur) := by
  rw [scan_skip_blanks src1 w _ _ _ _ hw]
  exact scan_kind rest.length rest (Nat.le_refl _) _ _ _ _ _ _ _

/-- Two `Lexer` objects whose scanning loops agree up to the data carried by
errors return the same tokens or fail with the same kind of error. -/
theorem tokenize_kind_congr (l1 l2 : Lexer)
    (h : scanKind (scan l1.sourceCode l1.sourceCode 0 l1.state [] []) =
      scanKind (scan l2.sourceCode l2.sourceCode 0 l2.state [] [])) :
    eraseError l1.tokenize.1 = eraseError l2.tokenize.1 := by
  unfold Lexer.tokenize
  rcases h1 : scan l1.sourceCode l1.sourceCode 0 l1.state [] [] with ⟨r1, st1⟩
  rcases h2 : scan l2.sourceCode l2.sourceCode 0 l2.state [] [] with ⟨r2, st2⟩
  rw [h1, h2] at h
  simp only [scanKind, Prod.mk.injEq] at h
  obtain ⟨h, _⟩ := h
  cases r1 with
  | error e1 =>
    cases r2 with
    | error e2 => simpa [eraseError] using h
    | ok v2 => simp [eraseError] at h
  | ok v1 =>
    cases r2 with
    | error e2 => simp [eraseError] at h
    | ok v2 =>
      simp only [eraseError, Except.ok.injEq] at h
      subst h
      obtain ⟨toks, cur⟩ := v1
      simp only
      have hk := addKeywordToken_kind l1.sourceCode l2.sourceCode toks cur
        l1.sourceCode.length l2.sourceCode.length
      cases k1 : addKeywordToken l1.sourceCode toks cur l1.sourceCode.length with
      | error e1 =>
        cases k2 : addKeywordToken l2.sourceCode toks cur l2.sourceCode.length with
        | error e2 => rw [k1, k2] at hk; simpa [eraseError] using hk
        | ok t2 => rw [k1, k2] at hk; simp [eraseError] at hk
      | ok t1 =>
        cases k2 : addKeywordToken l2.sourceCode toks cur l2.sourceCode.length with
        | error e2 => rw [k1, k2] at hk; simp [eraseError] at hk
        | ok t2 =>
          rw [k1, k2] at hk
          simp only [eraseError, Except.ok.injEq] at hk
          subst hk
          rfl

/-! ## Blanks between two parts of a source text -/

theorem normalizeRef_blanks_append : ∀ (w q : List Char), (∀ c ∈ w, c = ' ' ∨ c = '\t') →
    normalizeRef (w ++ q) = w ++ normalizeRef q := by
  intro w
  induction w with
  | nil => intro q _; rfl
  | cons c w ih =>
    intro q h
    have hc : c ≠ '\r' := by
      rcases h c (List.mem_cons_self _ _) with rfl | rfl <;> decide
    rw [List.cons_append, normalizeRef_cons_of_ne hc,
      ih q (fun d hd => h d (List.mem_cons_of_mem _ hd))]
    rfl

theorem normalizeRef_append_of_getLast : ∀ (n : Nat) (p : List Char), p.length ≤ n →
    p.getLast? ≠ some '\r' → ∀ b : List Char,
    normalizeRef (p ++ b) = normalizeRef p ++ normalizeRef b := by
  intro n
  induction n with
  | zero =>
    intro p hn _ b
    have : p = [] := List.eq_nil_of_length_eq_zero (by omega)
    subst this
    simp [normalizeRef]
  | succ n ih =>
    intro p hn hl b
    match p, hn, hl with
    | [], _, _ => simp [normalizeRef]
    | [c], _, hl =>
      have hc : c ≠ '\r' := by
        intro e; subst e; simp at hl
      rw [List.singleton_append, normalizeRef_cons_of_ne hc, normalizeRef_cons_of_ne hc]
      simp [normalizeRef]
    | c :: e :: rest, hn, hl =>
      simp only [List.length_cons] at hn
      have hl2 : (e :: rest).getLast? ≠ some '\r' := by
        rw [List.getLast?_cons_cons] at hl; exact hl
      have h2 := ih (e :: rest) (by simp only [List.length_cons]; omega) hl2 b
      have hl1 : rest.getLast? ≠ some '\r' := by
        cases rest with
        | nil => simp
        | cons d l => rw [List.getLast?_cons_cons] at hl2; exact hl2
      have h1 := ih rest (by omega) hl1 b
      simp only [List.cons_append] at h2 ⊢
      by_cases hc : c = '\r' <;> by_cases he : e = '\n' <;>
        simp [normalizeRef, hc, he, h1] <;>
        first
          | (rw [← he]; exact h2)
          | exact h2

theorem count_quote_normalizeRef : ∀ (n : Nat) (p : List Char), p.length ≤ n →
    (normalizeRef p).count '"' = p.count '"' := by
  intro n
  induction n with
  | zero =>
    intro p hn
    have : p = [] := List.eq_nil_of_length_eq_zero (by omega)
    subst this
    rfl
  | succ n ih =>
    intro p hn
    match p, hn with
    | [], _ => rfl
    | [c], _ => by_cases hc : c = '\r' <;> simp +decide [normalizeRef, hc]
    | c :: e :: rest, hn =>
      simp only [List.length_cons] at hn
      have h1 := ih rest (by omega)
      have h2 := ih (e :: rest) (by simp only [List.length_cons]; omega)
      by_cases hc : c = '\r'
      · by_cases he : e = '\n'
        · subst hc he
          simp +decide [normalizeRef, h1, List.count_cons]
        · subst hc
          simp only [normalizeRef, ↓reduceIte, he]
          rw [List.count_cons_of_ne (by decide), h2,
            List.count_cons_of_ne (a := '"') (b := '\r') (by decide)]
      · simp only [normalizeRef, hc, ↓reduceIte]
        rw [List.count_cons, h2, List.count_cons (b := c)]

/-- Blanks inserted after a prefix with an even number of double quotes do
not change what `tokenize` returns, nor the kind of error it fails with. -/
theorem tokenize_blanks_insignificant (p q w : List Char) (hp : p.count '"' % 2 = 0)
    (hw : ∀ c ∈ w, c = ' ' ∨ c = '\t') :
    eraseError ((Lexer.new (p ++ w ++ q)).tokenize).1 =
      eraseError ((Lexer.new (p ++ q)).tokenize).1 := by
  rcases w with _ | ⟨d, w'⟩
  · simp
  · have hd : d ≠ '\n' := by
      rcases hw d (List.mem_cons_self _ _) with rfl | rfl <;> decide
    have hP : (normalizeRef p).count '"' % 2 = 0 := by
      rw [count_quote_normalizeRef p.length p (Nat.le_refl _)]; exact hp
    have n1 : normalizeNewlines (p ++ (d :: w') ++ q) =
        normalizeRef p ++ ((d :: w') ++ normalizeRef q) := by
      rw [normalizeNewlines_eq_normalizeRef, List.append_assoc, List.cons_append,
        normalizeRef_append_cons p.length p (Nat.le_refl _) d _ hd, ← List.cons_append,
        normalizeRef_blanks_append (d :: w') q hw]
    apply tokenize_kind_congr
    simp only [Lexer.new, n1]
    by_cases hcr : p.getLast? = some '\r' ∧ q.head? = some '\n'
    · obtain ⟨h1, h2⟩ := hcr
      obtain ⟨p', rfl⟩ : ∃ p', p = p' ++ ['\r'] := by
        rcases List.eq_nil_or_concat p with rfl | ⟨p', c, e⟩
        · simp at h1
        · rw [List.concat_eq_append] at e
          subst e
          simp at h1
          subst h1
          exact ⟨p', rfl⟩
      obtain ⟨q', rfl⟩ : ∃ q', q = '\n' :: q' := by
        cases q with
        | nil => simp at h2
        | cons c q' => simp at h2; subst h2; exact ⟨q', rfl⟩
      have e1 : normalizeRef (p' ++ ['\r']) = normalizeRef p' ++ ['\n'] := by
        rw [normalizeRef_append_cons p'.length p' (Nat.le_refl _) '\r' [] (by decide)]
        rfl
      have e2 : normalizeRef ('\n' :: q') = '\n' :: normalizeRef q' :=
        normalizeRef_cons_of_ne (by decide) q'
      have e3 : normalizeNewlines (p' ++ ['\r'] ++ '\n' :: q') =
          normalizeRef p' ++ '\n' :: normalizeRef q' := by
        rw [normalizeNewlines_eq_normalizeRef, List.append_assoc, List.singleton_append,
          normalizeRef_append_cons p'.length p' (Nat.le_refl _) '\r' _ (by decide)]
        cases q' with
        | nil => simp [normalizeRef]
        | cons c l => simp [normalizeRef]
      have hP' : (normalizeRef p').count '"' % 2 = 0 := by
        rw [e1, List.count_append] at hP
        simpa using hP
      rw [e3, e1, e2]
      simp only [List.append_assoc, List.singleton_append, List.cons_append]
      exact scan_prefix_congr _ _ (Nat.le_refl _) hP' _ _
        (fun s1 s2 i1 i2 toks cur =>
          scan_newline_blanks_newline (d :: w') _ hw s1 s2 i1 i2 toks cur) _ _ _ _ _ _
    · have n2 : normalizeNewlines (p ++ q) = normalizeRef p ++ normalizeRef q := by
        rw [normalizeNewlines_eq_normalizeRef]
        rcases q with _ | ⟨c, q'⟩
        · simp [normalizeRef]
        · by_cases hc : c = '\n'
          · subst hc
            have hl : p.getLast? ≠ some '\r' := by
              intro e; exact hcr ⟨e, rfl⟩
            exact normalizeRef_append_of_getLast p.length p (Nat.le_refl _) hl _
          · exact normalizeRef_append_cons p.length p (Nat.le_refl _) c q' hc
      rw [n2]
      exact scan_prefix_congr _ _ (Nat.le_refl _) hP _ _
        (fun s1 s2 i1 i2 toks cur =>
          scan_blanks_kind (d :: w') _ hw s1 s2 i1 i2 toks cur) _ _ _ _ _ _

/-! ## C1: end-to-end run of well-formed programs -/

/-- C1. For every non-empty list of pairs `(s_i, t_i)`, each `s_i` non-empty
and without double quote, carriage return or line feed, each `t_i` a
semicolon or a line feed, `main` on the program text
`print("s_1")t_1 ... print("s_n")t_n` raises no error and the Execution pass
writes exactly the `n` lines `s_1, ..., s_n`, in source order. -/
theorem C1_end_to_end (pairs : List (List Char × Char)) (hne : pairs ≠ [])
    (h : ∀ p ∈ pairs, p.1 ≠ [] ∧ '"' ∉ p.1 ∧ '\r' ∉ p.1 ∧ '\n' ∉ p.1 ∧
      (p.2 = ';' ∨ p.2 = '\n')) :
    main (programText (printStatements pairs)) =
      (.ok (), writtenLines (pairs.map fun p => p.1)) ∧
    outputLines (main (programText (printStatements pairs))).2 = pairs.map (fun p => p.1) ∧
    (outputLines (main (programText (printStatements pairs))).2).length = pairs.length := by
  have hw := printStatements_wellFormed pairs (fun p hp => ⟨(h p hp).2.1, (h p hp).2.2.2.2⟩)
  have hnodes : (printStatements pairs).map Statement.node =
      (pairs.map fun p => p.1).map printNode := by
    rw [printStatements_nodes, List.map_map]
    apply List.map_congr_left
    intro p hp
    simp [normalizeNewlines_of_not_mem (h p hp).2.2.1]
  have hmain : main (programText (printStatements pairs)) =
      (.ok (), writtenLines (pairs.map fun p => p.1)) := by
    rw [main_programText _ hw,
      parse_programTokens _ (by simpa [printStatements] using hne)
        (printStatements_argument pairs)]
    simp only [hnodes]
    rw [runPasses_eq]
    have h1 := emptyPrintNode_not_mem (pairs.map fun p => p.1)
    have h2 : printNode [] ∉ (pairs.map fun p => p.1).map printNode := by
      rw [printNode_nil_mem]
      intro hm
      obtain ⟨p, hp, e⟩ := List.mem_map.1 hm
      exact (h p hp).1 e
    simp only [h1, h2, ↓reduceIte, argumentValues_printNodes]
  have hlines : outputLines (writtenLines (pairs.map fun p => p.1)) =
      pairs.map fun p => p.1 := by
    apply outputLines_writtenLines
    intro v hv
    obtain ⟨p, hp, rfl⟩ := List.mem_map.1 hv
    exact (h p hp).2.2.2.1
  refine ⟨hmain, ?_, ?_⟩
  · rw [hmain]; exact hlines
  · rw [hmain]; simp only [hlines, List.length_map]

/-- C1 on the program `print("a");print("b")` with a final line feed. -/
theorem C1_end_to_end_witness :
    main (programText (printStatements [(['a'], ';'), (['b'], '\n')])) =
      (.ok (), writtenLines ([(['a'], ';'), (['b'], '\n')].map fun p => p.1)) ∧
    outputLines (main (programText (printStatements [(['a'], ';'), (['b'], '\n')]))).2 =
      [(['a'], ';'), (['b'], '\n')].map (fun p => p.1) ∧
    (outputLines (main (programText (printStatements [(['a'], ';'), (['b'], '\n')]))).2).length
      = [(['a'], ';'), (['b'], '\n')].length :=
  C1_end_to_end [(['a'], ';'), (['b'], '\n')] (by simp) (by decide)

/-! ## C2: string literals -/

/-- C2, as stated, fails: for the text `s` made of one carriage return, which
has no double quote, tokenizing `print("s");` returns a `STRING` token whose
text is a line feed, not `s`. -/
theorem C2_counterexample :
    '"' ∉ ['\r'] ∧
    ((Lexer.new ("print(\"".toList ++ ['\r'] ++ "\");".toList)).tokenize).1 =
      .ok [⟨TokenType.PRINT, "print".toList⟩, ⟨TokenType.LPAR, ['(']⟩,
        ⟨TokenType.STRING, ['\n']⟩, ⟨TokenType.RPAR, [')']⟩, ⟨TokenType.END, [';']⟩] ∧
    ((Lexer.new ("print(\"".toList ++ ['\r'] ++ "\");".toList)).tokenize).1 ≠
      .ok [⟨TokenType.PRINT, "print".toList⟩, ⟨TokenType.LPAR, ['(']⟩,
        ⟨TokenType.STRING, ['\r']⟩, ⟨TokenType.RPAR, [')']⟩, ⟨TokenType.END, [';']⟩] := by
  have hn : normalizeNewlines ['\r'] = ['\n'] := by
    rw [normalizeNewlines_eq_normalizeRef]; rfl
  rw [tokenize_print_literal ['\r'] (by decide), hn]
  exact ⟨by decide, rfl, by simp⟩

/-- C2, amended. For every text `s` without double quote, tokenizing
`print("s");` succeeds and returns exactly the five tokens `PRINT "print"`,
`LPAR "("`, `STRING s'`, `RPAR ")"`, `END ";"`, where `s'` is `s` after
newline normalisation (each "\r\n" pair and each remaining "\r" replaced by
"\n"); `s'` is `s` itself exactly when `s` has no carriage return, and then
the `STRING` token's text is the characters between the quotes. -/
theorem C2_string_literal (s : List Char) (h : '"' ∉ s) :
    ((Lexer.new ("print(\"".toList ++ s ++ "\");".toList)).tokenize).1 =
      .ok [⟨TokenType.PRINT, "print".toList⟩, ⟨TokenType.LPAR, ['(']⟩,
        ⟨TokenType.STRING, normalizeNewlines s⟩, ⟨TokenType.RPAR, [')']⟩,
        ⟨TokenType.END, [';']⟩] ∧
    (normalizeNewlines s = s ↔ '\r' ∉ s) ∧
    ('\r' ∉ s →
      ((Lexer.new ("print(\"".toList ++ s ++ "\");".toList)).tokenize).1 =
        .ok [⟨TokenType.PRINT, "print".toList⟩, ⟨TokenType.LPAR, ['(']⟩,
          ⟨TokenType.STRING, s⟩, ⟨TokenType.RPAR, [')']⟩, ⟨TokenType.END, [';']⟩]) := by
  refine ⟨by rw [tokenize_print_literal s h], ?_, ?_⟩
  · constructor
    · intro e
      rw [← e]
      exact cr_not_mem_normalizeNewlines s
    · exact normalizeNewlines_of_not_mem
  · intro hcr
    rw [tokenize_print_literal s h, normalizeNewlines_of_not_mem hcr]

/-- C2, amended, at `s = "hello"`. -/
theorem C2_string_literal_witness :
    ((Lexer.new ("print(\"".toList ++ "hello".toList ++ "\");".toList)).tokenize).1 =
      .ok [⟨TokenType.PRINT, "print".toList⟩, ⟨TokenType.LPAR, ['(']⟩,
        ⟨TokenType.STRING, "hello".toList⟩, ⟨TokenType.RPAR, [')']⟩,
        ⟨TokenType.END, [';']⟩] :=
  (C2_string_literal "hello".toList (by decide)).2.2 (by decide)

/-! ## C3: unterminated strings -/

/-- C3 at its failing input: the text `print("`, whose last character opens a
string literal. `tokenize` throws nothing: it returns the tokens `PRINT`,
`LPAR` and an appended `END`, and leaves the lexer in state `STRING`; a second
call on the same object, as `main` makes, then reads the whole text as a
string literal, and `main` reports an unexpected token `print(`. -/
theorem C3_open_quote_at_end :
    (Lexer.new "print(\"".toList).tokenize =
      (.ok [⟨TokenType.PRINT, "print".toList⟩, ⟨TokenType.LPAR, ['(']⟩,
          ⟨TokenType.END, []⟩],
        { sourceCode := "print(\"".toList, state := LexerState.STRING }) ∧
    main "print(\"".toList =
      (.error (Failure.syntactic (SyntaxError.UnexpectedToken "print(".toList 0)), []) := by
  have hn : normalizeNewlines "print(\"".toList = "print(\"".toList :=
    normalizeNewlines_of_not_mem (by decide)
  have h1 : (Lexer.new "print(\"".toList).tokenize =
      (.ok [⟨TokenType.PRINT, "print".toList⟩, ⟨TokenType.LPAR, ['(']⟩,
          ⟨TokenType.END, []⟩],
        { sourceCode := "print(\"".toList, state := LexerState.STRING }) := by
    have hs := scan_open_literal "print(\"".toList [] (by simp)
    simp only [List.append_nil, ↓reduceIte] at hs
    simp only [Lexer.tokenize, Lexer.new, hn, hs, addKeywordToken]
    simp [lacksEnd]
  refine ⟨h1, ?_⟩
  have h2 : (Lexer.tokenize { sourceCode := "print(\"".toList, state := LexerState.STRING }) =
      (.ok [⟨TokenType.STRING, "print(".toList⟩, ⟨TokenType.END, []⟩],
        { sourceCode := "print(\"".toList, state := LexerState.DEFAULT }) := by
    have hs := scan_string_closed "print(\"".toList "print(".toList [] 0 [] [] (by decide)
    have e : "print(".toList ++ ['"'] = "print(\"".toList := by decide
    rw [e, scan_nil] at hs
    simp only [Lexer.tokenize, hs, addKeywordToken]
    simp [lacksEnd]
  unfold main
  simp only [h1, h2]
  rw [Parser.parse_eq_parseRef]
  rfl

/-! ## C4: print without argument -/

/-- C4 at its failing input, the program `print()`: `tokenize` returns the
four tokens `PRINT`, `LPAR`, `RPAR`, `END`, and `parse` throws "incomplete
print statement" on them, because `handlePrintStatement` asks for five
remaining tokens before it inserts the `UNKNOWN` token; so `main` stops with
that syntax error and SemanticAnalysis is never run. The same holds for the
terminated program `print();`. -/
theorem C4_print_no_argument :
    ((Lexer.new "print()".toList).tokenize).1 =
      .ok [⟨TokenType.PRINT, "print".toList⟩, ⟨TokenType.LPAR, ['(']⟩,
        ⟨TokenType.RPAR, [')']⟩, ⟨TokenType.END, []⟩] ∧
    (Parser.new [⟨TokenType.PRINT, "print".toList⟩, ⟨TokenType.LPAR, ['(']⟩,
        ⟨TokenType.RPAR, [')']⟩, ⟨TokenType.END, []⟩]).parse =
      .error (Failure.syntactic SyntaxError.IncompletePrint) ∧
    main "print()".toList = (.error (Failure.syntactic SyntaxError.IncompletePrint), []) ∧
    main "print();".toList = (.error (Failure.syntactic SyntaxError.IncompletePrint), []) := by
  have hp : (Parser.new [⟨TokenType.PRINT, "print".toList⟩, ⟨TokenType.LPAR, ['(']⟩,
        ⟨TokenType.RPAR, [')']⟩, ⟨TokenType.END, []⟩]).parse =
      .error (Failure.syntactic SyntaxError.IncompletePrint) := by
    rw [Parser.parse_eq_parseRef]; rfl
  refine ⟨by rw [tokenize_print_no_argument], hp, ?_, ?_⟩
  · unfold main
    simp only [tokenize_print_no_argument, hp]
  · have e : "print();".toList = programText [{ argument := none, terminator := ';' }] := by
      decide
    rw [e, main_programText _ (by
      intro st hst
      simp only [List.mem_singleton] at hst
      subst hst
      exact ⟨fun s hs => (by cases hs), Or.inl rfl⟩), Parser.parse_eq_parseRef]
    rfl

/-! ## C5: the three passes -/

/-- C5. For every node list, running SemanticAnalysis, then Optimization,
then Execution over all nodes: (1) if some `PrintNode` has an absent
argument, the run fails with `MissingArgument` and nothing is written,
wherever the node stands; (2) otherwise, if some `PrintNode` has the empty
string as argument value, the run fails with `EmptyStringArgument` thrown by
the Optimization pass and nothing is written; (3) otherwise the run succeeds
and the output is the argument values of the `PrintNode`s in list order, each
followed by a line terminator. Whenever SemanticAnalysis has succeeded, the
Optimization pass does not dereference an absent argument. -/
theorem C5_passes (nodes : List ASTNode) :
    (emptyPrintNode ∈ nodes →
      runPasses nodes = (.error (Failure.semantic SemanticError.MissingArgument), [])) ∧
    (emptyPrintNode ∉ nodes → printNode [] ∈ nodes →
      runPasses nodes =
        (.error (Failure.optimization OptimizationError.EmptyStringArgument), []) ∧
      forEachNode OptimizationVisitor.visit nodes =
        .error (Failure.optimization OptimizationError.EmptyStringArgument)) ∧
    (emptyPrintNode ∉ nodes → printNode [] ∉ nodes →
      runPasses nodes = (.ok (), writtenLines (argumentValues nodes))) ∧
    (forEachNode SemanticAnalysisVisitor.visit nodes = .ok () →
      forEachNode OptimizationVisitor.visit nodes ≠ .error Failure.nullDereference) := by
  refine ⟨?_, ?_, ?_, ?_⟩
  · intro h
    rw [runPasses_eq]; simp [h]
  · intro h1 h2
    rw [runPasses_eq, forEachNode_optimization nodes h1]
    simp [h1, h2]
  · intro h1 h2
    rw [runPasses_eq]; simp [h1, h2]
  · intro h
    rw [forEachNode_semantic] at h
    have h1 : emptyPrintNode ∉ nodes := by
      intro hm; simp [hm] at h
    rw [forEachNode_optimization nodes h1]
    split <;> simp

/-- C5 on three node lists: an absent argument after an empty string, an
empty string alone, and two proper arguments. -/
theorem C5_passes_witness :
    runPasses [printNode [], emptyPrintNode] =
      (.error (Failure.semantic SemanticError.MissingArgument), []) ∧
    runPasses [printNode ['a'], printNode []] =
      (.error (Failure.optimization OptimizationError.EmptyStringArgument), []) ∧
    runPasses [printNode ['a'], printNode ['b']] = (.ok (), ['a', '\n', 'b', '\n']) :=
  ⟨(C5_passes _).1 (by decide),
    ((C5_passes _).2.1 (by decide) (by decide)).1,
    (C5_passes _).2.2.1 (by decide) (by decide)⟩

/-! ## C6: empty string literal -/

/-- C6. For every program `print("s_1")t_1 ... print("s_n")t_n` with each
`s_i` without double quote, each `t_i` a semicolon or a line feed, and some
`s_i` empty: `tokenize` and `parse` succeed, every node is a `PrintNode` with
a present argument (the normalised `s_i`, the empty one for an empty `s_i`),
SemanticAnalysis succeeds, Optimization fails with `EmptyStringArgument`, and
nothing is written. -/
theorem C6_empty_string (pairs : List (List Char × Char))
    (h : ∀ p ∈ pairs, '"' ∉ p.1 ∧ (p.2 = ';' ∨ p.2 = '\n'))
    (hempty : ∃ p ∈ pairs, p.1 = []) :
    ((Lexer.new (programText (printStatements pairs))).tokenize).1 =
      .ok (programTokens (printStatements pairs)) ∧
    (Parser.new (programTokens (printStatements pairs))).parse =
      .ok (pairs.map fun p => printNode (normalizeNewlines p.1)) ∧
    emptyPrintNode ∉ (pairs.map fun p => printNode (normalizeNewlines p.1)) ∧
    printNode [] ∈ (pairs.map fun p => printNode (normalizeNewlines p.1)) ∧
    forEachNode SemanticAnalysisVisitor.visit
      (pairs.map fun p => printNode (normalizeNewlines p.1)) = .ok () ∧
    forEachNode OptimizationVisitor.visit
      (pairs.map fun p => printNode (normalizeNewlines p.1)) =
        .error (Failure.optimization OptimizationError.EmptyStringArgument) ∧
    main (programText (printStatements pairs)) =
      (.error (Failure.optimization OptimizationError.EmptyStringArgument), []) := by
  have hw := printStatements_wellFormed pairs h
  have hne : printStatements pairs ≠ [] := by
    obtain ⟨p, hp, _⟩ := hempty
    intro e
    simp only [printStatements, List.map_eq_nil_iff] at e
    rw [e] at hp
    cases hp
  have hparse := parse_programTokens _ hne (printStatements_argument pairs)
  rw [printStatements_nodes] at hparse
  have hmap : (pairs.map fun p => printNode (normalizeNewlines p.1)) =
      (pairs.map fun p => normalizeNewlines p.1).map printNode := by
    rw [List.map_map]; rfl
  have h1 := emptyPrintNode_not_mem (pairs.map fun p => normalizeNewlines p.1)
  have h2 : printNode [] ∈ (pairs.map fun p => normalizeNewlines p.1).map printNode := by
    rw [printNode_nil_mem]
    obtain ⟨p, hp, e⟩ := hempty
    exact List.mem_map.2 ⟨p, hp, by rw [e]; exact (normalizeNewlines_eq_nil_iff []).2 rfl⟩
  refine ⟨by rw [tokenize_programText _ hw], hparse, by rw [hmap]; exact h1,
    by rw [hmap]; exact h2, ?_, ?_, ?_⟩
  · rw [hmap, forEachNode_semantic]; simp only [h1, ↓reduceIte]
  · rw [hmap, forEachNode_optimization _ h1]; simp only [h2, ↓reduceIte]
  · rw [main_programText _ hw, hparse]
    simp only [hmap]
    rw [runPasses_eq]
    simp only [h1, h2, ↓reduceIte]

/-- C6 on the program `print("");`. -/
theorem C6_empty_string_witness :
    ((Lexer.new (programText (printStatements [([], ';')]))).tokenize).1 =
      .ok (programTokens (printStatements [([], ';')])) ∧
    (Parser.new (programTokens (printStatements [([], ';')]))).parse =
      .ok ([(([] : List Char), ';')].map fun p => printNode (normalizeNewlines p.1)) ∧
    emptyPrintNode ∉
      ([(([] : List Char), ';')].map fun p => printNode (normalizeNewlines p.1)) ∧
    printNode [] ∈
      ([(([] : List Char), ';')].map fun p => printNode (normalizeNewlines p.1)) ∧
    forEachNode SemanticAnalysisVisitor.visit
      ([(([] : List Char), ';')].map fun p => printNode (normalizeNewlines p.1)) = .ok () ∧
    forEachNode OptimizationVisitor.visit
      ([(([] : List Char), ';')].map fun p => printNode (normalizeNewlines p.1)) =
        .error (Failure.optimization OptimizationError.EmptyStringArgument) ∧
    main (programText (printStatements [([], ';')])) =
      (.error (Failure.optimization OptimizationError.EmptyStringArgument), []) :=
  C6_empty_string [([], ';')] (by decide) (by decide)

/-! ## C7: parsing well-formed token groups -/

/-- C7. Parsing the token sequence made of `n ≥ 1` consecutive groups
`[Print, LeftParen, String s_i, RightParen, End]` (whatever the texts of the
other four tokens) succeeds and returns exactly `n` nodes, the `i`-th being
the `PrintNode` whose argument is `StringNode(s_i)`, in the order of the
groups. -/
theorem C7_parse_groups (g : PrintGroup) (groups : List PrintGroup) :
    (Parser.new (groupTokens (g :: groups))).parse =
      .ok ((g :: groups).map fun g => printNode g.argument) ∧
    ((g :: groups).map fun g => printNode g.argument).length = groups.length + 1 := by
  refine ⟨?_, by simp⟩
  rw [Parser.parse_eq_parseRef, parseRef_groupTokens]
  simp [groupTokens, PrintGroup.tokens]

/-! ## C8: the node factory -/

/-- C8. For every two-token slice `[t0, t1]`, `createNode` returns a
`PrintNode` when `t0` is a `PRINT` token, with an absent argument if `t1` is
`UNKNOWN` and `StringNode(t1.value)` otherwise, and throws "unrecognized
instruction" when `t0` is not a `PRINT` token; so it fails with that error
if and only if `t0.type` is not `PRINT`. -/
theorem C8_createNode_contract (t0 t1 : Token) :
    createNode [t0, t1] =
      (if t0.type = TokenType.PRINT then
        .ok (ASTNode.ofPrint
          { stringNode := if t1.type = TokenType.UNKNOWN then none
                          else some { value := t1.value } })
      else .error (Failure.syntactic SyntaxError.UnrecognizedInstruction)) ∧
    (createNode [t0, t1] = .error (Failure.syntactic SyntaxError.UnrecognizedInstruction) ↔
      t0.type ≠ TokenType.PRINT) ∧
    ((∃ e, createNode [t0, t1] = .error e) ↔ t0.type ≠ TokenType.PRINT) := by
  by_cases h : t0.type = TokenType.PRINT
  · rw [createNode_print t0 t1 h]
    simp [h]
  · have : createNode [t0, t1] =
        .error (Failure.syntactic SyntaxError.UnrecognizedInstruction) := by
      obtain ⟨ty, v⟩ := t0
      cases ty <;> simp_all [createNode, vectorAt]
    rw [this]
    simp [h]

/-! ## C9: position reported with an unexpected token -/

/-- C9, as stated, fails: on the tokens of `print()`, line break, `(`, the
parse fails with "unexpected token '(' at position 5", but the token at
position 5 of the sequence passed to `parse` is the final `END` token, whose
text is empty; the `(` token is at position 4. -/
theorem C9_counterexample :
    (Parser.new strayParenTokens).parse =
      .error (Failure.syntactic (SyntaxError.UnexpectedToken ['('] 5)) ∧
    strayParenTokens[5]? = some ⟨TokenType.END, []⟩ ∧
    strayParenTokens[4]? = some ⟨TokenType.LPAR, ['(']⟩ ∧
    ¬ ∃ t, strayParenTokens[5]? = some t ∧ t.value = ['('] := by
  refine ⟨?_, by decide, by decide, by decide⟩
  rw [Parser.parse_eq_parseRef]
  rfl

/-- C9, amended. When `parse` fails with "unexpected token", the sequence
passed to `parse` splits as complete statements `pre`, then a token `t` that
is not `PRINT` (where a statement was expected to start), then the rest; the
text reported is the text of `t`, and the index reported is the position of
`t` in the parser's own token vector, that is its position in the sequence
passed to `parse` plus the number `k` of `UNKNOWN` tokens inserted for the
argument-less statements of `pre`. -/
theorem C9_unexpectedToken_position (tokens : List Token) (v : List Char) (i : Nat)
    (h : (Parser.new tokens).parse =
      .error (Failure.syntactic (SyntaxError.UnexpectedToken v i))) :
    ∃ pre t rest k, tokens = pre ++ t :: rest ∧ placeholders pre = some k ∧
      t.type ≠ TokenType.PRINT ∧ t.value = v ∧ i = pre.length + k ∧
      tokens[i - k]? = some t := by
  rw [Parser.parse_eq_parseRef] at h
  split at h
  · cases h
  · obtain ⟨pre, t, rest, k, h1, h2, h3, h4, h5⟩ :=
      parseRef_unexpected tokens.length tokens 0 v i (Nat.le_refl _) h
    refine ⟨pre, t, rest, k, h1, h2, h3, h4, by omega, ?_⟩
    have : i - k = pre.length := by omega
    rw [this, h1, List.getElem?_append_right (Nat.le_refl _)]
    simp

/-- C9, amended, at the tokens of `print()`, line break, `(`. -/
theorem C9_unexpectedToken_position_witness :
    ∃ pre t rest k, strayParenTokens = pre ++ t :: rest ∧ placeholders pre = some k ∧
      t.type ≠ TokenType.PRINT ∧ t.value = ['('] ∧ 5 = pre.length + k ∧
      strayParenTokens[5 - k]? = some t :=
  C9_unexpectedToken_position strayParenTokens ['('] 5
    (by rw [Parser.parse_eq_parseRef]; rfl)

/-! ## C10: incomplete print statement -/

/-- C10. When, after complete statements `pre`, the cursor is at a `PRINT`
token `t` with fewer than five tokens remaining from the cursor (`t` and
fewer than four more), `parse` fails with "incomplete print statement",
whatever the remaining tokens are; and `parse` fails with "no tokens to
parse" if and only if the token sequence is empty. -/
theorem C10_incompletePrint (pre : List Token) (t : Token) (rest : List Token) (k : Nat)
    (hpre : placeholders pre = some k) (ht : t.type = TokenType.PRINT)
    (hlen : rest.length < 4) :
    (Parser.new (pre ++ t :: rest)).parse =
      .error (Failure.syntactic SyntaxError.IncompletePrint) ∧
    ∀ tokens : List Token,
      (Parser.new tokens).parse = .error (Failure.syntactic SyntaxError.NoTokens) ↔
        tokens = [] := by
  constructor
  · rw [Parser.parse_eq_parseRef]
    simp only [List.append_eq_nil, reduceCtorEq, and_false, ↓reduceIte]
    exact parseRef_error_after pre.length pre (t :: rest) 0 k _ (Nat.le_refl _) hpre
      (by simp) (parseRef_short _ t rest ht hlen)
  · intro tokens
    rw [Parser.parse_eq_parseRef]
    constructor
    · intro h
      by_contra hne
      simp only [hne, ↓reduceIte] at h
      exact parseRef_ne_noTokens tokens.length tokens 0 (Nat.le_refl _) h
    · intro h
      simp [h]

/-- C10 at the tokens of the program `print("a");print()`: one complete
statement, then a `PRINT` token with three tokens after it. -/
theorem C10_incompletePrint_witness :
    (Parser.new
      ([⟨TokenType.PRINT, "print".toList⟩, ⟨TokenType.LPAR, ['(']⟩,
          ⟨TokenType.STRING, ['a']⟩, ⟨TokenType.RPAR, [')']⟩, ⟨TokenType.END, [';']⟩] ++
        (⟨TokenType.PRINT, "print".toList⟩ : Token) ::
          [⟨TokenType.LPAR, ['(']⟩, ⟨TokenType.RPAR, [')']⟩, ⟨TokenType.END, []⟩])).parse =
      .error (Failure.syntactic SyntaxError.IncompletePrint) ∧
    ∀ tokens : List Token,
      (Parser.new tokens).parse = .error (Failure.syntactic SyntaxError.NoTokens) ↔
        tokens = [] :=
  C10_incompletePrint _ _ _ 0 rfl rfl (by decide)

/-! ## C11: the end-token postcondition -/

/-- C11. Whenever `tokenize` succeeds, on a `Lexer` built from any source
text (and in whatever state the object is), the returned token sequence is
empty or its last token has kind `END`. -/
theorem C11_end_token (lexer : Lexer) (tokens : List Token)
    (h : lexer.tokenize.1 = .ok tokens) :
    tokens = [] ∨ ∃ t, tokens.getLast? = some t ∧ t.type = TokenType.END :=
  tokenize_ends_with_end lexer tokens h

/-- C11 on the program `print("hello");`: `tokenize` succeeds and the last of
the five tokens is the `END` token of the semicolon. -/
theorem C11_end_token_witness :
    ((Lexer.new ("print(\"".toList ++ "hello".toList ++ "\");".toList)).tokenize).1 =
      .ok [⟨TokenType.PRINT, "print".toList⟩, ⟨TokenType.LPAR, ['(']⟩,
        ⟨TokenType.STRING, "hello".toList⟩, ⟨TokenType.RPAR, [')']⟩,
        ⟨TokenType.END, [';']⟩] ∧
    (([⟨TokenType.PRINT, "print".toList⟩, ⟨TokenType.LPAR, ['(']⟩,
        ⟨TokenType.STRING, "hello".toList⟩, ⟨TokenType.RPAR, [')']⟩,
        ⟨TokenType.END, [';']⟩] : List Token) = [] ∨
      ∃ t, ([⟨TokenType.PRINT, "print".toList⟩, ⟨TokenType.LPAR, ['(']⟩,
          ⟨TokenType.STRING, "hello".toList⟩, ⟨TokenType.RPAR, [')']⟩,
          ⟨TokenType.END, [';']⟩] : List Token).getLast? = some t ∧
        t.type = TokenType.END) :=
  have h : ((Lexer.new ("print(\"".toList ++ "hello".toList ++ "\");".toList)).tokenize).1 =
      .ok [⟨TokenType.PRINT, "print".toList⟩, ⟨TokenType.LPAR, ['(']⟩,
        ⟨TokenType.STRING, "hello".toList⟩, ⟨TokenType.RPAR, [')']⟩,
        ⟨TokenType.END, [';']⟩] := by
    rw [tokenize_print_literal _ (by decide), normalizeNewlines_of_not_mem (by decide)]
  ⟨h, C11_end_token _ _ h⟩

/-! ## C12: normalising twice -/

/-- C12. For every source text `s`, normalising the normalised text changes
nothing, so the `Lexer` built from `normalizeNewlines s` is the `Lexer` built
from `s` and `tokenize` returns the same result on both: the same tokens or
the same error, and the same object after the call. -/
theorem C12_normalize_idempotent (s : List Char) :
    normalizeNewlines (normalizeNewlines s) = normalizeNewlines s ∧
    Lexer.new (normalizeNewlines s) = Lexer.new s ∧
    (Lexer.new (normalizeNewlines s)).tokenize = (Lexer.new s).tokenize := by
  have h := normalizeNewlines_idem s
  have h2 : Lexer.new (normalizeNewlines s) = Lexer.new s := by
    simp only [Lexer.new, h]
  exact ⟨h, h2, by rw [h2]⟩

/-! ## C13: the lexer never emits `UNKNOWN` -/

/-- C13. Whenever `tokenize` succeeds, on a `Lexer` built from any source
text (and in whatever state the object is), no token of the returned sequence
has kind `UNKNOWN`. -/
theorem C13_no_unknown (lexer : Lexer) (tokens : List Token)
    (h : lexer.tokenize.1 = .ok tokens) : ∀ t ∈ tokens, t.type ≠ TokenType.UNKNOWN := by
  refine tokenize_invariant (fun toks => ∀ t ∈ toks, t.type ≠ TokenType.UNKNOWN)
    (by simp) ?_ lexer tokens h
  intro toks t h0 he x hx
  rcases List.mem_append.1 hx with hx | hx
  · exact h0 x hx
  · simp only [List.mem_singleton] at hx
    subst hx
    exact emits_not_unknown he

/-- C13 on the program `print("hello");`: `tokenize` succeeds and none of the
five tokens is `UNKNOWN`. -/
theorem C13_no_unknown_witness :
    ((Lexer.new ("print(\"".toList ++ "hello".toList ++ "\");".toList)).tokenize).1 =
      .ok [⟨TokenType.PRINT, "print".toList⟩, ⟨TokenType.LPAR, ['(']⟩,
        ⟨TokenType.STRING, "hello".toList⟩, ⟨TokenType.RPAR, [')']⟩,
        ⟨TokenType.END, [';']⟩] ∧
    List.all ([⟨TokenType.PRINT, "print".toList⟩, ⟨TokenType.LPAR, ['(']⟩,
        ⟨TokenType.STRING, "hello".toList⟩, ⟨TokenType.RPAR, [')']⟩,
        ⟨TokenType.END, [';']⟩] : List Token)
      (fun t => decide (t.type ≠ TokenType.UNKNOWN)) = true :=
  have h : ((Lexer.new ("print(\"".toList ++ "hello".toList ++ "\");".toList)).tokenize).1 =
      .ok [⟨TokenType.PRINT, "print".toList⟩, ⟨TokenType.LPAR, ['(']⟩,
        ⟨TokenType.STRING, "hello".toList⟩, ⟨TokenType.RPAR, [')']⟩,
        ⟨TokenType.END, [';']⟩] := by
    rw [tokenize_print_literal _ (by decide), normalizeNewlines_of_not_mem (by decide)]
  ⟨h, List.all_eq_true.2 fun t ht => decide_eq_true (C13_no_unknown _ _ h t ht)⟩

/-! ## C14: the parser never faults on an index -/

/-- C14. For every token sequence, `parse` returns a node list or fails with
one of `NoTokens`, `UnexpectedToken`, `IncompletePrint`, `ExpectedLParen`,
`ExpectedRParen`, `ExpectedTerminator`; it never fails with the
`std::out_of_range` of an access `tokens.at(tokenIndex + k)`, and never with
the factory's `UnrecognizedInstruction`. -/
theorem C14_parse_total (tokens : List Token) :
    ((∃ nodes, (Parser.new tokens).parse = .ok nodes) ∨
      (Parser.new tokens).parse = .error (Failure.syntactic SyntaxError.NoTokens) ∨
      (∃ v i, (Parser.new tokens).parse =
        .error (Failure.syntactic (SyntaxError.UnexpectedToken v i))) ∨
      (Parser.new tokens).parse = .error (Failure.syntactic SyntaxError.IncompletePrint) ∨
      (Parser.new tokens).parse = .error (Failure.syntactic SyntaxError.ExpectedLParen) ∨
      (Parser.new tokens).parse = .error (Failure.syntactic SyntaxError.ExpectedRParen) ∨
      (Parser.new tokens).parse =
        .error (Failure.syntactic SyntaxError.ExpectedTerminator)) ∧
    (Parser.new tokens).parse ≠ .error Failure.outOfRange ∧
    (Parser.new tokens).parse ≠
      .error (Failure.syntactic SyntaxError.UnrecognizedInstruction) := by
  refine ⟨parse_outcome tokens, ?_, ?_⟩
  · intro h
    rcases parse_outcome tokens with ⟨_, h'⟩ | h' | ⟨_, _, h'⟩ | h' | h' | h' | h' <;>
      rw [h'] at h <;> cases h
  · intro h
    rcases parse_outcome tokens with ⟨_, h'⟩ | h' | ⟨_, _, h'⟩ | h' | h' | h' | h' <;>
      rw [h'] at h <;> cases h

/-! ## C15: five-token window accounting -/

/-- C15. When `parse` succeeds on a token sequence and returns `n` nodes, `m`
of which are `PrintNode`s with an absent argument, then `n ≥ 1`, every node is
a `PrintNode`, and the sequence has exactly `5 * n - m` tokens. -/
theorem C15_window_accounting (tokens : List Token) (nodes : List ASTNode)
    (h : (Parser.new tokens).parse = .ok nodes) :
    1 ≤ nodes.length ∧
    tokens.length = 5 * nodes.length - nodes.count emptyPrintNode ∧
    nodes.count emptyPrintNode ≤ nodes.length ∧
    (∀ node ∈ nodes, node = emptyPrintNode ∨ ∃ s, node = printNode s) := by
  obtain ⟨hne, hp⟩ := parse_ok h
  obtain ⟨_, a2, _, a4⟩ := parseRef_ok tokens.length tokens 0 nodes (Nat.le_refl _) hp
  have hl : 0 < tokens.length := List.length_pos.2 hne
  have hc : nodes.count emptyPrintNode ≤ nodes.length := List.count_le_length _ _
  exact ⟨by omega, by omega, hc, a4⟩

/-- C15 on the tokens of `print();print("a");`: `parse` succeeds with two
nodes, one with an absent argument, and the sequence has nine tokens. -/
theorem C15_window_accounting_witness :
    (Parser.new [⟨TokenType.PRINT, "print".toList⟩, ⟨TokenType.LPAR, ['(']⟩,
        ⟨TokenType.RPAR, [')']⟩, ⟨TokenType.END, [';']⟩,
        ⟨TokenType.PRINT, "print".toList⟩, ⟨TokenType.LPAR, ['(']⟩,
        ⟨TokenType.STRING, ['a']⟩, ⟨TokenType.RPAR, [')']⟩,
        ⟨TokenType.END, [';']⟩]).parse = .ok [emptyPrintNode, printNode ['a']] ∧
    (1 ≤ [emptyPrintNode, printNode ['a']].length ∧
    ([⟨TokenType.PRINT, "print".toList⟩, ⟨TokenType.LPAR, ['(']⟩, ⟨TokenType.RPAR, [')']⟩,
        ⟨TokenType.END, [';']⟩, ⟨TokenType.PRINT, "print".toList⟩,
        ⟨TokenType.LPAR, ['(']⟩, ⟨TokenType.STRING, ['a']⟩, ⟨TokenType.RPAR, [')']⟩,
        ⟨TokenType.END, [';']⟩] : List Token).length =
      5 * [emptyPrintNode, printNode ['a']].length -
        [emptyPrintNode, printNode ['a']].count emptyPrintNode ∧
    [emptyPrintNode, printNode ['a']].count emptyPrintNode ≤
      [emptyPrintNode, printNode ['a']].length ∧
    (∀ node ∈ [emptyPrintNode, printNode ['a']],
      node = emptyPrintNode ∨ ∃ s, node = printNode s)) :=
  have h : (Parser.new [⟨TokenType.PRINT, "print".toList⟩, ⟨TokenType.LPAR, ['(']⟩,
        ⟨TokenType.RPAR, [')']⟩, ⟨TokenType.END, [';']⟩,
        ⟨TokenType.PRINT, "print".toList⟩, ⟨TokenType.LPAR, ['(']⟩,
        ⟨TokenType.STRING, ['a']⟩, ⟨TokenType.RPAR, [')']⟩,
        ⟨TokenType.END, [';']⟩]).parse = .ok [emptyPrintNode, printNode ['a']] := by
    rw [Parser.parse_eq_parseRef]; rfl
  ⟨h, C15_window_accounting _ _ h⟩

/-! ## C16: line breaks never produce a spurious `END` -/

/-- C16. Whenever `tokenize` succeeds, every `END` token of the result whose
text is not ";" (the one of a line break, with text backslash n, or the one
appended at the end of the text, with empty text) comes right after a token
whose kind is not `END`, so it is never the first token; and a source text
made only of spaces, tabs and line breaks tokenizes to the empty sequence. -/
theorem C16_no_spurious_end (lexer : Lexer) (tokens : List Token)
    (h : lexer.tokenize.1 = .ok tokens) :
    (∀ pre t post, tokens = pre ++ t :: post → t.type = TokenType.END → t.value ≠ [';'] →
      ∃ pre' u, pre = pre' ++ [u] ∧ u.type ≠ TokenType.END) ∧
    (∀ t rest, tokens = t :: rest → t.type = TokenType.END → t.value = [';']) ∧
    (∀ s : List Char, (∀ c ∈ s, c = ' ' ∨ c = '\t' ∨ c = '\n' ∨ c = '\r') →
      ((Lexer.new s).tokenize).1 = .ok []) := by
  have h1 : NoSpuriousEnd tokens :=
    tokenize_invariant NoSpuriousEnd
      (by intro pre t post hx; simp at hx) noSpuriousEnd_append lexer tokens h
  refine ⟨h1, ?_, ?_⟩
  · intro t rest ht hty
    by_contra hv
    obtain ⟨pre', u, hp, _⟩ := h1 [] t rest (by simpa using ht) hty hv
    simp at hp
  · intro s hs
    rw [tokenize_blank s hs]

/-- C16 on the program `print("a")` followed by a line feed: `tokenize`
succeeds, and its last token is the `END` token of the line break. -/
theorem C16_no_spurious_end_witness :
    ((Lexer.new (programText [{ argument := some ['a'], terminator := '\n' }])).tokenize).1 =
      .ok (programTokens [{ argument := some ['a'], terminator := '\n' }]) ∧
    ((∀ pre t post,
      programTokens [{ argument := some ['a'], terminator := '\n' }] = pre ++ t :: post →
      t.type = TokenType.END → t.value ≠ [';'] →
      ∃ pre' u, pre = pre' ++ [u] ∧ u.type ≠ TokenType.END) ∧
    (∀ t rest, programTokens [{ argument := some ['a'], terminator := '\n' }] = t :: rest →
      t.type = TokenType.END → t.value = [';']) ∧
    (∀ s : List Char, (∀ c ∈ s, c = ' ' ∨ c = '\t' ∨ c = '\n' ∨ c = '\r') →
      ((Lexer.new s).tokenize).1 = .ok [])) :=
  have h : ((Lexer.new
        (programText [{ argument := some ['a'], terminator := '\n' }])).tokenize).1 =
      .ok (programTokens [{ argument := some ['a'], terminator := '\n' }]) := by
    rw [tokenize_programText _ (by
      intro st hst
      simp only [List.mem_singleton] at hst
      subst hst
      exact ⟨fun s hs => (by
        simp only [Option.some.injEq] at hs
        subst hs
        decide), Or.inr rfl⟩)]
  ⟨h, C16_no_spurious_end _ _ h⟩

/-! ## C17: whitespace outside string literals -/

/-- C17. For all source texts `p` and `q`, `p` with an even number of double
quotes, and every text `w` of spaces and tabs, `tokenize` on `p ++ w ++ q` and
on `p ++ q` return the same token sequence, or both fail with the same kind
of lexical error (the positions and contexts the errors carry may differ). -/
theorem C17_whitespace_insignificant (p q w : List Char) (hp : p.count '"' % 2 = 0)
    (hw : ∀ c ∈ w, c = ' ' ∨ c = '\t') :
    (∃ tokens, ((Lexer.new (p ++ w ++ q)).tokenize).1 = .ok tokens ∧
      ((Lexer.new (p ++ q)).tokenize).1 = .ok tokens) ∨
    (∃ e1 e2, ((Lexer.new (p ++ w ++ q)).tokenize).1 = .error e1 ∧
      ((Lexer.new (p ++ q)).tokenize).1 = .error e2 ∧ e1.kind = e2.kind) := by
  have h := tokenize_blanks_insignificant p q w hp hw
  cases h1 : ((Lexer.new (p ++ w ++ q)).tokenize).1 with
  | ok t1 =>
    cases h2 : ((Lexer.new (p ++ q)).tokenize).1 with
    | ok t2 =>
      rw [h1, h2] at h
      simp only [eraseError, Except.ok.injEq] at h
      exact Or.inl ⟨t1, rfl, by rw [h]⟩
    | error e2 => rw [h1, h2] at h; simp [eraseError] at h
  | error e1 =>
    cases h2 : ((Lexer.new (p ++ q)).tokenize).1 with
    | ok t2 => rw [h1, h2] at h; simp [eraseError] at h
    | error e2 =>
      rw [h1, h2] at h
      simp only [eraseError, Except.error.injEq] at h
      exact Or.inr ⟨e1, e2, rfl, rfl, h⟩

/-- C17 on `print(` and `"a");` with one space between them. -/
theorem C17_whitespace_insignificant_witness :
    (∃ tokens,
      ((Lexer.new ("print(".toList ++ [' '] ++ "\"a\");".toList)).tokenize).1 = .ok tokens ∧
      ((Lexer.new ("print(".toList ++ "\"a\");".toList)).tokenize).1 = .ok tokens) ∨
    (∃ e1 e2,
      ((Lexer.new ("print(".toList ++ [' '] ++ "\"a\");".toList)).tokenize).1 = .error e1 ∧
      ((Lexer.new ("print(".toList ++ "\"a\");".toList)).tokenize).1 = .error e2 ∧
      e1.kind = e2.kind) :=
  C17_whitespace_insignificant "print(".toList "\"a\");".toList [' '] (by decide) (by decide)

/-! ## C18: newline normalisation against its reference -/

/-- C18. For every source text `s`, `normalizeNewlines s` (a total function:
both loops terminate) equals the single left-to-right pass `normalizeRef s`
that replaces each "\r\n" pair by one "\n" and each remaining "\r" by one
"\n"; the result has no carriage return, and a text without carriage return
is left unchanged. -/
theorem C18_normalize_reference (s : List Char) :
    normalizeNewlines s = normalizeRef s ∧
    '\r' ∉ normalizeNewlines s ∧
    ('\r' ∉ s → normalizeNewlines s = s) :=
  ⟨normalizeNewlines_eq_normalizeRef s, cr_not_mem_normalizeNewlines s,
    normalizeNewlines_of_not_mem⟩

/-! ## C19: calling `tokenize` twice -/

/-- C19 at its failing input, the text `print("`: the first call of `tokenize`
succeeds and returns `PRINT`, `LPAR`, `END`, but leaves the lexer state at
`STRING`, not `DEFAULT`; the second call on the same object succeeds too and
returns a different sequence, `STRING "print("`, `END`. -/
theorem C19_tokenize_not_repeatable :
    ((Lexer.new "print(\"".toList).tokenize).1 =
      .ok [⟨TokenType.PRINT, "print".toList⟩, ⟨TokenType.LPAR, ['(']⟩,
        ⟨TokenType.END, []⟩] ∧
    ((Lexer.new "print(\"".toList).tokenize).2.state = LexerState.STRING ∧
    (((Lexer.new "print(\"".toList).tokenize).2.tokenize).1 =
      .ok [⟨TokenType.STRING, "print(".toList⟩, ⟨TokenType.END, []⟩] ∧
    (((Lexer.new "print(\"".toList).tokenize).2.tokenize).1 ≠
      ((Lexer.new "print(\"".toList).tokenize).1 := by
  rw [tokenize_open_quote]
  refine ⟨rfl, rfl, ?_, ?_⟩
  · rw [tokenize_open_quote_again]
  · rw [tokenize_open_quote_again]
    simp

/-! ## C20: an `UNKNOWN` token in the parser's input -/

/-- C20. For every token sequence that contains a token of kind `UNKNOWN`,
`parse` fails with a syntax error; and whenever `parse` succeeds, no token of
the input is `UNKNOWN` and the input reads as complete statements of which
the argument-less ones (`PRINT LPAR RPAR END`, no `STRING` in the argument
slot) are exactly as many as the nodes with an absent argument. -/
theorem C20_unknown_rejected (tokens : List Token) :
    ((∃ t ∈ tokens, t.type = TokenType.UNKNOWN) →
      ∃ e, (Parser.new tokens).parse = .error (Failure.syntactic e)) ∧
    (∀ nodes, (Parser.new tokens).parse = .ok nodes →
      (∀ t ∈ tokens, t.type ≠ TokenType.UNKNOWN) ∧
      placeholders tokens = some (nodes.count emptyPrintNode)) := by
  have hok : ∀ nodes, (Parser.new tokens).parse = .ok nodes →
      (∀ t ∈ tokens, t.type ≠ TokenType.UNKNOWN) ∧
      placeholders tokens = some (nodes.count emptyPrintNode) := by
    intro nodes h
    obtain ⟨_, hp⟩ := parse_ok h
    obtain ⟨a1, _, a3, _⟩ := parseRef_ok tokens.length tokens 0 nodes (Nat.le_refl _) hp
    exact ⟨a1, a3⟩
  refine ⟨?_, hok⟩
  rintro ⟨t, ht, hu⟩
  rcases parse_outcome tokens with ⟨nodes, h'⟩ | h' | ⟨_, _, h'⟩ | h' | h' | h' | h'
  · exact absurd hu ((hok nodes h').1 t ht)
  all_goals exact ⟨_, h'⟩

/-- C20 on the tokens `PRINT LPAR UNKNOWN RPAR END`: `parse` fails with a
syntax error. -/
theorem C20_unknown_rejected_witness :
    ∃ e, (Parser.new [⟨TokenType.PRINT, "print".toList⟩, ⟨TokenType.LPAR, ['(']⟩,
        unknownToken, ⟨TokenType.RPAR, [')']⟩, ⟨TokenType.END, [';']⟩]).parse =
      .error (Failure.syntactic e) :=
  (C20_unknown_rejected _).1 ⟨unknownToken, by simp, rfl⟩

end SimpleLanguage
